import Mathlib

/-!
Shallow embedding of the `cidr-to-regex` library: the pipeline converting an
IPv4/IPv6 CIDR prefix into an anchored regular expression.  JavaScript strings
are modelled as `List Char`; JS `bigint` arithmetic is modelled with `Nat`
(all values are non-negative); fallible code returns `Option` / `Except`.
-/

namespace Cidr

abbrev Str := List Char

/-- `type ParsedCidr` family tag. -/
inductive Fam where
  | ipv4
  | ipv6
deriving DecidableEq, Repr

/-- `type ParsedCidr`: family, numeric address, prefix length. -/
structure ParsedCidr where
  family : Fam
  address : Nat
  prefixLen : Nat
deriving DecidableEq, Repr

/-- A JavaScript value passed to the public API: a string or any non-string. -/
inductive JSValue where
  | str : Str → JSValue
  | nonString : JSValue
deriving DecidableEq

/-- The compiled `RegExp` result: source text plus the `i` flag. -/
structure RegExpVal where
  source : Str
  ignoreCase : Bool
deriving DecidableEq, Repr

instance exceptDecEq {ε α : Type} [DecidableEq ε] [DecidableEq α] :
    DecidableEq (Except ε α)
  | .error a, .error b =>
    if h : a = b then .isTrue (congrArg Except.error h)
    else .isFalse (fun hh => h (Except.error.inj hh))
  | .error _, .ok _ => .isFalse (fun hh => Except.noConfusion hh)
  | .ok _, .error _ => .isFalse (fun hh => Except.noConfusion hh)
  | .ok a, .ok b =>
    if h : a = b then .isTrue (congrArg Except.ok h)
    else .isFalse (fun hh => h (Except.ok.inj hh))

def IPV4_BITS : Nat := 32
def IPV6_BITS : Nat := 128

def IPV4_ANY_OCTET : Str := "(?:0|[1-9][0-9]?|1[0-9]{2}|2[0-4][0-9]|25[0-5])".toList
def IPV6_ANY_HEXTET : Str := "[0-9a-f]{4}".toList
def HEX_DIGITS : Str := "0123456789abcdef".toList

/-! ### JavaScript string primitives -/

/-- `text.split(sep)` for a single-character separator. -/
def splitOnChar (sep : Char) : Str → List Str
  | [] => [[]]
  | c :: rest =>
    if c = sep then
      [] :: splitOnChar sep rest
    else
      match splitOnChar sep rest with
      | [] => [[c]]
      | p :: ps => (c :: p) :: ps

/-- `text.split("::")`: split at leftmost non-overlapping occurrences of `::`. -/
def splitDoubleColon : Str → List Str
  | [] => [[]]
  | ':' :: ':' :: rest => [] :: splitDoubleColon rest
  | c :: rest =>
    match splitDoubleColon rest with
    | [] => [[c]]
    | p :: ps => (c :: p) :: ps

/-- ASCII lowercasing, the effect of `text.toLowerCase()` on ASCII input. -/
def asciiLower (c : Char) : Char :=
  if 'A' ≤ c ∧ c ≤ 'Z' then Char.ofNat (c.toNat + 32) else c

def toLowerStr (s : Str) : Str := s.map asciiLower

/-- `text.trim()` restricted to ASCII whitespace. -/
def trimStr (s : Str) : Str :=
  (s.dropWhile Char.isWhitespace).reverse.dropWhile Char.isWhitespace |>.reverse

/-- The test `/^\d+$/.test(s)`. -/
def isDigitStr (s : Str) : Bool := !s.isEmpty && s.all Char.isDigit

def isLowerHexDigit (c : Char) : Bool :=
  Char.isDigit c || ('a' ≤ c && c ≤ 'f')

/-- The test `/^[0-9a-f]{1,4}$/.test(s)`. -/
def isHextetStr (s : Str) : Bool :=
  decide (1 ≤ s.length) && decide (s.length ≤ 4) && s.all isLowerHexDigit

/-- Split a string at its last `:`, returning the parts before and after it
(`text.slice(0, lastColon)` and `text.slice(lastColon + 1)`), or `none` when
`text.lastIndexOf(":") < 0`. -/
def splitAtLastColon (s : Str) : Option (Str × Str) :=
  let revTail := s.reverse.takeWhile (· ≠ ':')
  if revTail.length = s.length then
    none
  else
    some ((s.take (s.length - revTail.length - 1)), revTail.reverse)

/-- Decimal digit value accumulation for `Number.parseInt(text, 10)` on an
all-digit string. -/
def decValue (s : Str) : Nat :=
  s.foldl (fun v c => v * 10 + (c.toNat - 48)) 0

/-- Hex digit numeric value (for characters matching `[0-9a-f]`). -/
def hexCharValue (c : Char) : Nat :=
  if c.isDigit then c.toNat - 48 else c.toNat - 87

/-- `Number.parseInt(text, 16)` on a lowercase-hex string. -/
def hexStrValue (s : Str) : Nat :=
  s.foldl (fun v c => v * 16 + hexCharValue c) 0

def digitChar (n : Nat) : Char := Char.ofNat (48 + n)

/-- Fuel-indexed digit recursion for `decStr` (structural, kernel-reducible). -/
def decStrAux : Nat → Nat → Str
  | 0, _ => []
  | fuel + 1, n =>
    if n < 10 then [digitChar n]
    else decStrAux fuel (n / 10) ++ [digitChar (n % 10)]

/-- Minimal decimal rendering `String(value)`. -/
def decStr (n : Nat) : Str := decStrAux (n + 1) n

/-- Fuel-indexed digit recursion for `hexStr`. -/
def hexStrAux : Nat → Nat → Str
  | 0, _ => []
  | fuel + 1, n =>
    if n < 16 then [HEX_DIGITS.getD n '?']
    else hexStrAux fuel (n / 16) ++ [HEX_DIGITS.getD (n % 16) '?']

/-- Minimal lowercase hex rendering `value.toString(16)`. -/
def hexStr (n : Nat) : Str := hexStrAux (n + 1) n

/-- `text.padStart(4, "0")`. -/
def pad4 (s : Str) : Str :=
  List.replicate (4 - s.length) '0' ++ s

/-! ### Address parsing -/

/-- Digit/range-checking loop of `parseByte`. -/
def parseByteAux : Str → Nat → Option Nat
  | [], v => some v
  | c :: rest, v =>
    if c.toNat < 48 ∨ 57 < c.toNat then none
    else
      let v' := v * 10 + (c.toNat - 48)
      if 255 < v' then none else parseByteAux rest v'

/-- `parseByte`: decimal octet in `[0,255]`, leading zeros accepted. -/
def parseByte (part : Str) : Option Nat :=
  if part.isEmpty then none else parseByteAux part 0

/-- The octet-accumulating loop of `parseIPv4`. -/
def parseIPv4Aux : List Str → Nat → Option Nat
  | [], v => some v
  | p :: rest, v =>
    if !isDigitStr p then none
    else
      match parseByte p with
      | none => none
      | some octet => parseIPv4Aux rest ((v <<< 8) ||| octet)

/-- `parseIPv4`: exactly 4 dot-separated decimal octets. -/
def parseIPv4 (text : Str) : Option Nat :=
  let parts := splitOnChar '.' text
  if parts.length ≠ 4 then none else parseIPv4Aux parts 0

/-- `parseHextetParts`: each part must match `/^[0-9a-f]{1,4}$/`. -/
def parseHextetParts : List Str → Option (List Nat)
  | [] => some []
  | p :: rest =>
    if !isHextetStr p then none
    else
      match parseHextetParts rest with
      | none => none
      | some out => some (hexStrValue p :: out)

/-- `expandEmbeddedIPv4`: rewrite a trailing dotted-quad into two hextets. -/
def expandEmbeddedIPv4 (text : Str) : Str :=
  if !text.contains '.' then text
  else
    match splitAtLastColon text with
    | none => []
    | some (before, ipv4Part) =>
      if ipv4Part.isEmpty ∨ ipv4Part.contains ':' then []
      else
        match parseIPv4 ipv4Part with
        | none => []
        | some ipv4 =>
          let high := hexStr ((ipv4 >>> 16) &&& 0xffff)
          let low := hexStr (ipv4 &&& 0xffff)
          before ++ [':'] ++ high ++ [':'] ++ low

/-- The hextet-accumulating fold at the end of `parseIPv6`. -/
def hextetsToValue (hextets : List Nat) : Nat :=
  hextets.foldl (fun v h => (v <<< 16) ||| h) 0

/-- `parseIPv6`. -/
def parseIPv6 (text : Str) : Option Nat :=
  let normalized := expandEmbeddedIPv4 (toLowerStr text)
  if normalized.isEmpty then none
  else
    let pieces := splitDoubleColon normalized
    let doubleColonCount := pieces.length - 1
    if 1 < doubleColonCount then none
    else
      let hasCompression := decide (2 ≤ pieces.length)
      let leftRaw := if hasCompression then pieces.headD [] else normalized
      let rightRaw := if hasCompression then (pieces.getD 1 []) else []
      let leftParts := if leftRaw.isEmpty then [] else splitOnChar ':' leftRaw
      let rightParts :=
        if hasCompression ∧ !rightRaw.isEmpty then splitOnChar ':' rightRaw else []
      if leftParts.any List.isEmpty ∨ rightParts.any List.isEmpty then none
      else
        match parseHextetParts leftParts, parseHextetParts rightParts with
        | some parsedLeft, some parsedRight =>
          if hasCompression then
            let fixedCount := parsedLeft.length + parsedRight.length
            if 8 ≤ fixedCount then none
            else
              let missing := 8 - fixedCount
              some (hextetsToValue
                (parsedLeft ++ List.replicate missing 0 ++ parsedRight))
          else
            if parsedLeft.length ≠ 8 then none
            else some (hextetsToValue parsedLeft)
        | _, _ => none

/-! ### C5's spec-side notions (formalized from the claim's wording): the
number of `::` compression tokens, the non-compressed groups, and the
per-group 1–4-hex-digit requirement, all evaluated on the lowercased text
after expanding a trailing embedded IPv4 literal into two groups. -/

/-- Number of `::` compression tokens in the text. -/
def ipv6DoubleColonCount (t : Str) : Nat := (splitDoubleColon t).length - 1

/-- Whether the text uses `::` compression. -/
def ipv6HasCompression (t : Str) : Bool := decide (2 ≤ (splitDoubleColon t).length)

/-- The non-compressed (fixed) groups of the text: the `:`-separated chunks on
either side of the single `::` token, or of the whole text when there is no
compression. -/
def ipv6FixedGroups (t : Str) : List Str :=
  if ipv6HasCompression t then
    (let leftRaw := (splitDoubleColon t).headD []
     let rightRaw := (splitDoubleColon t).getD 1 []
     (if leftRaw.isEmpty then [] else splitOnChar ':' leftRaw) ++
       (if rightRaw.isEmpty then [] else splitOnChar ':' rightRaw))
  else splitOnChar ':' t

/-- C5's violation condition list: more than one `::`, an empty non-compressed
group, a compressed form with 8 or more fixed groups, an uncompressed form
with group count other than 8, or a group that is not 1–4 hex digits. -/
def ipv6SpecViolation (text : Str) : Bool :=
  let t := expandEmbeddedIPv4 (toLowerStr text)
  decide (1 < ipv6DoubleColonCount t) ||
  (ipv6FixedGroups t).any List.isEmpty ||
  (ipv6HasCompression t && decide (8 ≤ (ipv6FixedGroups t).length)) ||
  (!ipv6HasCompression t && decide ((ipv6FixedGroups t).length ≠ 8)) ||
  (ipv6FixedGroups t).any (fun g => !isHextetStr g)

/-- `parseCidr`: validates shape, family, prefix bounds and address syntax.
The `Number.isFinite` / `Number.isInteger` checks of the source are vacuous in
the exact-arithmetic model. -/
def parseCidr (input : JSValue) : Except String ParsedCidr :=
  match input with
  | .nonString => .error "Invalid CIDR"
  | .str s =>
    let trimmed := trimStr s
    let parts := splitOnChar '/' trimmed
    if parts.length ≠ 2 then .error "Invalid CIDR"
    else
      let addressText := parts.headD []
      let prefixText := parts.getD 1 []
      if addressText.isEmpty ∨ !isDigitStr prefixText then .error "Invalid CIDR"
      else
        let p := decValue prefixText
        if addressText.contains ':' then
          if IPV6_BITS < p then .error "Invalid CIDR"
          else
            match parseIPv6 addressText with
            | none => .error "Invalid CIDR"
            | some address => .ok ⟨.ipv6, address, p⟩
        else
          if IPV4_BITS < p then .error "Invalid CIDR"
          else
            match parseIPv4 addressText with
            | none => .error "Invalid CIDR"
            | some address => .ok ⟨.ipv4, address, p⟩

/-! ### Range normalization and segment decomposition -/

/-- `normalizeRange`. -/
def normalizeRange (value bits prefixLen : Nat) : Nat × Nat :=
  let hostBits := bits - prefixLen
  let prefixMask := if prefixLen = 0 then 0 else ((1 <<< prefixLen) - 1) <<< hostBits
  let hostMask := if hostBits = 0 then 0 else (1 <<< hostBits) - 1
  let start := value &&& prefixMask
  (start, start ||| hostMask)

/-- Bit width of an address family. -/
def famBits : Fam → Nat
  | .ipv4 => IPV4_BITS
  | .ipv6 => IPV6_BITS

/-- `ipv4ToOctets`. -/
def ipv4ToOctets (value : Nat) : List Nat :=
  [(value >>> 24) &&& 0xff, (value >>> 16) &&& 0xff, (value >>> 8) &&& 0xff,
    value &&& 0xff]

/-- `ipv6ToHextets`. -/
def ipv6ToHextets (value : Nat) : List Nat :=
  (List.range 8).map (fun i => (value >>> ((7 - i) * 16)) &&& 0xffff)

/-! ### Fragment compilers -/

/-- First-occurrence deduplication, the effect of `[...new Set(l)]`. -/
def dedupFirstAux {α : Type} [DecidableEq α] : List α → List α → List α
  | [], _ => []
  | p :: rest, seen =>
    if p ∈ seen then dedupFirstAux rest seen
    else p :: dedupFirstAux rest (p :: seen)

def dedupFirst {α : Type} [DecidableEq α] (l : List α) : List α := dedupFirstAux l []

/-- `uniquePatterns`. -/
def uniquePatterns (parts : List Str) : List Str := dedupFirst parts

/-- `parts.join(sep)`. -/
def intercalateStr (sep : Str) : List Str → Str
  | [] => []
  | [p] => p
  | p :: q :: rest => p ++ sep ++ intercalateStr sep (q :: rest)

/-- `orPattern`. -/
def orPattern (parts : List Str) : Str :=
  let unique := uniquePatterns parts
  if unique.isEmpty then "(?!)".toList
  else if unique.length = 1 then unique.headD []
  else "(?:".toList ++ intercalateStr ['|'] unique ++ [')']

/-- `octetValuePattern`. -/
def octetValuePattern (value : Nat) : Str := decStr value

/-- `octetRangePattern`: wildcard for the full octet range, otherwise an
alternation of each decimal value in `[start, e]`. -/
def octetRangePattern (start e : Nat) : Str :=
  if start = 0 ∧ e = 255 then IPV4_ANY_OCTET
  else orPattern ((List.range (e + 1 - start)).map (fun i => octetValuePattern (start + i)))

/-- `hexValue`: index of a character in `HEX_DIGITS`, `none` models the
`Invalid hex digit` throw. -/
def hexValue (c : Char) : Option Nat := HEX_DIGITS.findIdx? (· = c)

/-- `hexWildcard`. -/
def hexWildcard (length : Nat) : Str :=
  if length = 0 then []
  else if length = 1 then "[0-9a-f]".toList
  else "[0-9a-f]".toList ++ '{' :: (decStr length ++ ['}'])

/-- The segment-collecting `while` loop of `hexDigitRange`, with explicit
fuel (the loop advances `current` by at least one per iteration on all
reachable inputs, so fuel `16` is never exhausted for digits `0..15`). -/
def hexDigitRangeLoop : Nat → Nat → Nat → List Str
  | 0, _, _ => []
  | fuel + 1, current, e =>
    if current ≤ e then
      if current ≤ 9 then
        let segmentEnd := min e 9
        (if current = segmentEnd then [HEX_DIGITS.getD current '?']
         else [HEX_DIGITS.getD current '?', '-', HEX_DIGITS.getD segmentEnd '?'])
          :: hexDigitRangeLoop fuel (segmentEnd + 1) e
      else
        let segmentEnd := min e 15
        (if current = segmentEnd then [HEX_DIGITS.getD current '?']
         else [HEX_DIGITS.getD current '?', '-', HEX_DIGITS.getD segmentEnd '?'])
          :: hexDigitRangeLoop fuel (segmentEnd + 1) e
    else []

/-- `hexDigitRange`: a single hex digit, or one bracket expression whose
items cover `[start, e]` split at the `9`/`a` boundary. -/
def hexDigitRange (start e : Nat) : Str :=
  if start = e then [HEX_DIGITS.getD start '?']
  else '[' :: (hexDigitRangeLoop 16 start e).flatten ++ [']']

/-- Length of the longest common prefix of two strings (the `splitIndex`
scan of `hexRangeParts`). -/
def commonPrefixLen : Str → Str → Nat
  | a :: as, b :: bs => if a = b then commonPrefixLen as bs + 1 else 0
  | _, _ => 0

/-- Fuel-indexed recursion for `hexRangeParts`; each recursive call strictly
shortens the first string, so fuel `low.length + 1` always suffices. -/
def hexRangePartsF : Nat → Str → Str → Option (List Str)
  | 0, _, _ => some []
  | fuel + 1, low, high =>
    if low.length ≠ high.length then some []
    else if low = high then some [low]
    else
      let length := low.length
      if low = List.replicate length '0' ∧ high = List.replicate length 'f' then
        some [hexWildcard length]
      else
        let splitIndex := commonPrefixLen low high
        if splitIndex = length then some [low]
        else do
          let pfx := low.take splitIndex
          let lowDigit ← hexValue (low.getD splitIndex '?')
          let highDigit ← hexValue (high.getD splitIndex '?')
          let suffixLength := length - splitIndex - 1
          let lowerLowTail := low.drop (splitIndex + 1)
          let lowerHighTail := List.replicate suffixLength 'f'
          let lowParts ← hexRangePartsF fuel lowerLowTail lowerHighTail
          let parts1 := lowParts.map
            (fun suffix => pfx ++ hexDigitRange lowDigit lowDigit ++ suffix)
          let parts2 :=
            if lowDigit + 1 ≤ highDigit - 1 then
              [pfx ++ hexDigitRange (lowDigit + 1) (highDigit - 1) ++
                hexWildcard suffixLength]
            else []
          let upperLowTail := List.replicate suffixLength '0'
          let upperHighTail := high.drop (splitIndex + 1)
          let upParts ← hexRangePartsF fuel upperLowTail upperHighTail
          let parts3 := upParts.map
            (fun suffix => pfx ++ hexDigitRange highDigit highDigit ++ suffix)
          some (uniquePatterns (parts1 ++ parts2 ++ parts3))

/-- `hexRangeParts`: recursive decomposition of a fixed-width hex interval
into regex fragments.  `none` models the `Invalid hex digit` throw inside
`hexValue`. -/
def hexRangeParts (low high : Str) : Option (List Str) :=
  hexRangePartsF (low.length + 1) low high

/-- `hextetRangePattern`.  The process-wide memo cache of the source is a
pure-function cache and is omitted (it never changes the returned value). -/
def hextetRangePattern (start e : Nat) : Option Str :=
  if start = 0 ∧ e = 0xffff then some IPV6_ANY_HEXTET
  else if start = e then some (pad4 (hexStr start))
  else (hexRangeParts (pad4 (hexStr start)) (pad4 (hexStr e))).map orPattern

/-! ### Segment pattern builders -/

/-- `combineWithSuffix`. -/
def combineWithSuffix (head : Str) (suffixes : List Str) (separator : Str) : List Str :=
  suffixes.map (fun suffix => if suffix.isEmpty then head else head ++ separator ++ suffix)

/-- `isFullRange`: every remaining index of `start` holds `minValue` and the
same index of `e` holds `maxValue` (an out-of-bounds read of `e` compares
unequal, like `undefined` in the source). -/
def isFullRange (start e : List Nat) (fromIndex minValue maxValue : Nat) : Bool :=
  (List.range (start.length - fromIndex)).all (fun j =>
    start.getD (fromIndex + j) 0 == minValue &&
    e.getD (fromIndex + j) (maxValue + 1) == maxValue)

/-- `ipv4AnySuffix`. -/
def ipv4AnySuffix (count : Nat) : Str :=
  if count = 0 then []
  else intercalateStr "\\.".toList (List.replicate count IPV4_ANY_OCTET)

/-- `ipv6AnySuffix`. -/
def ipv6AnySuffix (count : Nat) : Str :=
  if count = 0 then []
  else intercalateStr [':'] (List.replicate count IPV6_ANY_HEXTET)

/-- Copy a list and overwrite every position strictly after `index` with `v`
(the `for (let i = index + 1; ...)` loops of the builders). -/
def overwriteAfter (xs : List Nat) (index v : Nat) : List Nat :=
  xs.take (index + 1) ++ List.replicate (xs.length - (index + 1)) v

/-- Fuel-indexed recursion for `buildIPv4Patterns`: the source recursion depth
from segment `index` is `4 - index`, so the wrapper's fuel `5 - index` matches
it exactly on the 4-octet vectors the pipeline passes. -/
def buildIPv4PatternsF : Nat → List Nat → List Nat → Nat → List Str
  | 0, _, _, _ => []
  | fuel + 1, start, e, index =>
    if index = 4 then [[]]
    else if isFullRange start e index 0 255 then [ipv4AnySuffix (4 - index)]
    else
      let low := start.getD index 0
      let high := e.getD index 0
      if low = high then
        combineWithSuffix (octetRangePattern low high)
          (buildIPv4PatternsF fuel start e (index + 1)) "\\.".toList
      else
        let firstEnd := overwriteAfter (start.set index low) index 255
        let p1 := combineWithSuffix (octetRangePattern low low)
          (buildIPv4PatternsF fuel start firstEnd (index + 1)) "\\.".toList
        let p2 :=
          if low + 1 ≤ high - 1 then
            let middle := octetRangePattern (low + 1) (high - 1)
            let suffix := ipv4AnySuffix (4 - index - 1)
            [if suffix.isEmpty then middle else middle ++ "\\.".toList ++ suffix]
          else []
        let lastStart := overwriteAfter (e.set index high) index 0
        let p3 := combineWithSuffix (octetRangePattern high high)
          (buildIPv4PatternsF fuel lastStart e (index + 1)) "\\.".toList
        uniquePatterns (p1 ++ p2 ++ p3)

/-- `buildIPv4Patterns`. -/
def buildIPv4Patterns (start e : List Nat) (index : Nat) : List Str :=
  buildIPv4PatternsF (5 - index) start e index

/-- Fuel-indexed recursion for `buildIPv6Patterns`: fuel `9 - index` matches
the source recursion depth on the 8-hextet vectors the pipeline passes. -/
def buildIPv6PatternsF : Nat → List Nat → List Nat → Nat → Option (List Str)
  | 0, _, _, _ => some []
  | fuel + 1, start, e, index =>
    if index = 8 then some [[]]
    else if isFullRange start e index 0 0xffff then some [ipv6AnySuffix (8 - index)]
    else
      let low := start.getD index 0
      let high := e.getD index 0
      if low = high then do
        let frag ← hextetRangePattern low high
        let rest ← buildIPv6PatternsF fuel start e (index + 1)
        some (combineWithSuffix frag rest [':'])
      else do
        let firstEnd := overwriteAfter (start.set index low) index 0xffff
        let fragLow ← hextetRangePattern low low
        let restLow ← buildIPv6PatternsF fuel start firstEnd (index + 1)
        let p1 := combineWithSuffix fragLow restLow [':']
        let p2 ←
          if low + 1 ≤ high - 1 then do
            let middle ← hextetRangePattern (low + 1) (high - 1)
            let suffix := ipv6AnySuffix (8 - index - 1)
            some [if suffix.isEmpty then middle else middle ++ ':' :: suffix]
          else some []
        let lastStart := overwriteAfter (e.set index high) index 0
        let fragHigh ← hextetRangePattern high high
        let restHigh ← buildIPv6PatternsF fuel lastStart e (index + 1)
        let p3 := combineWithSuffix fragHigh restHigh [':']
        some (uniquePatterns (p1 ++ p2 ++ p3))

/-- `buildIPv6Patterns` (propagating the `Option` of `hextetRangePattern`). -/
def buildIPv6Patterns (start e : List Nat) (index : Nat) : Option (List Str) :=
  buildIPv6PatternsF (9 - index) start e index

abbrev Row := List Str

/-- The `"\u0000"` placeholder used in grouping keys. -/
def nulStr : Str := [Char.ofNat 0]

/-- One entry of the grouping `Map`: key, first row seen (`template`), and the
index-position fragments of all rows sharing the key, in insertion order. -/
structure GroupEntry where
  key : Row
  template : Row
  variants : List Str

/-- Insert one row into the grouping map (preserving `Map` insertion order). -/
def insertGroup (key row : Row) (index : Nat) : List GroupEntry → List GroupEntry
  | [] => [⟨key, row, [row.getD index []]⟩]
  | g :: gs =>
    if g.key = key then ⟨g.key, g.template, g.variants ++ [row.getD index []]⟩ :: gs
    else g :: insertGroup key row index gs

/-- The grouping loop of `minimizePatternSet` for one segment position. -/
def groupRows (rows : List Row) (index : Nat) : List GroupEntry :=
  rows.foldl (fun gs row => insertGroup (row.set index nulStr) row index gs) []

/-- `uniquePatternRows`. -/
def uniquePatternRows (rows : List Row) : List Row := dedupFirst rows

/-- Merge rows that agree everywhere except at `index`, returning the new row
list and whether any group actually merged two or more distinct fragments. -/
def mergeAtIndex (rows : List Row) (index : Nat) : List Row × Bool :=
  let grouped := groupRows rows index
  let mergedRows := grouped.map (fun g =>
    let variants := uniquePatterns g.variants
    let merged := if variants.length = 1 then variants.headD [] else orPattern variants
    g.template.set index merged)
  let changed := grouped.any (fun g => 1 < (uniquePatterns g.variants).length)
  (uniquePatternRows mergedRows, changed)

/-- One full pass of the `while` loop body: all segment positions in order,
accumulating the `changed` flag. -/
def minimizePass (rows : List Row) (segmentCount : Nat) : List Row × Bool :=
  (List.range segmentCount).foldl
    (fun acc index => ((mergeAtIndex acc.1 index).1, acc.2 || (mergeAtIndex acc.1 index).2))
    (rows, false)

/-! Counting lemmas justifying termination of the minimizer's fixed-point
loop: a pass that reports `changed` strictly decreases the row count. -/

def variantCount (gs : List GroupEntry) : Nat := (gs.map fun g => g.variants.length).sum

/-- Fuel-indexed version of the `while (changed)` loop; every iteration that
continues strictly decreases the row count (`minimizePass_length_lt`), so fuel
`rows.length + 1` always reaches the fixed point. -/
def minimizeLoopF : Nat → List Row → Nat → List Row
  | 0, rows, _ => rows
  | fuel + 1, rows, segmentCount =>
    if (minimizePass rows segmentCount).2 = true then
      minimizeLoopF fuel (minimizePass rows segmentCount).1 segmentCount
    else (minimizePass rows segmentCount).1

/-- The `while (changed)` fixed-point loop of `minimizePatternSet`. -/
def minimizeLoop (rows : List Row) (segmentCount : Nat) : List Row :=
  minimizeLoopF (rows.length + 1) rows segmentCount

/-- The scanning loop of `splitPattern`: split at top-level occurrences of the
separator, tracking escape, character-class and parenthesis state.  (`rest.drop
(sep.length - 1)` equals `(c :: rest).drop sep.length` for the non-empty
separators used by the pipeline.) -/
def splitPatternAux (sep : Str) : Nat → Str → Str → Nat → Bool → Bool → List Str
  | _, [], acc, _, _, _ => [acc.reverse]
  | 0, _ :: _, acc, _, _, _ => [acc.reverse]
  | fuel + 1, c :: rest, acc, parenDepth, inCharClass, escaped =>
    if escaped = false ∧ inCharClass = false ∧ parenDepth = 0 ∧
        sep.isPrefixOf (c :: rest) then
      acc.reverse ::
        splitPatternAux sep fuel (rest.drop (sep.length - 1)) [] 0 false false
    else
      if escaped then splitPatternAux sep fuel rest (c :: acc) parenDepth inCharClass false
      else if c = '\\' then
        splitPatternAux sep fuel rest (c :: acc) parenDepth inCharClass true
      else if inCharClass then
        splitPatternAux sep fuel rest (c :: acc) parenDepth (c != ']') false
      else if c = '[' then splitPatternAux sep fuel rest (c :: acc) parenDepth true false
      else if c = '(' then
        splitPatternAux sep fuel rest (c :: acc) (parenDepth + 1) inCharClass false
      else if c = ')' ∧ 0 < parenDepth then
        splitPatternAux sep fuel rest (c :: acc) (parenDepth - 1) inCharClass false
      else splitPatternAux sep fuel rest (c :: acc) parenDepth inCharClass false

/-- `splitPattern`: `none` models the `Internal pattern split error` throw.
Fuel `pattern.length + 1` cannot be exhausted: every step of the scan consumes
at least one character. -/
def splitPattern (pattern separator : Str) (segmentCount : Nat) : Option (List Str) :=
  let parts := splitPatternAux separator (pattern.length + 1) pattern [] 0 false false
  if parts.length ≠ segmentCount then none else some parts

/-- `minimizePatternSet`. -/
def minimizePatternSet (patterns : List Str) (separator : Str) (segmentCount : Nat) :
    Option (List Str) :=
  if patterns.length ≤ 1 then some patterns
  else do
    let rows0 ← patterns.mapM (fun p => splitPattern p separator segmentCount)
    let rows := uniquePatternRows rows0
    let final := minimizeLoop rows segmentCount
    some (final.map (intercalateStr separator))

/-- `buildRegex`. -/
def buildRegex (patterns : List Str) (flags : Bool) : RegExpVal :=
  ⟨"^(?:".toList ++ orPattern patterns ++ ")$".toList, flags⟩

/-- `cidrToRegex`: the public entry point. -/
def cidrToRegex (input : JSValue) : Except String RegExpVal :=
  match parseCidr input with
  | .error e => .error e
  | .ok parsed =>
    match parsed.family with
    | .ipv4 =>
      let r := normalizeRange parsed.address IPV4_BITS parsed.prefixLen
      let startOctets := ipv4ToOctets r.1
      let endOctets := ipv4ToOctets r.2
      match minimizePatternSet (uniquePatterns (buildIPv4Patterns startOctets endOctets 0))
          "\\.".toList 4 with
      | none => .error "Internal pattern split error"
      | some patterns => .ok (buildRegex patterns false)
    | .ipv6 =>
      let r := normalizeRange parsed.address IPV6_BITS parsed.prefixLen
      let startHextets := ipv6ToHextets r.1
      let endHextets := ipv6ToHextets r.2
      match buildIPv6Patterns startHextets endHextets 0 with
      | none => .error "Invalid hex digit"
      | some pats =>
        match minimizePatternSet (uniquePatterns pats) [':'] 8 with
        | none => .error "Internal pattern split error"
        | some patterns => .ok (buildRegex patterns true)

/-! ### A model of the JavaScript regex engine, for the syntax subset the
pipeline emits: literal characters, `\`-escapes, character classes,
non-capturing groups, alternation, the `?` and `{n}` quantifiers, and the
never-matching `(?!)`.  A pattern string is parsed into an AST whose language
is a finite, explicitly enumerable set of strings (no unbounded repetition is
ever emitted); "the regex matches s" is membership of `s` in that language. -/

inductive RE : Type where
  | eps : RE
  | fail : RE
  | lit : Char → RE
  | cls : List (Char × Char) → RE
  | seq : RE → RE → RE
  | alt : RE → RE → RE
  | rep : RE → Nat → Nat → RE
deriving DecidableEq, Repr

/-- The single-character strings covered by one character-class range. -/
def charsOfRange (p : Char × Char) : List Str :=
  (List.range (p.2.toNat + 1 - p.1.toNat)).map (fun i => [Char.ofNat (p.1.toNat + i)])

/-- `l` concatenated with itself `k` times. -/
def powLang (l : List Str) : Nat → List Str
  | 0 => [[]]
  | k + 1 => l.flatMap (fun s1 => (powLang l k).map (fun s2 => s1 ++ s2))

/-- All strings matched by a regex.  Only membership is meaningful. -/
def lang : RE → List Str
  | .eps => [[]]
  | .fail => []
  | .lit c => [[c]]
  | .cls rs => rs.flatMap charsOfRange
  | .seq a b => (lang a).flatMap (fun s1 => (lang b).map (fun s2 => s1 ++ s2))
  | .alt a b => lang a ++ lang b
  | .rep a mn mx =>
    (List.range (mx + 1 - mn)).flatMap (fun i => powLang (lang a) (mn + i))

/-- Characters that stand for themselves outside classes. -/
def isPlainLit (c : Char) : Bool :=
  !(c = '|' || c = ')' || c = '(' || c = '[' || c = ']' || c = '\\' ||
    c = '?' || c = '{' || c = '}' || c = '*' || c = '+' || c = '^' ||
    c = '$' || c = '.')

/-- Character-class body: items until the closing `]`. -/
def parseClassItems : Str → Option (List (Char × Char) × Str)
  | ']' :: rest => some ([], rest)
  | a :: '-' :: b :: rest =>
    if b = ']' then some ([(a, a), ('-', '-')], rest)
    else
      match parseClassItems rest with
      | none => none
      | some (items, r) => some ((a, b) :: items, r)
  | a :: rest =>
    match parseClassItems rest with
    | none => none
    | some (items, r) => some ((a, a) :: items, r)
  | [] => none

/-- Optional postfix quantifier applied to a parsed atom. -/
def parseQuant (s : Str) (a : RE) : Option (RE × Str) :=
  match s with
  | '?' :: rest => some (.rep a 0 1, rest)
  | '{' :: rest =>
    let ds := rest.takeWhile Char.isDigit
    let rest2 := rest.dropWhile Char.isDigit
    if ds.isEmpty then none
    else
      match rest2 with
      | '}' :: rest3 => some (.rep a (decValue ds) (decValue ds), rest3)
      | _ => none
  | _ => some (a, s)

mutual

/-- Alternation level: sequences separated by top-level `|`. -/
def parseAlts : Nat → Str → Option (RE × Str)
  | 0, _ => none
  | fuel + 1, s =>
    match parseSeq fuel s with
    | none => none
    | some (r1, rest) =>
      match rest with
      | '|' :: rest2 =>
        match parseAlts fuel rest2 with
        | none => none
        | some (r2, rest3) => some (.alt r1 r2, rest3)
      | _ => some (r1, rest)

/-- Concatenation level: atoms (with quantifiers) until `|`, `)` or the end. -/
def parseSeq : Nat → Str → Option (RE × Str)
  | 0, _ => none
  | fuel + 1, s =>
    match s with
    | [] => some (.eps, [])
    | c :: _ =>
      if c = '|' ∨ c = ')' then some (.eps, s)
      else
        match parseAtom fuel s with
        | none => none
        | some (a, rest) =>
          match parseQuant rest a with
          | none => none
          | some (aq, rest2) =>
            match parseSeq fuel rest2 with
            | none => none
            | some (r2, rest3) => some (.seq aq r2, rest3)

/-- One atom: group, `(?!)`, class, escape or plain literal. -/
def parseAtom : Nat → Str → Option (RE × Str)
  | 0, _ => none
  | fuel + 1, s =>
    match s with
    | '(' :: '?' :: '!' :: ')' :: rest => some (.fail, rest)
    | '(' :: '?' :: ':' :: rest =>
      (match parseAlts fuel rest with
      | none => none
      | some (r, rest2) =>
        match rest2 with
        | ')' :: rest3 => some (r, rest3)
        | _ => none)
    | '[' :: rest =>
      (match parseClassItems rest with
      | none => none
      | some (items, rest2) => some (.cls items, rest2))
    | '\\' :: c :: rest => some (.lit c, rest)
    | c :: rest => if isPlainLit c then some (.lit c, rest) else none
    | [] => none

end

/-- Parse a complete pattern (must consume the whole string). -/
def parseFull (p : Str) : Option RE :=
  match parseAlts (4 * p.length + 4) p with
  | some (r, []) => some r
  | _ => none

/-- Whether a character is inside one of a class's ranges. -/
def inRanges (rs : List (Char × Char)) (c : Char) : Bool :=
  rs.any (fun p => p.1 ≤ c && c ≤ p.2)

/-- Remainders after matching between `mn` and `mx` repetitions of something
whose single-match remainders are computed by `f` (structural on `mx`). -/
def repEnds (f : Str → List Str) : Nat → Nat → Str → List Str
  | mn, 0, s => if mn = 0 then [s] else []
  | mn, mx + 1, s =>
    if mn = 0 then s :: (f s).flatMap (repEnds f 0 mx)
    else (f s).flatMap (repEnds f (mn - 1) mx)

/-- Backtracking matcher: all remainders left after matching a prefix of `s`
against `r`.  A full match is a remainder `[]`. -/
def matchEnds : RE → Str → List Str
  | .eps, s => [s]
  | .fail, _ => []
  | .lit c, s =>
    (match s with
    | c' :: r => if c' = c then [r] else []
    | [] => [])
  | .cls rs, s =>
    (match s with
    | c' :: r => if inRanges rs c' then [r] else []
    | [] => [])
  | .seq a b, s => (matchEnds a s).flatMap (fun r => matchEnds b r)
  | .alt a b, s => matchEnds a s ++ matchEnds b s
  | .rep a mn mx, s => repEnds (fun r => matchEnds a r) mn mx s

/-- All character-class upper bounds stay below the surrogate range, so that
`Char.ofNat` round-trips on every enumerated code point (true of every class
the pipeline emits — they are ASCII). -/
def REok : RE → Bool
  | .cls rs => rs.all (fun p => decide (p.2.toNat < 55296))
  | .seq a b => REok a && REok b
  | .alt a b => REok a && REok b
  | .rep a _ _ => REok a
  | _ => true

/-- The parse of the wildcard octet fragment `IPV4_ANY_OCTET`. -/
def anyOctetRE : RE := (parseFull IPV4_ANY_OCTET).getD .fail

/-- "Pattern `p` matches string `s`" for the emitted subset. -/
def patAccepts (p s : Str) : Bool :=
  match parseFull p with
  | some r => decide ([] ∈ matchEnds r s)
  | none => false

/-- Strip the `^`…`$` anchors `buildRegex` adds; the remaining `(?:…)` group
is itself a pattern. -/
def stripAnchors (source : Str) : Str := (source.drop 1).dropLast

/-- Acceptance of a compiled `RegExp`: anchored full-string match, with the
`i` flag modelled by lowercasing the input (the emitted pattern text is
already lowercase). -/
def regexAccepts (re : RegExpVal) (s : Str) : Bool :=
  patAccepts (stripAnchors re.source) (if re.ignoreCase then toLowerStr s else s)

/-- Head-character tests and well-formedness predicates used by the
parser-composition lemmas: a fragment is `SegOk` when some fuel parses it
completely as a sequence whose classes stay below the surrogate range;
`rowMatch` is the concatenated language of a row of fragments joined by a
separator. -/
def quantHead : Str → Bool
  | '?' :: _ => true
  | '{' :: _ => true
  | _ => false

def stopHead : Str → Bool
  | [] => true
  | '|' :: _ => true
  | ')' :: _ => true
  | _ => false

def rparenHead : Str → Bool
  | [] => true
  | ')' :: _ => true
  | _ => false

def SegOk (p : Str) : Prop := ∃ f r, parseSeq f p = some (r, []) ∧ REok r = true

def segL (g w : Str) : Prop := ∃ f r, parseSeq f g = some (r, []) ∧ w ∈ lang r

def rowMatch (sep : Str) : List Str → Str → Prop
  | [], w => w = []
  | [g], w => segL g w
  | g :: g2 :: rest, w =>
      ∃ w1 ws w2, w = w1 ++ ws ++ w2 ∧ segL g w1 ∧ segL sep ws ∧
        rowMatch sep (g2 :: rest) w2

def RowOk (n : Nat) (row : Row) : Prop :=
  row.length = n ∧ ∀ g ∈ row, SegOk g ∧ quantHead g = false ∧ g ≠ []

/-- Decidable sufficient check for `SegOk` (canonical fuel). -/
def segOkCheck (p : Str) : Bool :=
  match parseSeq (4 * p.length + 3) p with
  | some (r, []) => REok r
  | _ => false

/-- Decidable sufficient check for `RowOk`. -/
def rowOkCheck (n : Nat) (row : Row) : Bool :=
  (row.length == n) && row.all (fun g => segOkCheck g && (quantHead g == false) && !g.isEmpty)

/-- One step of the state machine tracked by `splitPatternAux`'s non-splitting
branches: (parenDepth, inCharClass, escaped). -/
def scanStep (st : Nat × Bool × Bool) (c : Char) : Nat × Bool × Bool :=
  if st.2.2 then (st.1, st.2.1, false)
  else if c = '\\' then (st.1, st.2.1, true)
  else if st.2.1 then (st.1, c != ']', false)
  else if c = '[' then (st.1, true, false)
  else if c = '(' then (st.1 + 1, st.2.1, false)
  else if c = ')' ∧ 0 < st.1 then (st.1 - 1, st.2.1, false)
  else (st.1, st.2.1, false)

def scanFold (g : Str) (st : Nat × Bool × Bool) : Nat × Bool × Bool := g.foldl scanStep st

/-- No top-level separator occurrence can start inside `g` when scanned from
state `st`: at every position either the state is protected (escaped, in a
class, or inside parentheses) or the character differs from the separator's
first character. -/
def noSplitIn (sepH : Char) : Str → Nat × Bool × Bool → Bool
  | [], _ => true
  | c :: rest, st =>
      (st.2.2 || st.2.1 || decide (0 < st.1) || (c != sepH)) &&
        noSplitIn sepH rest (scanStep st c)


/-- Fragment safety for `splitPattern`: nonempty, no top-level separator-head
occurrence, and a neutral final scanner state. -/
def fragOK (sepH : Char) (g : Str) : Prop :=
  g ≠ [] ∧ noSplitIn sepH g (0, false, false) = true ∧
    scanFold g (0, false, false) = (0, false, false)

/-- Safety invariant for `hexRangeParts` fragments. -/
def partOK (p : Str) : Prop :=
  (∀ c ∈ p, c ≠ ':' ∧ c ≠ '(' ∧ c ≠ ')' ∧ c ≠ '\\') ∧
    scanFold p (0, false, false) = (0, false, false)

/-- Decidable fragment check used for the finitely many `hexDigitRange`
outputs. -/
def hexFragCheck (g : Str) : Bool :=
  !g.isEmpty &&
    g.all (fun c => c != ':' && c != '(' && c != ')' && c != '\\') &&
    decide (scanFold g (0, false, false) = (0, false, false))

/-! ## Theorems -/

theorem decStrAux_fuel {fuel fuel' n : Nat} (h : n < fuel) (h' : n < fuel') :
    decStrAux fuel n = decStrAux fuel' n := by
  induction fuel generalizing fuel' n with
  | zero => omega
  | succ f ih =>
    cases fuel' with
    | zero => omega
    | succ f' =>
      simp only [decStrAux]
      split
      · rfl
      · rw [@ih f' (n / 10) (by omega) (by omega)]

/-- The defining recurrence of `decStr`. -/
theorem decStr_eq (n : Nat) :
    decStr n = if n < 10 then [digitChar n]
      else decStr (n / 10) ++ [digitChar (n % 10)] := by
  show decStrAux (n + 1) n = _
  simp only [decStrAux]
  split
  · rfl
  · rw [@decStrAux_fuel n (n / 10 + 1) (n / 10) (by omega) (by omega)]
    rfl

theorem hexStrAux_fuel {fuel fuel' n : Nat} (h : n < fuel) (h' : n < fuel') :
    hexStrAux fuel n = hexStrAux fuel' n := by
  induction fuel generalizing fuel' n with
  | zero => omega
  | succ f ih =>
    cases fuel' with
    | zero => omega
    | succ f' =>
      simp only [hexStrAux]
      split
      · rfl
      · rw [@ih f' (n / 16) (by omega) (by omega)]

/-- The defining recurrence of `hexStr`. -/
theorem hexStr_eq (n : Nat) :
    hexStr n = if n < 16 then [HEX_DIGITS.getD n '?']
      else hexStr (n / 16) ++ [HEX_DIGITS.getD (n % 16) '?'] := by
  show hexStrAux (n + 1) n = _
  simp only [hexStrAux]
  split
  · rfl
  · rw [@hexStrAux_fuel n (n / 16 + 1) (n / 16) (by omega) (by omega)]
    rfl

theorem normalizeRange_fst (a bits p : Nat) (ha : a < 2 ^ bits) (hp : p ≤ bits) :
    (normalizeRange a bits p).1 = 2 ^ (bits - p) * (a / 2 ^ (bits - p)) := by
  show a &&& (if p = 0 then 0 else ((1 <<< p) - 1) <<< (bits - p)) = _
  by_cases hp0 : p = 0
  · subst hp0
    simp only [if_pos rfl, Nat.sub_zero]
    rw [Nat.div_eq_of_lt ha]
    simp
  · rw [if_neg hp0]
    apply Nat.eq_of_testBit_eq
    intro i
    rw [Nat.testBit_land, Nat.testBit_shiftLeft, Nat.shiftLeft_eq, one_mul,
      Nat.testBit_two_pow_sub_one, ← Nat.shiftRight_eq_div_pow,
      Nat.testBit_mul_pow_two, Nat.testBit_shiftRight]
    by_cases hhi : bits - p ≤ i
    · rw [Nat.add_sub_cancel' hhi]
      by_cases hib : i < bits
      · have hlt : i - (bits - p) < p := by omega
        simp [hhi, hlt]
      · have h1 : a.testBit i = false :=
          Nat.testBit_lt_two_pow
            (Nat.lt_of_lt_of_le ha (Nat.pow_le_pow_right (by omega) (by omega)))
        have h2 : ¬(i - (bits - p) < p) := by omega
        simp [hhi, h1, h2]
    · simp [hhi]

theorem normalizeRange_snd (a bits p : Nat) (ha : a < 2 ^ bits) (hp : p ≤ bits) :
    (normalizeRange a bits p).2 =
      (normalizeRange a bits p).1 + (2 ^ (bits - p) - 1) := by
  show (normalizeRange a bits p).1 ||| (if bits - p = 0 then 0
    else (1 <<< (bits - p)) - 1) = _
  rw [normalizeRange_fst a bits p ha hp]
  by_cases hh : bits - p = 0
  · simp [hh]
  · rw [if_neg hh, Nat.shiftLeft_eq, one_mul]
    have hblt : 2 ^ (bits - p) - 1 < 2 ^ (bits - p) := by
      have := Nat.two_pow_pos (bits - p)
      omega
    exact (Nat.mul_add_lt_is_or hblt _).symm

theorem normalizeRange_start_lt (a bits p : Nat) (ha : a < 2 ^ bits) (hp : p ≤ bits) :
    (normalizeRange a bits p).1 < 2 ^ bits := by
  rw [normalizeRange_fst a bits p ha hp]
  calc 2 ^ (bits - p) * (a / 2 ^ (bits - p)) ≤ a := by
        rw [Nat.mul_comm]
        exact Nat.div_mul_le_self a _
    _ < 2 ^ bits := ha

theorem normalizeRange_of_div_eq (a1 a2 bits p : Nat) (ha1 : a1 < 2 ^ bits)
    (ha2 : a2 < 2 ^ bits) (hp : p ≤ bits)
    (h : a1 / 2 ^ (bits - p) = a2 / 2 ^ (bits - p)) :
    normalizeRange a1 bits p = normalizeRange a2 bits p := by
  have f1 := normalizeRange_fst a1 bits p ha1 hp
  have f2 := normalizeRange_fst a2 bits p ha2 hp
  have s1 := normalizeRange_snd a1 bits p ha1 hp
  have s2 := normalizeRange_snd a2 bits p ha2 hp
  have hfst : (normalizeRange a1 bits p).1 = (normalizeRange a2 bits p).1 := by
    rw [f1, f2, h]
  exact Prod.ext hfst (by rw [s1, s2, hfst])

/-- The normalized start (host bits cleared) normalizes to the same interval. -/
theorem normalizeRange_idem (a bits p : Nat) (ha : a < 2 ^ bits) (hp : p ≤ bits) :
    normalizeRange (2 ^ (bits - p) * (a / 2 ^ (bits - p))) bits p =
      normalizeRange a bits p := by
  have hlt : 2 ^ (bits - p) * (a / 2 ^ (bits - p)) < 2 ^ bits := by
    calc 2 ^ (bits - p) * (a / 2 ^ (bits - p)) ≤ a := by
          rw [Nat.mul_comm]
          exact Nat.div_mul_le_self a _
      _ < 2 ^ bits := ha
  apply normalizeRange_of_div_eq _ _ _ _ hlt ha hp
  rw [Nat.mul_div_cancel_left _ (Nat.two_pow_pos _)]

theorem commonPrefixLen_le_left (a b : Str) : commonPrefixLen a b ≤ a.length := by
  induction a generalizing b with
  | nil => simp [commonPrefixLen]
  | cons x xs ih =>
    cases b with
    | nil => simp [commonPrefixLen]
    | cons y ys =>
      simp only [commonPrefixLen, List.length_cons]
      split
      · exact Nat.succ_le_succ (ih ys)
      · omega

theorem isFullRange_of_len_le {s e : List Nat} {i a b : Nat} (h : s.length ≤ i) :
    isFullRange s e i a b = true := by
  simp [isFullRange, Nat.sub_eq_zero_of_le h]

theorem overwriteAfter_length (xs : List Nat) (index v : Nat) :
    (overwriteAfter xs index v).length = xs.length := by
  simp [overwriteAfter]
  omega

/-- The defining recurrence of `buildIPv4Patterns` (for the segment indices
`0..4` that occur). -/
theorem buildIPv4Patterns_eq (start e : List Nat) (index : Nat) (h : index ≤ 4) :
    buildIPv4Patterns start e index =
      if index = 4 then [[]]
      else if isFullRange start e index 0 255 then [ipv4AnySuffix (4 - index)]
      else
        let low := start.getD index 0
        let high := e.getD index 0
        if low = high then
          combineWithSuffix (octetRangePattern low high)
            (buildIPv4Patterns start e (index + 1)) "\\.".toList
        else
          let firstEnd := overwriteAfter (start.set index low) index 255
          let p1 := combineWithSuffix (octetRangePattern low low)
            (buildIPv4Patterns start firstEnd (index + 1)) "\\.".toList
          let p2 :=
            if low + 1 ≤ high - 1 then
              let middle := octetRangePattern (low + 1) (high - 1)
              let suffix := ipv4AnySuffix (4 - index - 1)
              [if suffix.isEmpty then middle else middle ++ "\\.".toList ++ suffix]
            else []
          let lastStart := overwriteAfter (e.set index high) index 0
          let p3 := combineWithSuffix (octetRangePattern high high)
            (buildIPv4Patterns lastStart e (index + 1)) "\\.".toList
          uniquePatterns (p1 ++ p2 ++ p3) := by
  unfold buildIPv4Patterns
  have h5 : 5 - index = (5 - (index + 1)) + 1 := by omega
  rw [h5]
  rfl

/-- The defining recurrence of `buildIPv6Patterns` (for the segment indices
`0..8` that occur). -/
theorem buildIPv6Patterns_eq (start e : List Nat) (index : Nat) (h : index ≤ 8) :
    buildIPv6Patterns start e index =
      (if index = 8 then some [[]]
      else if isFullRange start e index 0 0xffff then some [ipv6AnySuffix (8 - index)]
      else
        let low := start.getD index 0
        let high := e.getD index 0
        if low = high then do
          let frag ← hextetRangePattern low high
          let rest ← buildIPv6Patterns start e (index + 1)
          some (combineWithSuffix frag rest [':'])
        else do
          let firstEnd := overwriteAfter (start.set index low) index 0xffff
          let fragLow ← hextetRangePattern low low
          let restLow ← buildIPv6Patterns start firstEnd (index + 1)
          let p1 := combineWithSuffix fragLow restLow [':']
          let p2 ←
            if low + 1 ≤ high - 1 then do
              let middle ← hextetRangePattern (low + 1) (high - 1)
              let suffix := ipv6AnySuffix (8 - index - 1)
              some [if suffix.isEmpty then middle else middle ++ ':' :: suffix]
            else some []
          let lastStart := overwriteAfter (e.set index high) index 0
          let fragHigh ← hextetRangePattern high high
          let restHigh ← buildIPv6Patterns lastStart e (index + 1)
          let p3 := combineWithSuffix fragHigh restHigh [':']
          some (uniquePatterns (p1 ++ p2 ++ p3))) := by
  unfold buildIPv6Patterns
  have h9 : 9 - index = (9 - (index + 1)) + 1 := by omega
  rw [h9]
  rfl

/-! ### Pattern minimizer -/

theorem insertGroup_variantCount (key row : Row) (index : Nat) (gs : List GroupEntry) :
    variantCount (insertGroup key row index gs) = variantCount gs + 1 := by
  induction gs with
  | nil => simp [insertGroup, variantCount]
  | cons g gs ih =>
    simp only [insertGroup]
    split
    · simp [variantCount]
      omega
    · simp only [variantCount, List.map_cons, List.sum_cons] at ih ⊢
      omega

theorem insertGroup_nonempty {key row : Row} {index : Nat} {gs : List GroupEntry}
    (h : ∀ g ∈ gs, g.variants ≠ []) :
    ∀ g ∈ insertGroup key row index gs, g.variants ≠ [] := by
  induction gs with
  | nil =>
    intro g hg
    simp [insertGroup] at hg
    subst hg
    simp
  | cons g0 gs ih =>
    intro g hg
    simp only [insertGroup] at hg
    split at hg
    · rcases List.mem_cons.mp hg with h1 | h1
      · subst h1
        have := h g0 (List.mem_cons_self _ _)
        simp
      · exact h g (List.mem_cons_of_mem _ h1)
    · rcases List.mem_cons.mp hg with h1 | h1
      · subst h1
        exact h g (List.mem_cons_self _ _)
      · exact ih (fun g' hg' => h g' (List.mem_cons_of_mem _ hg')) g h1

theorem groupRows_foldl_variantCount (rows : List Row) (index : Nat)
    (gs : List GroupEntry) :
    variantCount (rows.foldl
      (fun gs row => insertGroup (row.set index nulStr) row index gs) gs) =
      variantCount gs + rows.length := by
  induction rows generalizing gs with
  | nil => simp
  | cons r rows ih =>
    simp only [List.foldl_cons, List.length_cons]
    rw [ih, insertGroup_variantCount]
    omega

theorem groupRows_variantCount (rows : List Row) (index : Nat) :
    variantCount (groupRows rows index) = rows.length := by
  have := groupRows_foldl_variantCount rows index []
  simpa [groupRows, variantCount] using this

theorem groupRows_nonempty (rows : List Row) (index : Nat) :
    ∀ g ∈ groupRows rows index, g.variants ≠ [] := by
  have : ∀ (gs : List GroupEntry), (∀ g ∈ gs, g.variants ≠ []) →
      ∀ g ∈ rows.foldl
        (fun gs row => insertGroup (row.set index nulStr) row index gs) gs,
        g.variants ≠ [] := by
    induction rows with
    | nil => intro gs h; simpa using h
    | cons r rows ih =>
      intro gs h
      simp only [List.foldl_cons]
      exact ih _ (insertGroup_nonempty h)
  exact this [] (by simp)

theorem length_le_variantCount {gs : List GroupEntry}
    (h : ∀ g ∈ gs, g.variants ≠ []) : gs.length ≤ variantCount gs := by
  induction gs with
  | nil => simp [variantCount]
  | cons g gs ih =>
    have h1 : g.variants ≠ [] := h g (List.mem_cons_self _ _)
    have h2 : 1 ≤ g.variants.length := List.length_pos.mpr h1
    have h3 := ih (fun g' hg' => h g' (List.mem_cons_of_mem _ hg'))
    simp only [variantCount, List.map_cons, List.sum_cons, List.length_cons] at *
    omega

theorem length_lt_variantCount {gs : List GroupEntry} {g0 : GroupEntry}
    (hmem : g0 ∈ gs) (hbig : 2 ≤ g0.variants.length)
    (h : ∀ g ∈ gs, g.variants ≠ []) : gs.length < variantCount gs := by
  induction gs with
  | nil => simp at hmem
  | cons g gs ih =>
    rcases List.mem_cons.mp hmem with h1 | h1
    · subst h1
      have h3 := @length_le_variantCount gs
        (fun g' hg' => h g' (List.mem_cons_of_mem _ hg'))
      simp only [variantCount, List.map_cons, List.sum_cons, List.length_cons] at *
      omega
    · have h2 : 1 ≤ g.variants.length :=
        List.length_pos.mpr (h g (List.mem_cons_self _ _))
      have h3 := ih h1 (fun g' hg' => h g' (List.mem_cons_of_mem _ hg'))
      simp only [variantCount, List.map_cons, List.sum_cons, List.length_cons] at *
      omega

theorem dedupFirstAux_length_le {α : Type} [DecidableEq α] (l seen : List α) :
    (dedupFirstAux l seen).length ≤ l.length := by
  induction l generalizing seen with
  | nil => simp [dedupFirstAux]
  | cons x xs ih =>
    simp only [dedupFirstAux]
    split
    · exact Nat.le_trans (ih seen) (by simp)
    · simpa using Nat.succ_le_succ (ih (x :: seen))

theorem dedupFirst_length_le {α : Type} [DecidableEq α] (l : List α) :
    (dedupFirst l).length ≤ l.length := dedupFirstAux_length_le l []

theorem mergeAtIndex_length_le (rows : List Row) (index : Nat) :
    (mergeAtIndex rows index).1.length ≤ rows.length := by
  have h1 : (mergeAtIndex rows index).1.length ≤ (groupRows rows index).length := by
    simp only [mergeAtIndex]
    exact Nat.le_trans (dedupFirst_length_le _) (by simp)
  have h2 := length_le_variantCount (groupRows_nonempty rows index)
  have h3 := groupRows_variantCount rows index
  omega

theorem mergeAtIndex_length_lt {rows : List Row} {index : Nat}
    (h : (mergeAtIndex rows index).2 = true) :
    (mergeAtIndex rows index).1.length < rows.length := by
  have hch : (groupRows rows index).any
      (fun g => 1 < (uniquePatterns g.variants).length) = true := h
  obtain ⟨g0, hg0, hbig⟩ := List.any_eq_true.mp hch
  have hbig' : 2 ≤ (uniquePatterns g0.variants).length := by
    simpa using hbig
  have hvar : 2 ≤ g0.variants.length :=
    Nat.le_trans hbig' (dedupFirst_length_le _)
  have h1 : (mergeAtIndex rows index).1.length ≤ (groupRows rows index).length := by
    simp only [mergeAtIndex]
    exact Nat.le_trans (dedupFirst_length_le _) (by simp)
  have h2 := length_lt_variantCount hg0 hvar (groupRows_nonempty rows index)
  have h3 := groupRows_variantCount rows index
  omega

theorem minimizePass_foldl_spec (l : List Nat) (rows : List Row) (b : Bool) :
    (l.foldl (fun acc index =>
        ((mergeAtIndex acc.1 index).1, acc.2 || (mergeAtIndex acc.1 index).2))
        (rows, b)).1.length ≤ rows.length ∧
      ((l.foldl (fun acc index =>
        ((mergeAtIndex acc.1 index).1, acc.2 || (mergeAtIndex acc.1 index).2))
        (rows, b)).2 = true → b = true ∨
        (l.foldl (fun acc index =>
          ((mergeAtIndex acc.1 index).1, acc.2 || (mergeAtIndex acc.1 index).2))
          (rows, b)).1.length < rows.length) := by
  induction l generalizing rows b with
  | nil => simp
  | cons i l ih =>
    simp only [List.foldl_cons]
    rcases ih (mergeAtIndex rows i).1 (b || (mergeAtIndex rows i).2) with ⟨hle, hlt⟩
    have hm := mergeAtIndex_length_le rows i
    constructor
    · omega
    · intro hch
      rcases hlt hch with hb | hstrict
      · rcases Bool.or_eq_true_iff.mp hb with hb1 | hb2
        · exact Or.inl hb1
        · exact Or.inr (Nat.lt_of_le_of_lt hle (mergeAtIndex_length_lt hb2))
      · exact Or.inr (Nat.lt_of_lt_of_le hstrict hm)

theorem minimizePass_length_lt {rows : List Row} {segmentCount : Nat}
    (h : (minimizePass rows segmentCount).2 = true) :
    (minimizePass rows segmentCount).1.length < rows.length := by
  have := minimizePass_foldl_spec (List.range segmentCount) rows false
  rcases this.2 h with hb | hlt
  · cases hb
  · exact hlt

theorem minimizeLoopF_fuel {fuel fuel' : Nat} {rows : List Row} {segmentCount : Nat}
    (h : rows.length < fuel) (h' : rows.length < fuel') :
    minimizeLoopF fuel rows segmentCount = minimizeLoopF fuel' rows segmentCount := by
  induction fuel generalizing fuel' rows with
  | zero => omega
  | succ f ih =>
    cases fuel' with
    | zero => omega
    | succ f' =>
      simp only [minimizeLoopF]
      split
      · rename_i hch
        have hlt := minimizePass_length_lt hch
        exact ih (by omega) (by omega)
      · rfl

/-- The defining recurrence of `minimizeLoop`. -/
theorem minimizeLoop_eq (rows : List Row) (segmentCount : Nat) :
    minimizeLoop rows segmentCount =
      if (minimizePass rows segmentCount).2 = true then
        minimizeLoop (minimizePass rows segmentCount).1 segmentCount
      else (minimizePass rows segmentCount).1 := by
  show minimizeLoopF (rows.length + 1) rows segmentCount = _
  simp only [minimizeLoopF]
  split
  · rename_i hch
    have hlt := minimizePass_length_lt hch
    exact minimizeLoopF_fuel (by omega) (by omega)
  · rfl

/-! ### Pattern splitting and assembly -/

/-- `cidrToRegex` is determined by the parse result's family and normalized
interval: two inputs whose parses agree on the family and normalize to the
same interval compile identically. -/
theorem cidrToRegex_parsed_eq (c1 c2 : Str) (pc1 pc2 : ParsedCidr)
    (h1 : parseCidr (.str c1) = .ok pc1) (h2 : parseCidr (.str c2) = .ok pc2)
    (hfam : pc1.family = pc2.family)
    (hnorm : normalizeRange pc1.address (famBits pc1.family) pc1.prefixLen =
      normalizeRange pc2.address (famBits pc2.family) pc2.prefixLen) :
    cidrToRegex (.str c1) = cidrToRegex (.str c2) := by
  obtain ⟨f1, a1, p1⟩ := pc1
  obtain ⟨f2, a2, p2⟩ := pc2
  simp only at hfam
  subst hfam
  simp only [cidrToRegex, h1, h2]
  cases f1 <;> simp only [famBits, IPV4_BITS, IPV6_BITS] at hnorm <;>
    simp only [IPV4_BITS, IPV6_BITS, hnorm]

/-! ### The matcher agrees with the enumerated language -/

theorem toNat_ofNat_lt {n : Nat} (h : n < 55296) : (Char.ofNat n).toNat = n := by
  rw [Char.ofNat, dif_pos (Or.inl h)]
  simp [Char.toNat, Char.ofNatAux, UInt32.toNat]

theorem char_le_iff {a b : Char} : a ≤ b ↔ a.toNat ≤ b.toNat := by
  rw [Char.le_def, UInt32.le_def, BitVec.le_def]
  exact Iff.rfl

theorem charsOfRange_mem {p : Char × Char} (hv : p.2.toNat < 55296) (c : Char) :
    [c] ∈ charsOfRange p ↔ (p.1 ≤ c ∧ c ≤ p.2) := by
  unfold charsOfRange
  simp only [List.mem_map, List.mem_range, List.cons.injEq, and_true]
  constructor
  · rintro ⟨i, hi, hceq⟩
    have hct : c.toNat = p.1.toNat + i := by
      rw [← hceq, toNat_ofNat_lt (by omega)]
    constructor
    · rw [char_le_iff]
      omega
    · rw [char_le_iff]
      omega
  · rintro ⟨h1, h2⟩
    rw [char_le_iff] at h1 h2
    refine ⟨c.toNat - p.1.toNat, by omega, ?_⟩
    rw [show p.1.toNat + (c.toNat - p.1.toNat) = c.toNat by omega]
    exact Char.ofNat_toNat c

theorem inRanges_iff_mem_flatMap {rs : List (Char × Char)}
    (hv : ∀ p ∈ rs, p.2.toNat < 55296) (c : Char) :
    inRanges rs c = true ↔ [c] ∈ rs.flatMap charsOfRange := by
  rw [inRanges, List.any_eq_true, List.mem_flatMap]
  constructor
  · rintro ⟨p, hp, hc⟩
    rw [Bool.and_eq_true, decide_eq_true_eq, decide_eq_true_eq] at hc
    exact ⟨p, hp, (charsOfRange_mem (hv p hp) c).mpr hc⟩
  · rintro ⟨p, hp, hc⟩
    obtain ⟨h1, h2⟩ := (charsOfRange_mem (hv p hp) c).mp hc
    exact ⟨p, hp, by simp [h1, h2]⟩

theorem mem_flatMap_charsOfRange {rs : List (Char × Char)} {s1 : Str}
    (h : s1 ∈ rs.flatMap charsOfRange) : ∃ c0, s1 = [c0] := by
  obtain ⟨p, hp, hc⟩ := List.mem_flatMap.mp h
  rw [charsOfRange] at hc
  obtain ⟨i, _, hceq⟩ := List.mem_map.mp hc
  exact ⟨_, hceq.symm⟩

theorem powLang_mem_zero (A : List Str) (s : Str) :
    s ∈ powLang A 0 ↔ s = [] := by
  simp [powLang]

theorem powLang_mem_succ (A : List Str) (k : Nat) (s : Str) :
    s ∈ powLang A (k + 1) ↔
      ∃ s1 s2, s1 ∈ A ∧ s2 ∈ powLang A k ∧ s = s1 ++ s2 := by
  simp only [powLang, List.mem_flatMap, List.mem_map]
  constructor
  · rintro ⟨s1, h1, s2, h2, hs⟩
    exact ⟨s1, s2, h1, h2, hs.symm⟩
  · rintro ⟨s1, s2, h1, h2, hs⟩
    exact ⟨s1, h1, s2, h2, hs.symm⟩

theorem repEnds_spec (f : Str → List Str) (A : List Str)
    (hf : ∀ s rest, rest ∈ f s ↔ ∃ s1, s = s1 ++ rest ∧ s1 ∈ A) :
    ∀ (mx mn : Nat) (s rest : Str),
      rest ∈ repEnds f mn mx s ↔
        ∃ k s1, mn ≤ k ∧ k ≤ mx ∧ s = s1 ++ rest ∧ s1 ∈ powLang A k := by
  intro mx
  induction mx with
  | zero =>
    intro mn s rest
    simp only [repEnds]
    by_cases hmn : mn = 0
    · subst hmn
      simp only [if_pos rfl, List.mem_singleton, reduceIte]
      constructor
      · rintro rfl
        exact ⟨0, [], le_refl _, le_refl _, rfl, by simp [powLang]⟩
      · rintro ⟨k, s1, hk0, hk1, hs, hpow⟩
        have : k = 0 := by omega
        subst this
        rw [powLang_mem_zero] at hpow
        subst hpow
        simpa using hs.symm
    · rw [if_neg hmn]
      simp only [List.not_mem_nil, false_iff]
      rintro ⟨k, s1, hk0, hk1, _, _⟩
      omega
  | succ mx ih =>
    intro mn s rest
    simp only [repEnds]
    by_cases hmn : mn = 0
    · subst hmn
      simp only [reduceIte]
      simp only [List.mem_cons, List.mem_flatMap]
      constructor
      · rintro (rfl | ⟨mid, hmid, hrest⟩)
        · exact ⟨0, [], le_refl _, Nat.zero_le _, rfl, by simp [powLang]⟩
        · obtain ⟨s1, hs1, hA⟩ := (hf s mid).mp hmid
          obtain ⟨k, s2, _, hk1, hmid2, hpow⟩ := (ih 0 mid rest).mp hrest
          exact ⟨k + 1, s1 ++ s2, Nat.zero_le _, by omega,
            by rw [hs1, hmid2, List.append_assoc],
            (powLang_mem_succ A k _).mpr ⟨s1, s2, hA, hpow, rfl⟩⟩
      · rintro ⟨k, s1, _, hk1, hs, hpow⟩
        cases k with
        | zero =>
          rw [powLang_mem_zero] at hpow
          subst hpow
          simp at hs
          exact Or.inl hs.symm
        | succ k' =>
          obtain ⟨t1, t2, hA, hpow', ht⟩ := (powLang_mem_succ A k' s1).mp hpow
          refine Or.inr ⟨t2 ++ rest, ?_, ?_⟩
          · exact (hf s (t2 ++ rest)).mpr ⟨t1, by rw [hs, ht, List.append_assoc], hA⟩
          · exact (ih 0 (t2 ++ rest) rest).mpr ⟨k', t2, Nat.zero_le _, by omega, rfl, hpow'⟩
    · rw [if_neg hmn]
      simp only [List.mem_flatMap]
      constructor
      · rintro ⟨mid, hmid, hrest⟩
        obtain ⟨s1, hs1, hA⟩ := (hf s mid).mp hmid
        obtain ⟨k, s2, hk0, hk1, hmid2, hpow⟩ := (ih (mn - 1) mid rest).mp hrest
        exact ⟨k + 1, s1 ++ s2, by omega, by omega,
          by rw [hs1, hmid2, List.append_assoc],
          (powLang_mem_succ A k _).mpr ⟨s1, s2, hA, hpow, rfl⟩⟩
      · rintro ⟨k, s1, hk0, hk1, hs, hpow⟩
        cases k with
        | zero => omega
        | succ k' =>
          obtain ⟨t1, t2, hA, hpow', ht⟩ := (powLang_mem_succ A k' s1).mp hpow
          refine ⟨t2 ++ rest, ?_, ?_⟩
          · exact (hf s (t2 ++ rest)).mpr ⟨t1, by rw [hs, ht, List.append_assoc], hA⟩
          · exact (ih (mn - 1) (t2 ++ rest) rest).mpr
              ⟨k', t2, by omega, by omega, rfl, hpow'⟩

theorem matchEnds_spec : ∀ (r : RE), REok r = true →
    ∀ (s rest : Str), rest ∈ matchEnds r s ↔
      ∃ s1, s = s1 ++ rest ∧ s1 ∈ lang r := by
  intro r
  induction r with
  | eps =>
    intro _ s rest
    simp [matchEnds, lang, eq_comm]
  | fail =>
    intro _ s rest
    simp [matchEnds, lang]
  | lit c =>
    intro _ s rest
    cases s with
    | nil => simp [matchEnds, lang]
    | cons c' s' =>
      simp only [matchEnds, lang]
      by_cases hc : c' = c
      · subst hc
        simp [eq_comm]
      · simp only [if_neg hc]
        simp only [List.not_mem_nil, false_iff, List.mem_singleton]
        rintro ⟨s1, hs, rfl⟩
        simp at hs
        exact hc hs.1
  | cls rs =>
    intro hok s rest
    have hv : ∀ p ∈ rs, p.2.toNat < 55296 := by
      intro p hp
      have := List.all_eq_true.mp hok p hp
      simpa using this
    cases s with
    | nil =>
      simp only [matchEnds, lang, List.not_mem_nil, false_iff]
      rintro ⟨s1, hs, hmem⟩
      obtain ⟨c0, rfl⟩ := mem_flatMap_charsOfRange hmem
      simp at hs
    | cons c' s' =>
      simp only [matchEnds, lang]
      by_cases hc : inRanges rs c' = true
      · rw [if_pos hc]
        simp only [List.mem_singleton]
        constructor
        · rintro rfl
          exact ⟨[c'], rfl, (inRanges_iff_mem_flatMap hv c').mp hc⟩
        · rintro ⟨s1, hs, hmem⟩
          obtain ⟨c0, rfl⟩ := mem_flatMap_charsOfRange hmem
          rw [List.cons_append, List.nil_append] at hs
          injection hs with h1 h2
          exact h2.symm
      · rw [if_neg hc]
        simp only [List.not_mem_nil, false_iff]
        rintro ⟨s1, hs, hmem⟩
        obtain ⟨c0, rfl⟩ := mem_flatMap_charsOfRange hmem
        rw [List.cons_append, List.nil_append] at hs
        injection hs with h1 h2
        subst h1
        exact hc ((inRanges_iff_mem_flatMap hv c').mpr hmem)
  | seq a b iha ihb =>
    intro hok s rest
    rw [REok, Bool.and_eq_true] at hok
    simp only [matchEnds, lang, List.mem_flatMap, List.mem_map]
    constructor
    · rintro ⟨mid, hmid, hrest⟩
      obtain ⟨s1, hs1, hA⟩ := (iha hok.1 s mid).mp hmid
      obtain ⟨s2, hs2, hB⟩ := (ihb hok.2 mid rest).mp hrest
      exact ⟨s1 ++ s2, by rw [hs1, hs2, List.append_assoc],
        ⟨s1, hA, s2, hB, rfl⟩⟩
    · rintro ⟨s0, hs, s1, hA, s2, hB, hs0⟩
      subst hs0
      refine ⟨s2 ++ rest, ?_, ?_⟩
      · exact (iha hok.1 s (s2 ++ rest)).mpr ⟨s1, by rw [hs, List.append_assoc], hA⟩
      · exact (ihb hok.2 (s2 ++ rest) rest).mpr ⟨s2, rfl, hB⟩
  | alt a b iha ihb =>
    intro hok s rest
    rw [REok, Bool.and_eq_true] at hok
    simp only [matchEnds, lang, List.mem_append]
    rw [iha hok.1, ihb hok.2]
    constructor
    · rintro (⟨s1, hs, hA⟩ | ⟨s1, hs, hB⟩)
      · exact ⟨s1, hs, Or.inl hA⟩
      · exact ⟨s1, hs, Or.inr hB⟩
    · rintro ⟨s1, hs, hA | hB⟩
      · exact Or.inl ⟨s1, hs, hA⟩
      · exact Or.inr ⟨s1, hs, hB⟩
  | rep a mn mx iha =>
    intro hok s rest
    have hok' : REok a = true := hok
    simp only [matchEnds, lang]
    rw [repEnds_spec (fun r => matchEnds a r) (lang a) (iha hok')]
    simp only [List.mem_flatMap, List.mem_range]
    constructor
    · rintro ⟨k, s1, hk0, hk1, hs, hpow⟩
      exact ⟨s1, hs, k - mn, by omega, by rw [show mn + (k - mn) = k by omega]; exact hpow⟩
    · rintro ⟨s1, hs, i, hi, hpow⟩
      exact ⟨mn + i, s1, by omega, by omega, hs, hpow⟩

theorem patAccepts_iff_lang {p : Str} {r : RE} (hp : parseFull p = some r)
    (hok : REok r = true) (s : Str) :
    patAccepts p s = true ↔ s ∈ lang r := by
  unfold patAccepts
  rw [hp, decide_eq_true_eq, matchEnds_spec r hok]
  simp

theorem anyOctet_parse : parseFull IPV4_ANY_OCTET = some anyOctetRE := by decide

theorem anyOctet_ok : REok anyOctetRE = true := by decide

set_option maxRecDepth 4096 in
theorem anyOctet_sub1 : ∀ s ∈ lang anyOctetRE, s ∈ (List.range 256).map decStr := by
  decide

set_option maxRecDepth 4096 in
theorem anyOctet_sub2 : ∀ n ∈ List.range 256, decStr n ∈ lang anyOctetRE := by
  decide

/-- The wildcard octet fragment matches exactly the 256 minimal-decimal
strings `"0"`..`"255"`. -/
theorem anyOctet_accepts_iff (s : Str) :
    patAccepts IPV4_ANY_OCTET s = true ↔ ∃ n, n ≤ 255 ∧ s = decStr n := by
  rw [patAccepts_iff_lang anyOctet_parse anyOctet_ok]
  constructor
  · intro hmem
    obtain ⟨n, hn, rfl⟩ := List.mem_map.mp (anyOctet_sub1 s hmem)
    have := List.mem_range.mp hn
    exact ⟨n, by omega, rfl⟩
  · rintro ⟨n, hn, rfl⟩
    exact anyOctet_sub2 n (List.mem_range.mpr (by omega))

theorem parseHextetParts_none_iff (parts : List Str) :
    parseHextetParts parts = none ↔ ∃ p ∈ parts, isHextetStr p = false := by
  induction parts with
  | nil => simp [parseHextetParts]
  | cons p rest ih =>
    simp only [parseHextetParts]
    cases hp : isHextetStr p with
    | false => simp [hp]
    | true =>
      rcases hre : parseHextetParts rest with _ | out <;>
        simp_all [hp, hre]

theorem parseHextetParts_length : ∀ {parts : List Str} {out : List Nat},
    parseHextetParts parts = some out → out.length = parts.length := by
  intro parts
  induction parts with
  | nil =>
    intro out h
    simp only [parseHextetParts, Option.some.injEq] at h
    simp [← h]
  | cons p rest ih =>
    intro out h
    simp only [parseHextetParts] at h
    split at h
    · cases h
    · rcases hre : parseHextetParts rest with _ | o
      · rw [hre] at h; cases h
      · rw [hre] at h
        cases h
        simp [ih hre]

/-! ## Claim theorems -/

/-- C5: IPv6 address parsing fails (the invalid-address result) exactly when
the text — lowercased and with a trailing embedded IPv4 literal expanded into
two 16-bit groups — has more than one `::` token, an empty non-compressed
group, a compressed form with 8 or more fixed groups, an uncompressed form
with a group count other than 8, or any group that is not 1 to 4 hex digits
(hex digits being accepted case-insensitively via the lowercasing). -/
theorem C5_parseIPv6_failure (text : Str) :
    parseIPv6 text = none ↔ ipv6SpecViolation text = true := by
  simp only [parseIPv6, ipv6SpecViolation, ipv6DoubleColonCount,
    ipv6HasCompression, ipv6FixedGroups]
  generalize expandEmbeddedIPv4 (toLowerStr text) = t
  by_cases h0 : t.isEmpty
  · have ht : t = [] := by simpa using h0
    subst ht
    decide
  · rw [if_neg h0]
    by_cases h1 : 1 < (splitDoubleColon t).length - 1
    · rw [if_pos h1]
      simp [h1]
    · rw [if_neg h1]
      simp only [decide_eq_false h1, Bool.false_or]
      by_cases hc : 2 ≤ (splitDoubleColon t).length
      · simp only [hc, decide_eq_true_eq, if_pos, decide_eq_true hc]
        have hflip : ∀ (b : Bool) (x y : List Str),
            (if True ∧ (!b) = true then x else y) = if b = true then y else x := by
          intro b x y
          cases b <;> simp
        simp only [hflip]
        set L := (if List.isEmpty ((splitDoubleColon t).headD []) = true then []
          else splitOnChar ':' ((splitDoubleColon t).headD [])) with hLdef
        set R := (if List.isEmpty ((splitDoubleColon t).getD 1 []) = true then []
          else splitOnChar ':' ((splitDoubleColon t).getD 1 [])) with hRdef
        simp only [decide_True, Bool.true_and, Bool.not_true, Bool.false_and,
          Bool.or_false]
        by_cases hany : (L.any List.isEmpty = true ∨ R.any List.isEmpty = true)
        · rw [if_pos hany]
          rcases hany with h | h <;> simp [List.any_append, h]
        · rw [if_neg hany]
          push_neg at hany
          obtain ⟨ha1, ha2⟩ := hany
          rcases hpl : parseHextetParts L with _ | outL
          · obtain ⟨p, hpmem, hphex⟩ := (parseHextetParts_none_iff L).mp hpl
            simp only [hpl]
            have hx : (L ++ R).any (fun g => !isHextetStr g) = true := by
              rw [List.any_eq_true]
              exact ⟨p, List.mem_append_left _ hpmem, by simp [hphex]⟩
            simp [hx]
          · rcases hpr : parseHextetParts R with _ | outR
            · obtain ⟨p, hpmem, hphex⟩ := (parseHextetParts_none_iff R).mp hpr
              simp only [hpl, hpr]
              have hx : (L ++ R).any (fun g => !isHextetStr g) = true := by
                rw [List.any_eq_true]
                exact ⟨p, List.mem_append_right _ hpmem, by simp [hphex]⟩
              simp [hx]
            · simp only [hpl, hpr]
              have hlen1 := parseHextetParts_length hpl
              have hlen2 := parseHextetParts_length hpr
              by_cases h8 : 8 ≤ outL.length + outR.length
              · rw [if_pos h8]
                simp [List.any_append]
                exact Or.inl (Or.inr (by omega))
              · rw [if_neg h8]
                have hlenf : ¬(8 ≤ (L ++ R).length) := by
                  rw [List.length_append]
                  omega
                have ha1b : L.any List.isEmpty = false := by
                  revert ha1
                  cases L.any List.isEmpty <;> simp
                have ha2b : R.any List.isEmpty = false := by
                  revert ha2
                  cases R.any List.isEmpty <;> simp
                have hhexL : L.any (fun g => !isHextetStr g) = false := by
                  rw [List.any_eq_false]
                  intro p hmem
                  by_contra hfalse
                  have hnone : parseHextetParts L = none :=
                    (parseHextetParts_none_iff L).mpr
                      ⟨p, hmem, by revert hfalse; cases isHextetStr p <;> simp⟩
                  rw [hnone] at hpl
                  cases hpl
                have hhexR : R.any (fun g => !isHextetStr g) = false := by
                  rw [List.any_eq_false]
                  intro p hmem
                  by_contra hfalse
                  have hnone : parseHextetParts R = none :=
                    (parseHextetParts_none_iff R).mpr
                      ⟨p, hmem, by revert hfalse; cases isHextetStr p <;> simp⟩
                  rw [hnone] at hpr
                  cases hpr
                simp [List.any_append, ha1b, ha2b, hhexL, hhexR, hlenf]
                omega
      · simp only [decide_eq_false hc, Bool.false_and, Bool.not_false,
          Bool.true_and, Bool.or_false, Bool.false_or, if_neg, ite_false]
        simp only [Bool.false_eq_true, false_and, if_false]
        simp only [if_neg h0, parseHextetParts]
        set L := splitOnChar ':' t with hLdef
        by_cases hany : L.any List.isEmpty = true
        · rw [if_pos (Or.inl hany)]
          simp [hany]
        · have hcond : ¬(L.any List.isEmpty = true ∨
              ([] : List Str).any List.isEmpty = true) := by
            simp [hany]
          rw [if_neg hcond]
          rcases hpl : parseHextetParts L with _ | outL
          · simp only [hpl]
            obtain ⟨p, hpmem, hphex⟩ := (parseHextetParts_none_iff L).mp hpl
            have hx : L.any (fun g => !isHextetStr g) = true := by
              rw [List.any_eq_true]
              exact ⟨p, hpmem, by simp [hphex]⟩
            simp [hx]
          · simp only [hpl]
            have hlen1 := parseHextetParts_length hpl
            by_cases h8 : outL.length ≠ 8
            · rw [if_pos h8]
              have hx : L.length ≠ 8 := by omega
              simp [hx]
            · rw [if_neg h8]
              push_neg at h8
              have ha1b : L.any List.isEmpty = false := by
                revert hany
                cases L.any List.isEmpty <;> simp
              have hhexL : L.any (fun g => !isHextetStr g) = false := by
                rw [List.any_eq_false]
                intro p hmem
                by_contra hfalse
                have hnone : parseHextetParts L = none :=
                  (parseHextetParts_none_iff L).mpr
                    ⟨p, hmem, by revert hfalse; cases isHextetStr p <;> simp⟩
                rw [hnone] at hpl
                cases hpl
              simp [ha1b, hhexL]
              omega

/-- C3: for a parsed prefix with `address < 2^bitWidth` and
`prefixLength ≤ bitWidth`, `normalizeRange` (which is total — it has no
failure path) clears the `hostBits = bitWidth - prefixLength` low bits for
the start (`address & ~((1 << hostBits) - 1)`, which on non-negative
unbounded integers is `2^hostBits * (address / 2^hostBits)`) and sets them
for the end (`start | ((1 << hostBits) - 1) = start + 2^hostBits - 1`); in
particular `prefixLength = bitWidth` gives `start = end = address` and
`prefixLength = 0` gives `start = 0`, `end = 2^bitWidth - 1`. -/
theorem C3_normalizeRange_formula (a bits p : Nat) (ha : a < 2 ^ bits)
    (hp : p ≤ bits) :
    (normalizeRange a bits p).1 = 2 ^ (bits - p) * (a / 2 ^ (bits - p)) ∧
    (normalizeRange a bits p).2 =
      (normalizeRange a bits p).1 + (2 ^ (bits - p) - 1) ∧
    (p = bits → normalizeRange a bits p = (a, a)) ∧
    (p = 0 → normalizeRange a bits p = (0, 2 ^ bits - 1)) := by
  refine ⟨normalizeRange_fst a bits p ha hp, normalizeRange_snd a bits p ha hp,
    ?_, ?_⟩
  · intro hpb
    have h1 := normalizeRange_fst a bits p ha hp
    have h2 := normalizeRange_snd a bits p ha hp
    rw [hpb] at h1 h2 ⊢
    simp only [Nat.sub_self, pow_zero, Nat.div_one, one_mul, Nat.add_zero] at h1 h2
    exact Prod.ext h1 (h2.trans h1)
  · intro hp0
    subst hp0
    have h1 := normalizeRange_fst a bits 0 ha (Nat.zero_le _)
    have h2 := normalizeRange_snd a bits 0 ha (Nat.zero_le _)
    simp only [Nat.sub_zero] at h1 h2
    rw [Nat.div_eq_of_lt ha, Nat.mul_zero] at h1
    exact Prod.ext h1 (by rw [h2, h1, Nat.zero_add])

theorem C3_normalizeRange_formula_witness :
    (normalizeRange 5 4 2).1 = 2 ^ (4 - 2) * (5 / 2 ^ (4 - 2)) ∧
    (normalizeRange 5 4 2).2 = (normalizeRange 5 4 2).1 + (2 ^ (4 - 2) - 1) ∧
    (2 = 4 → normalizeRange 5 4 2 = (5, 5)) ∧
    (2 = 0 → normalizeRange 5 4 2 = (0, 2 ^ 4 - 1)) :=
  C3_normalizeRange_formula 5 4 2 (by decide) (by decide)

/-- C4 counterexample: the digit span `8..12` compiles to the single bracket
group `[8-9a-c]`, not to `[89a-c]`, and the emitted fragment contains no `|`
(so it is not "two bracket groups joined by alternation"). -/
theorem C4_counterexample :
    hexDigitRange 8 12 = "[8-9a-c]".toList ∧
    hexDigitRange 8 12 ≠ "[89a-c]".toList ∧
    ¬ '|' ∈ hexDigitRange 8 12 := by
  decide

/-- C4 (amended): a hex digit span `[low, high]` with `low ≤ 9 < high ≤ 15`
crossing the `0-9`/`a-f` boundary compiles to a single bracket group
containing one range item per side of the boundary (each collapsing to a
single digit when one-wide); in particular digits 8 through 12 compile to
`[8-9a-c]`. -/
theorem C4_hexDigitRange_boundary (low high : Nat) (h1 : low ≤ 9)
    (h2 : 9 < high) (h3 : high ≤ 15) :
    hexDigitRange low high =
      '[' :: ((if low = 9 then [HEX_DIGITS.getD low '?']
          else [HEX_DIGITS.getD low '?', '-', '9']) ++
        (if high = 10 then ['a']
          else ['a', '-', HEX_DIGITS.getD high '?']) ++ [']']) := by
  interval_cases low <;> interval_cases high <;> decide

theorem C4_hexDigitRange_boundary_witness :
    hexDigitRange 8 12 =
      '[' :: ((if 8 = 9 then [HEX_DIGITS.getD 8 '?']
          else [HEX_DIGITS.getD 8 '?', '-', '9']) ++
        (if 12 = 10 then ['a']
          else ['a', '-', HEX_DIGITS.getD 12 '?']) ++ [']']) :=
  C4_hexDigitRange_boundary 8 12 (by decide) (by decide) (by decide)

/-- C6: compiling a CIDR text and compiling its canonical network form (same
prefix length, host bits zeroed in the address) produce identical compiled
regexes — in particular they match exactly the same strings. -/
theorem C6_idempotent_normalization (c1 c2 : Str) (fam : Fam) (a p : Nat)
    (h1 : parseCidr (.str c1) = .ok ⟨fam, a, p⟩)
    (h2 : parseCidr (.str c2) = .ok ⟨fam,
      2 ^ (famBits fam - p) * (a / 2 ^ (famBits fam - p)), p⟩)
    (ha : a < 2 ^ famBits fam) (hp : p ≤ famBits fam) :
    cidrToRegex (.str c1) = cidrToRegex (.str c2) := by
  apply cidrToRegex_parsed_eq _ _ _ _ h1 h2 rfl
  exact (normalizeRange_idem a (famBits fam) p ha hp).symm

theorem C6_idempotent_normalization_witness :
    cidrToRegex (.str "10.0.0.5/24".toList) =
      cidrToRegex (.str "10.0.0.0/24".toList) :=
  C6_idempotent_normalization _ _ .ipv4 167772165 24 (by decide) (by decide)
    (by decide) (by decide)

/-- C8: the minimizer's fixed-point `while` loop terminates because every pass
that reports a change strictly decreases the number of pattern rows (the
segment/digit recursions are structurally bounded by construction). -/
theorem C8_minimizer_pass_decreases (rows : List Row) (segmentCount : Nat)
    (h : (minimizePass rows segmentCount).2 = true) :
    (minimizePass rows segmentCount).1.length < rows.length :=
  minimizePass_length_lt h

theorem C8_minimizer_pass_decreases_witness :
    (minimizePass [[['a'], ['x']], [['a'], ['y']]] 2).1.length <
      ([[['a'], ['x']], [['a'], ['y']]] : List Row).length :=
  C8_minimizer_pass_decreases [[['a'], ['x']], [['a'], ['y']]] 2 (by decide)

/-- C10: a non-string input fails the `typeof` guard before any string
operation and produces exactly the `Invalid CIDR` error — the same error any
malformed string produces. -/
theorem C10_non_string_input :
    cidrToRegex JSValue.nonString = Except.error "Invalid CIDR" ∧
    ∀ s : Str, parseCidr (.str s) = .error "Invalid CIDR" →
      cidrToRegex (.str s) = cidrToRegex JSValue.nonString := by
  constructor
  · rfl
  · intro s hs
    rw [show cidrToRegex JSValue.nonString = Except.error "Invalid CIDR" from rfl]
    simp only [cidrToRegex, hs]

theorem C10_non_string_input_witness :
    cidrToRegex (.str "bad".toList) = cidrToRegex JSValue.nonString :=
  C10_non_string_input.2 "bad".toList (by decide)

theorem parseAtom_succ (f : Nat) (s : Str) : parseAtom (f+1) s =
    match s with
    | '(' :: '?' :: '!' :: ')' :: rest => some (.fail, rest)
    | '(' :: '?' :: ':' :: rest =>
      (match parseAlts f rest with
      | none => none
      | some (r, rest2) =>
        match rest2 with
        | ')' :: rest3 => some (r, rest3)
        | _ => none)
    | '[' :: rest =>
      (match parseClassItems rest with
      | none => none
      | some (items, rest2) => some (.cls items, rest2))
    | '\\' :: c :: rest => some (.lit c, rest)
    | c :: rest => if isPlainLit c then some (.lit c, rest) else none
    | [] => none := rfl
end Cidr

namespace Cidr

theorem parseAlts_succ (f : Nat) (s : Str) : parseAlts (f+1) s =
    (match parseSeq f s with
    | none => none
    | some (r1, rest) =>
      match rest with
      | '|' :: rest2 =>
        (match parseAlts f rest2 with
        | none => none
        | some (r2, rest3) => some (.alt r1 r2, rest3))
      | _ => some (r1, rest)) := rfl

theorem parseSeq_succ (f : Nat) (s : Str) : parseSeq (f+1) s =
    (match s with
    | [] => some (.eps, [])
    | c :: _ =>
      if c = '|' ∨ c = ')' then some (.eps, s)
      else
        match parseAtom f s with
        | none => none
        | some (a, rest) =>
          match parseQuant rest a with
          | none => none
          | some (aq, rest2) =>
            match parseSeq f rest2 with
            | none => none
            | some (r2, rest3) => some (.seq aq r2, rest3)) := rfl

theorem parse_mono : ∀ (f : Nat) {f' : Nat}, f ≤ f' →
    (∀ {s r rest}, parseAlts f s = some (r, rest) → parseAlts f' s = some (r, rest)) ∧
    (∀ {s r rest}, parseSeq f s = some (r, rest) → parseSeq f' s = some (r, rest)) ∧
    (∀ {s r rest}, parseAtom f s = some (r, rest) → parseAtom f' s = some (r, rest)) := by
  intro f
  induction f with
  | zero =>
    intro f' _
    refine ⟨?_, ?_, ?_⟩ <;> intro s r rest h <;> exact Option.noConfusion h
  | succ f ih =>
    intro f' hf'
    obtain ⟨f'', rfl⟩ : ∃ f'', f' = f'' + 1 := ⟨f' - 1, by omega⟩
    have ihf := @ih f'' (by omega)
    refine ⟨?_, ?_, ?_⟩
    · intro s r rest h
      rw [parseAlts_succ] at h ⊢
      rcases hsq : parseSeq f s with _ | ⟨r1, rest1⟩
      · simp [hsq] at h
      simp only [hsq] at h
      simp only [ihf.2.1 hsq]
      split at h
      next rest2 =>
        rcases hin : parseAlts f rest2 with _ | ⟨r2, rest3⟩
        · simp [hin] at h
        simp only [hin] at h
        simp only [ihf.1 hin]
        exact h
      next hne =>
        first
        | exact h
        | (split
           · rename_i rest2 _
             exact absurd rfl (hne rest2)
           · exact h)
    · intro s r rest h
      rcases s with _ | ⟨c, s'⟩
      · exact h
      · simp only [parseSeq_succ] at h ⊢
        by_cases hstop : c = '|' ∨ c = ')'
        · rw [if_pos hstop] at h ⊢
          exact h
        · rw [if_neg hstop] at h ⊢
          rcases hat : parseAtom f (c :: s') with _ | ⟨a, rest1⟩
          · simp [hat] at h
          simp only [hat] at h
          simp only [ihf.2.2 hat]
          rcases hq : parseQuant rest1 a with _ | ⟨aq, rest2⟩
          · simp [hq] at h
          simp only [hq] at h
          rcases hsq : parseSeq f rest2 with _ | ⟨r2, rest3⟩
          · simp [hsq] at h
          simp only [hsq] at h
          simp only [ihf.2.1 hsq]
          exact h
    · intro s r rest h
      rw [parseAtom_succ] at h ⊢
      split at h
      next => exact h
      next rest0 =>
        rcases hal : parseAlts f rest0 with _ | ⟨r1, rest1⟩
        · simp [hal] at h
        simp only [hal] at h
        simp only [ihf.1 hal]
        exact h
      next rest0 =>
        rcases hci : parseClassItems rest0 with _ | ⟨items, rest1⟩
        · simp [hci] at h
        simp only [hci] at h
        exact h
      next => exact h
      next => exact h
      next => exact h

theorem parseClassItems_append : ∀ (n : Nat) (s : Str), s.length ≤ n →
    ∀ {items r} (t : Str), parseClassItems s = some (items, r) →
    parseClassItems (s ++ t) = some (items, r ++ t) := by
  intro n
  induction n with
  | zero =>
    intro s hs items r t h
    rcases s with _ | ⟨a, s1⟩
    · exact absurd h (by simp [parseClassItems])
    · simp at hs
  | succ n ih =>
    intro s hs items r t h
    rcases s with _ | ⟨a, s1⟩
    · exact absurd h (by simp [parseClassItems])
    by_cases ha : a = ']'
    · subst ha
      rw [parseClassItems.eq_1] at h
      injection h with h1
      injection h1 with h2 h3
      subst h2; subst h3
      rw [List.cons_append, parseClassItems.eq_1]
    · rcases s1 with _ | ⟨b, s2⟩
      · rw [parseClassItems.eq_3 a [] (fun he => ha he)
          (fun b r' he => List.noConfusion he)] at h
        exact absurd h (by simp [parseClassItems])
      by_cases hb : b = '-'
      · subst hb
        rcases s2 with _ | ⟨c2, s3⟩
        · rw [parseClassItems.eq_3 a ['-'] (fun he => ha he)
            (fun b r' he => by injection he with h1 h2; exact List.noConfusion h2)] at h
          rw [show parseClassItems ['-'] = none from by
            rw [parseClassItems.eq_3 '-' [] (fun he => by exact absurd he (by decide))
              (fun b r' he => List.noConfusion he)]
            simp [parseClassItems]] at h
          exact Option.noConfusion h
        by_cases hc : c2 = ']'
        · subst hc
          rw [parseClassItems.eq_2 a ']' s3 (fun he => ha he), if_pos rfl] at h
          injection h with h1
          injection h1 with h2 h3
          subst h2; subst h3
          rw [show a :: '-' :: ']' :: s3 ++ t = a :: '-' :: ']' :: (s3 ++ t) from rfl,
            parseClassItems.eq_2 a ']' (s3 ++ t) (fun he => ha he), if_pos rfl]
        · rw [parseClassItems.eq_2 a c2 s3 (fun he => ha he), if_neg hc] at h
          rcases hrec : parseClassItems s3 with _ | ⟨⟨items', r'⟩⟩
          · rw [hrec] at h; exact Option.noConfusion h
          rw [hrec] at h
          injection h with h1
          injection h1 with h2 h3
          subst h2; subst h3
          have hlen : s3.length ≤ n := by simp at hs; omega
          have hstep := ih s3 hlen t hrec
          rw [show a :: '-' :: c2 :: s3 ++ t = a :: '-' :: c2 :: (s3 ++ t) from rfl,
            parseClassItems.eq_2 a c2 (s3 ++ t) (fun he => ha he), if_neg hc, hstep]
      · rw [parseClassItems.eq_3 a (b :: s2) (fun he => ha he)
          (fun b' r' he => by injection he with h1 h2; exact hb h1)] at h
        rcases hrec : parseClassItems (b :: s2) with _ | ⟨⟨items', r'⟩⟩
        · rw [hrec] at h; exact Option.noConfusion h
        rw [hrec] at h
        injection h with h1
        injection h1 with h2 h3
        subst h2; subst h3
        have hlen : (b :: s2).length ≤ n := by simp at hs ⊢; omega
        have hstep := ih (b :: s2) hlen t hrec
        rw [show a :: b :: s2 ++ t = a :: (b :: s2 ++ t) from rfl,
          parseClassItems.eq_3 a (b :: s2 ++ t) (fun he => ha he)
            (fun b' r' he => by injection he with h1 h2; exact hb h1), hstep]

theorem quantHead_eq_false {t : Str} (h : quantHead t = false) :
    t = [] ∨ ∃ c t', t = c :: t' ∧ c ≠ '?' ∧ c ≠ '{' := by
  rcases t with _ | ⟨c, t'⟩
  · exact Or.inl rfl
  · refine Or.inr ⟨c, t', rfl, ?_, ?_⟩
    · intro hc; subst hc; simp [quantHead] at h
    · intro hc; subst hc; simp [quantHead] at h

theorem takeWhile_append_of_dropWhile_ne {p : Char → Bool} {l : Str} (t : Str)
    (h : l.dropWhile p ≠ []) : (l ++ t).takeWhile p = l.takeWhile p := by
  induction l with
  | nil => simp [List.dropWhile] at h
  | cons c l ih =>
    by_cases hc : p c
    · simp only [List.dropWhile_cons, hc, if_true] at h
      simp only [List.cons_append, List.takeWhile_cons, hc]
      rw [ih h]
    · simp [List.takeWhile_cons, hc]

theorem dropWhile_append_of_ne {p : Char → Bool} {l : Str} (t : Str)
    (h : l.dropWhile p ≠ []) : (l ++ t).dropWhile p = l.dropWhile p ++ t := by
  induction l with
  | nil => simp [List.dropWhile] at h
  | cons c l ih =>
    by_cases hc : p c
    · simp only [List.dropWhile_cons, hc, if_true] at h
      simp only [List.cons_append, List.dropWhile_cons, hc, if_true]
      exact ih h
    · simp [List.dropWhile_cons, hc]

theorem parseQuant_append {s : Str} {a aq : RE} {rest2 : Str} (t : Str)
    (h : parseQuant s a = some (aq, rest2)) (hguard : s ≠ [] ∨ quantHead t = false) :
    parseQuant (s ++ t) a = some (aq, rest2 ++ t) := by
  have hbrace : ∀ (u : Str), parseQuant ('\x7b' :: u) a =
      (if (u.takeWhile Char.isDigit).isEmpty then none
       else match u.dropWhile Char.isDigit with
       | '\x7d' :: rest3 => some (.rep a (decValue (u.takeWhile Char.isDigit))
           (decValue (u.takeWhile Char.isDigit)), rest3)
       | _ => none) := fun u => rfl
  rcases s with _ | ⟨c, s1⟩
  · simp only [parseQuant] at h
    injection h with h1
    injection h1 with h2 h3
    subst h2; subst h3
    rcases hguard with hL | hR
    · exact absurd rfl hL
    · rcases quantHead_eq_false hR with rfl | ⟨c, t', rfl, hc1, hc2⟩
      · rfl
      · simp [parseQuant, hc1, hc2]
  · simp only [parseQuant] at h
    split at h
    next rest heq =>
      injection heq with hc hs1
      subst hc; subst hs1
      injection h with h1
      injection h1 with h2 h3
      subst h2; subst h3
      rfl
    next rest heq =>
      injection heq with hc hs1
      subst hc; subst hs1
      rw [List.cons_append, hbrace]
      by_cases hds : (s1.takeWhile Char.isDigit).isEmpty
      · rw [if_pos hds] at h
        exact Option.noConfusion h
      · rw [if_neg hds] at h
        rcases hdw : s1.dropWhile Char.isDigit with _ | ⟨c3, r3⟩
        · rw [hdw] at h
          exact Option.noConfusion h
        rw [hdw] at h
        have hne : s1.dropWhile Char.isDigit ≠ [] := by rw [hdw]; simp
        rw [takeWhile_append_of_dropWhile_ne t hne, dropWhile_append_of_ne t hne, hdw,
          if_neg hds]
        split at h
        next rest3 heq3 =>
          injection heq3 with hc3 hr3
          subst hc3
          subst hr3
          injection h with h1
          injection h1 with h2 h3
          subst h2; subst h3
          rfl
        next hn =>
          exact Option.noConfusion h
    next hn1 hn2 =>
      injection h with h1
      injection h1 with h2 h3
      subst h2; subst h3
      rw [List.cons_append]
      simp only [parseQuant]
      split
      next rest heq =>
        injection heq with hc hs1
        subst hc
        exact absurd rfl (hn1 s1)
      next rest heq =>
        injection heq with hc hs1
        subst hc
        exact absurd rfl (hn2 s1)
      next => rfl

theorem parseSeq_nil {f : Nat} {r : RE} {rest : Str} (h : parseSeq f [] = some (r, rest)) :
    r = .eps ∧ rest = [] := by
  rcases f with _ | g
  · exact Option.noConfusion h
  · rw [parseSeq_succ] at h
    injection h with h1
    injection h1 with h2 h3
    exact ⟨h2.symm, h3.symm⟩

theorem parse_append : ∀ (f : Nat) (t : Str),
    (∀ {s r rest}, parseAlts f s = some (r, rest) → rest ≠ [] →
        parseAlts f (s ++ t) = some (r, rest ++ t)) ∧
    (∀ {s r rest}, parseSeq f s = some (r, rest) → rest ≠ [] →
        parseSeq f (s ++ t) = some (r, rest ++ t)) ∧
    (∀ {s r rest}, parseAtom f s = some (r, rest) →
        parseAtom f (s ++ t) = some (r, rest ++ t)) := by
  intro f
  induction f with
  | zero =>
    intro t
    refine ⟨?_, ?_, ?_⟩ <;> intro s r rest h <;> exact Option.noConfusion h
  | succ f ih =>
    intro t
    obtain ⟨ihA, ihS, ihT⟩ := ih t
    refine ⟨?_, ?_, ?_⟩
    · intro s r rest h hne
      rw [parseAlts_succ] at h ⊢
      rcases hsq : parseSeq f s with _ | ⟨r1, rest1⟩
      · simp [hsq] at h
      simp only [hsq] at h
      split at h
      next rest2 =>
        rcases hin : parseAlts f rest2 with _ | ⟨r2, rest3⟩
        · simp [hin] at h
        simp only [hin] at h
        injection h with h1
        injection h1 with h2 h3
        subst h2; subst h3
        simp only [ihS hsq (List.cons_ne_nil _ _), List.cons_append]
        simp only [ihA hin hne]
      next hne2 =>
        injection h with h1
        injection h1 with h2 h3
        subst h2; subst h3
        simp only [ihS hsq hne]
        rcases rest1 with _ | ⟨c, rest'⟩
        · exact absurd rfl hne
        have hcb : c ≠ '|' := by
          intro hc; subst hc; exact hne2 rest' rfl
        split
        next rest2 heq =>
          rw [List.cons_append] at heq
          injection heq with hc
          exact absurd hc hcb
        next => rfl
    · intro s r rest h hne
      rcases s with _ | ⟨c, s'⟩
      · obtain ⟨h1, h2⟩ := parseSeq_nil h
        exact absurd h2 hne
      · simp only [parseSeq_succ, List.cons_append] at h ⊢
        by_cases hstop : c = '|' ∨ c = ')'
        · rw [if_pos hstop] at h ⊢
          injection h with h1
          injection h1 with h2 h3
          subst h2; subst h3
          rfl
        · rw [if_neg hstop] at h ⊢
          rcases hat : parseAtom f (c :: s') with _ | ⟨a, rest1⟩
          · simp [hat] at h
          simp only [hat] at h
          have hat' := ihT hat
          rw [List.cons_append] at hat'
          simp only [hat']
          rcases hq : parseQuant rest1 a with _ | ⟨aq, rest2⟩
          · simp [hq] at h
          simp only [hq] at h
          rcases hsq : parseSeq f rest2 with _ | ⟨r2, rest3⟩
          · simp [hsq] at h
          simp only [hsq] at h
          injection h with h1
          injection h1 with h2 h3
          subst h2; subst h3
          have hr1 : rest1 ≠ [] := by
            intro he; subst he
            rw [show parseQuant [] a = some (a, []) from rfl] at hq
            injection hq with hq1
            injection hq1 with hq2 hq3
            subst hq3
            obtain ⟨_, h3⟩ := parseSeq_nil hsq
            exact hne h3
          simp only [parseQuant_append t hq (Or.inl hr1)]
          simp only [ihS hsq hne]
    · intro s r rest h
      have hgroup : ∀ u, parseAtom (f+1) ('(' :: '?' :: ':' :: u) =
          (match parseAlts f u with
           | none => none
           | some (r1, rest2) =>
             match rest2 with
             | ')' :: rest3 => some (r1, rest3)
             | _ => none) := fun u => rfl
      have hclassEq : ∀ u, parseAtom (f+1) ('[' :: u) =
          (match parseClassItems u with
           | none => none
           | some (items, rest2) => some (.cls items, rest2)) := fun u => rfl
      rw [parseAtom_succ] at h
      split at h
      next rest0 =>
        injection h with h1
        injection h1 with h2 h3
        subst h2; subst h3
        simp only [List.cons_append]
        rfl
      next rest0 =>
        rcases hal : parseAlts f rest0 with _ | ⟨r1, rest2⟩
        · simp [hal] at h
        simp only [hal] at h
        split at h
        next rest3 =>
          injection h with h1
          injection h1 with h2 h3
          subst h2; subst h3
          simp only [List.cons_append]
          rw [hgroup]
          simp only [ihA hal (by simp), List.cons_append]
        next => exact Option.noConfusion h
      next rest0 =>
        rcases hci : parseClassItems rest0 with _ | ⟨items, rest2⟩
        · simp [hci] at h
        simp only [hci] at h
        injection h with h1
        injection h1 with h2 h3
        subst h2; subst h3
        simp only [List.cons_append]
        rw [hclassEq]
        simp only [parseClassItems_append rest0.length rest0 le_rfl t hci]
      next c rest0 =>
        injection h with h1
        injection h1 with h2 h3
        subst h2; subst h3
        simp only [List.cons_append]
        rfl
      next c rest0 hn1 hn2 hn3 hn4 =>
        split at h
        next hpl =>
          injection h with h1
          injection h1 with h2 h3
          subst h2; subst h3
          have hc1 : c ≠ '(' := by
            intro hc; subst hc
            simp [isPlainLit] at hpl
          have hc3 : c ≠ '[' := by
            intro hc; subst hc
            simp [isPlainLit] at hpl
          have hc4 : c ≠ '\\' := by
            intro hc; subst hc
            simp [isPlainLit] at hpl
          simp only [List.cons_append]
          rw [parseAtom_succ]
          split
          next u heq =>
            injection heq with hc
            exact absurd hc hc1
          next u heq =>
            injection heq with hc
            exact absurd hc hc1
          next u heq =>
            injection heq with hc
            exact absurd hc hc3
          next c' u heq =>
            injection heq with hc
            exact absurd hc hc4
          next c' u _ _ _ _ heq =>
            injection heq with hc hu
            subst hc
            rw [if_pos hpl]
            rw [hu]
          next heq => exact List.noConfusion heq
        next hpl => exact Option.noConfusion h
      next => exact Option.noConfusion h

theorem parseClassItems_length : ∀ (n : Nat) (s : Str), s.length ≤ n →
    ∀ {items r}, parseClassItems s = some (items, r) → r.length < s.length := by
  intro n
  induction n with
  | zero =>
    intro s hs items r h
    rcases s with _ | ⟨a, s1⟩
    · exact absurd h (by simp [parseClassItems])
    · simp at hs
  | succ n ih =>
    intro s hs items r h
    rcases s with _ | ⟨a, s1⟩
    · exact absurd h (by simp [parseClassItems])
    by_cases ha : a = ']'
    · subst ha
      rw [parseClassItems.eq_1] at h
      injection h with h1
      injection h1 with h2 h3
      subst h3
      simp
    · rcases s1 with _ | ⟨b, s2⟩
      · rw [parseClassItems.eq_3 a [] (fun he => ha he)
          (fun b r' he => List.noConfusion he)] at h
        exact absurd h (by simp [parseClassItems])
      by_cases hb : b = '-'
      · subst hb
        rcases s2 with _ | ⟨c2, s3⟩
        · rw [parseClassItems.eq_3 a ['-'] (fun he => ha he)
            (fun b r' he => by injection he with h1 h2; exact List.noConfusion h2)] at h
          rw [show parseClassItems ['-'] = none from by
            rw [parseClassItems.eq_3 '-' [] (fun he => by exact absurd he (by decide))
              (fun b r' he => List.noConfusion he)]
            simp [parseClassItems]] at h
          exact Option.noConfusion h
        by_cases hc : c2 = ']'
        · subst hc
          rw [parseClassItems.eq_2 a ']' s3 (fun he => ha he), if_pos rfl] at h
          injection h with h1
          injection h1 with h2 h3
          subst h3
          simp
          omega
        · rw [parseClassItems.eq_2 a c2 s3 (fun he => ha he), if_neg hc] at h
          rcases hrec : parseClassItems s3 with _ | ⟨⟨items', r'⟩⟩
          · rw [hrec] at h; exact Option.noConfusion h
          rw [hrec] at h
          injection h with h1
          injection h1 with h2 h3
          subst h3
          have hlen : s3.length ≤ n := by simp at hs; omega
          have := ih s3 hlen hrec
          simp at this ⊢
          omega
      · rw [parseClassItems.eq_3 a (b :: s2) (fun he => ha he)
          (fun b' r' he => by injection he with h1 h2; exact hb h1)] at h
        rcases hrec : parseClassItems (b :: s2) with _ | ⟨⟨items', r'⟩⟩
        · rw [hrec] at h; exact Option.noConfusion h
        rw [hrec] at h
        injection h with h1
        injection h1 with h2 h3
        subst h3
        have hlen : (b :: s2).length ≤ n := by simp at hs ⊢; omega
        have := ih (b :: s2) hlen hrec
        simp at this ⊢
        omega

theorem parseQuant_length {s : Str} {a aq : RE} {rest2 : Str}
    (h : parseQuant s a = some (aq, rest2)) : rest2.length ≤ s.length := by
  rcases s with _ | ⟨c, s1⟩
  · simp only [parseQuant] at h
    injection h with h1
    injection h1 with h2 h3
    subst h3
    exact le_refl _
  · simp only [parseQuant] at h
    split at h
    next rest heq =>
      injection heq with hc hs1
      subst hs1
      injection h with h1
      injection h1 with h2 h3
      subst h3
      simp
    next rest heq =>
      injection heq with hc hs1
      subst hs1
      by_cases hds : (s1.takeWhile Char.isDigit).isEmpty
      · rw [if_pos hds] at h
        exact Option.noConfusion h
      · rw [if_neg hds] at h
        rcases hdw : s1.dropWhile Char.isDigit with _ | ⟨c3, r3⟩
        · rw [hdw] at h
          exact Option.noConfusion h
        rw [hdw] at h
        split at h
        next rest3 heq3 =>
          injection heq3 with hc3 hr3
          subst hr3
          injection h with h1
          injection h1 with h2 h3
          subst h3
          have hlen : (s1.dropWhile Char.isDigit).length ≤ s1.length :=
            (List.dropWhile_sublist Char.isDigit).length_le
          rw [hdw] at hlen
          simp at hlen ⊢
          omega
        next hn =>
          exact Option.noConfusion h
    next hn1 hn2 =>
      injection h with h1
      injection h1 with h2 h3
      subst h3
      exact le_refl _

theorem parse_len : ∀ (f : Nat),
    (∀ {s r rest}, parseAlts f s = some (r, rest) → rest.length ≤ s.length) ∧
    (∀ {s r rest}, parseSeq f s = some (r, rest) → rest.length ≤ s.length) ∧
    (∀ {s r rest}, parseAtom f s = some (r, rest) → rest.length < s.length) := by
  intro f
  induction f with
  | zero =>
    refine ⟨?_, ?_, ?_⟩ <;> intro s r rest h <;> exact Option.noConfusion h
  | succ f ih =>
    obtain ⟨ihA, ihS, ihT⟩ := ih
    refine ⟨?_, ?_, ?_⟩
    · intro s r rest h
      rw [parseAlts_succ] at h
      rcases hsq : parseSeq f s with _ | ⟨r1, rest1⟩
      · simp [hsq] at h
      simp only [hsq] at h
      split at h
      next rest2 =>
        rcases hin : parseAlts f rest2 with _ | ⟨r2, rest3⟩
        · simp [hin] at h
        simp only [hin] at h
        injection h with h1
        injection h1 with h2 h3
        subst h3
        have l1 := ihS hsq
        have l2 := ihA hin
        simp at l1
        omega
      next hne2 =>
        injection h with h1
        injection h1 with h2 h3
        subst h3
        exact ihS hsq
    · intro s r rest h
      rcases s with _ | ⟨c, s'⟩
      · obtain ⟨h1, h2⟩ := parseSeq_nil h
        subst h2
        exact le_refl _
      · simp only [parseSeq_succ] at h
        by_cases hstop : c = '|' ∨ c = ')'
        · rw [if_pos hstop] at h
          injection h with h1
          injection h1 with h2 h3
          subst h3
          exact le_refl _
        · rw [if_neg hstop] at h
          rcases hat : parseAtom f (c :: s') with _ | ⟨a, rest1⟩
          · simp [hat] at h
          simp only [hat] at h
          rcases hq : parseQuant rest1 a with _ | ⟨aq, rest2⟩
          · simp [hq] at h
          simp only [hq] at h
          rcases hsq : parseSeq f rest2 with _ | ⟨r2, rest3⟩
          · simp [hsq] at h
          simp only [hsq] at h
          injection h with h1
          injection h1 with h2 h3
          subst h3
          have l1 := ihT hat
          have l2 := parseQuant_length hq
          have l3 := ihS hsq
          omega
    · intro s r rest h
      rw [parseAtom_succ] at h
      split at h
      next rest0 =>
        injection h with h1
        injection h1 with h2 h3
        subst h3
        simp
        omega
      next rest0 =>
        rcases hal : parseAlts f rest0 with _ | ⟨r1, rest2⟩
        · simp [hal] at h
        simp only [hal] at h
        split at h
        next rest3 =>
          injection h with h1
          injection h1 with h2 h3
          subst h3
          have l1 := ihA hal
          simp at l1 ⊢
          omega
        next => exact Option.noConfusion h
      next rest0 =>
        rcases hci : parseClassItems rest0 with _ | ⟨items, rest2⟩
        · simp [hci] at h
        simp only [hci] at h
        injection h with h1
        injection h1 with h2 h3
        subst h3
        have l1 := parseClassItems_length rest0.length rest0 le_rfl hci
        simp
        omega
      next c rest0 =>
        injection h with h1
        injection h1 with h2 h3
        subst h3
        simp
        omega
      next c rest0 hn1 hn2 hn3 hn4 =>
        split at h
        next hpl =>
          injection h with h1
          injection h1 with h2 h3
          subst h3
          simp
        next hpl => exact Option.noConfusion h
      next => exact Option.noConfusion h

theorem parse_fuel : ∀ (f : Nat),
    (∀ {s r rest}, parseAlts f s = some (r, rest) →
        parseAlts (4 * (s.length - rest.length) + 4) s = some (r, rest)) ∧
    (∀ {s r rest}, parseSeq f s = some (r, rest) →
        parseSeq (4 * (s.length - rest.length) + 3) s = some (r, rest)) ∧
    (∀ {s r rest}, parseAtom f s = some (r, rest) →
        parseAtom (4 * (s.length - rest.length)) s = some (r, rest)) := by
  intro f
  induction f with
  | zero =>
    refine ⟨?_, ?_, ?_⟩ <;> intro s r rest h <;> exact Option.noConfusion h
  | succ f ih =>
    obtain ⟨ihA, ihS, ihT⟩ := ih
    refine ⟨?_, ?_, ?_⟩
    · intro s r rest h
      rw [parseAlts_succ] at h
      rcases hsq : parseSeq f s with _ | ⟨r1, rest1⟩
      · simp [hsq] at h
      simp only [hsq] at h
      split at h
      next rest2 =>
        rcases hin : parseAlts f rest2 with _ | ⟨r2, rest3⟩
        · simp [hin] at h
        simp only [hin] at h
        injection h with h1
        injection h1 with h2 h3
        subst h2; subst h3
        have l1 := (parse_len (f)).2.1 hsq
        have l2 := (parse_len (f)).1 hin
        have hs1 := ihS hsq
        have ha1 := ihA hin
        simp only [List.length_cons] at l1
        have hG : 4 * (s.length - rest3.length) + 4 =
            (4 * (s.length - rest3.length) + 3) + 1 := by omega
        rw [hG, parseAlts_succ]
        simp only [List.length_cons] at hs1
        have hs2 := (@parse_mono (4 * (s.length - (rest2.length + 1)) + 3)
          (4 * (s.length - rest3.length) + 3) (by omega)).2.1 hs1
        simp only [hs2]
        have ha2 := (@parse_mono (4 * (rest2.length - rest3.length) + 4)
          (4 * (s.length - rest3.length) + 3) (by omega)).1 ha1
        simp only [ha2]
      next hne2 =>
        injection h with h1
        injection h1 with h2 h3
        subst h2; subst h3
        have hs1 := ihS hsq
        have hG : 4 * (s.length - rest1.length) + 4 =
            (4 * (s.length - rest1.length) + 3) + 1 := by omega
        rw [hG, parseAlts_succ]
        rcases rest1 with _ | ⟨c, rest'⟩
        · simp only [hs1]
        · have hcb : c ≠ '|' := by
            intro hc; subst hc; exact hne2 rest' rfl
          simp only [hs1]
    · intro s r rest h
      rcases s with _ | ⟨c, s'⟩
      · obtain ⟨h1, h2⟩ := parseSeq_nil h
        subst h1; subst h2
        rfl
      · simp only [parseSeq_succ] at h
        by_cases hstop : c = '|' ∨ c = ')'
        · rw [if_pos hstop] at h
          injection h with h1
          injection h1 with h2 h3
          subst h2; subst h3
          have hc0 : (c :: s').length - (c :: s').length = 0 := by omega
          rw [hc0]
          rw [show 4 * 0 + 3 = 2 + 1 from rfl, parseSeq_succ]
          simp only [if_pos hstop]
        · rw [if_neg hstop] at h
          rcases hat : parseAtom f (c :: s') with _ | ⟨a, rest1⟩
          · simp [hat] at h
          simp only [hat] at h
          rcases hq : parseQuant rest1 a with _ | ⟨aq, rest2⟩
          · simp [hq] at h
          simp only [hq] at h
          rcases hsq : parseSeq f rest2 with _ | ⟨r2, rest3⟩
          · simp [hsq] at h
          simp only [hsq] at h
          injection h with h1
          injection h1 with h2 h3
          subst h2; subst h3
          have l1 := (parse_len f).2.2 hat
          have l2 := parseQuant_length hq
          have l3 := (parse_len f).2.1 hsq
          have ht1 := ihT hat
          have hs1 := ihS hsq
          have hG : 4 * ((c :: s').length - rest3.length) + 3 =
              (4 * ((c :: s').length - rest3.length) + 2) + 1 := by omega
          rw [hG, parseSeq_succ]
          simp only [if_neg hstop]
          have ht2 := (@parse_mono (4 * ((c :: s').length - rest1.length))
            (4 * ((c :: s').length - rest3.length) + 2)
            (by simp only [List.length_cons] at l1 ⊢; omega)).2.2 ht1
          simp only [ht2]
          simp only [hq]
          have hs2 := (@parse_mono (4 * (rest2.length - rest3.length) + 3)
            (4 * ((c :: s').length - rest3.length) + 2)
            (by simp only [List.length_cons] at l1 ⊢; omega)).2.1 hs1
          simp only [hs2]
    · intro s r rest h
      rw [parseAtom_succ] at h
      split at h
      next rest0 =>
        injection h with h1
        injection h1 with h2 h3
        subst h2; subst h3
        have hc : 4 * (('(' :: '?' :: '!' :: ')' :: rest0).length - rest0.length) =
            15 + 1 := by simp; omega
        rw [hc, parseAtom_succ]
        rfl
      next rest0 =>
        rcases hal : parseAlts f rest0 with _ | ⟨r1, rest2⟩
        · simp [hal] at h
        simp only [hal] at h
        split at h
        next rest3 =>
          injection h with h1
          injection h1 with h2 h3
          subst h2; subst h3
          have l1 := (parse_len f).1 hal
          simp only [List.length_cons] at l1
          have ha1 := ihA hal
          have hG : 4 * (('(' :: '?' :: ':' :: rest0).length - rest3.length) =
              (4 * (('(' :: '?' :: ':' :: rest0).length - rest3.length) - 1) + 1 := by
            simp; omega
          rw [hG, parseAtom_succ]
          simp only [List.length_cons] at ha1
          have ha2 := (@parse_mono (4 * (rest0.length - (rest3.length + 1)) + 4)
            (4 * (('(' :: '?' :: ':' :: rest0).length - rest3.length) - 1)
            (by simp only [List.length_cons]; omega)).1 ha1
          simp only [ha2]
        next => exact Option.noConfusion h
      next rest0 =>
        rcases hci : parseClassItems rest0 with _ | ⟨items, rest2⟩
        · simp [hci] at h
        simp only [hci] at h
        injection h with h1
        injection h1 with h2 h3
        subst h2; subst h3
        have l1 := parseClassItems_length rest0.length rest0 le_rfl hci
        have hG : 4 * (('[' :: rest0).length - rest2.length) =
            (4 * (('[' :: rest0).length - rest2.length) - 1) + 1 := by simp; omega
        rw [hG, parseAtom_succ]
        simp only [hci]
      next c0 rest0 =>
        injection h with h1
        injection h1 with h2 h3
        subst h2; subst h3
        have hc : 4 * (('\\' :: c0 :: rest0).length - rest0.length) = 7 + 1 := by
          simp; omega
        rw [hc, parseAtom_succ]
        rfl
      next c0 rest0 hn1 hn2 hn3 hn4 =>
        split at h
        next hpl =>
          injection h with h1
          injection h1 with h2 h3
          subst h2; subst h3
          have hc1 : c0 ≠ '(' := by
            intro hc; subst hc
            simp [isPlainLit] at hpl
          have hc3 : c0 ≠ '[' := by
            intro hc; subst hc
            simp [isPlainLit] at hpl
          have hc4 : c0 ≠ '\\' := by
            intro hc; subst hc
            simp [isPlainLit] at hpl
          have hG : 4 * ((c0 :: rest0).length - rest0.length) = 3 + 1 := by
            simp
          rw [hG, parseAtom_succ]
          split
          next u heq =>
            injection heq with hc
            exact absurd hc hc1
          next u heq =>
            injection heq with hc
            exact absurd hc hc1
          next u heq =>
            injection heq with hc
            exact absurd hc hc3
          next c' u heq =>
            injection heq with hc
            exact absurd hc hc4
          next c' u _ _ _ _ heq =>
            injection heq with hc hu
            subst hc
            rw [if_pos hpl]
            rw [hu]
          next heq => exact List.noConfusion heq
        next hpl => exact Option.noConfusion h
      next => exact Option.noConfusion h

theorem stopHead_cases {t : Str} (h : stopHead t = true) :
    t = [] ∨ ∃ c t', t = c :: t' ∧ (c = '|' ∨ c = ')') := by
  rcases t with _ | ⟨c, t'⟩
  · exact Or.inl rfl
  · by_cases h1 : c = '|'
    · exact Or.inr ⟨c, t', rfl, Or.inl h1⟩
    by_cases h2 : c = ')'
    · exact Or.inr ⟨c, t', rfl, Or.inr h2⟩
    · exfalso
      simp [stopHead, h1, h2] at h

theorem stopHead_quantHead {t : Str} (h : stopHead t = true) : quantHead t = false := by
  rcases stopHead_cases h with rfl | ⟨c, t', rfl, hc⟩
  · rfl
  · rcases hc with rfl | rfl <;> rfl

theorem parseSeq_complete_append : ∀ (f : Nat) {s : Str} {r : RE} (t : Str),
    parseSeq f s = some (r, []) → stopHead t = true →
    parseSeq f (s ++ t) = some (r, t) := by
  intro f
  induction f with
  | zero =>
    intro s r t h _
    exact Option.noConfusion h
  | succ f ih =>
    intro s r t h hstopt
    rcases s with _ | ⟨c, s'⟩
    · obtain ⟨h1, h2⟩ := parseSeq_nil h
      subst h1
      rcases stopHead_cases hstopt with rfl | ⟨c, t', rfl, hc⟩
      · rfl
      · rw [show ([] : Str) ++ c :: t' = c :: t' from rfl, parseSeq_succ]
        simp only [if_pos hc]
    · simp only [parseSeq_succ, List.cons_append] at h ⊢
      by_cases hstop : c = '|' ∨ c = ')'
      · rw [if_pos hstop] at h
        injection h with h1
        injection h1 with h2 h3
        exact absurd h3 (List.cons_ne_nil c s')
      · rw [if_neg hstop] at h ⊢
        rcases hat : parseAtom f (c :: s') with _ | ⟨a, rest1⟩
        · simp [hat] at h
        simp only [hat] at h
        have hat' := (parse_append f t).2.2 hat
        rw [List.cons_append] at hat'
        simp only [hat']
        rcases hq : parseQuant rest1 a with _ | ⟨aq, rest2⟩
        · simp [hq] at h
        simp only [hq] at h
        rcases hsq : parseSeq f rest2 with _ | ⟨r2, rest3⟩
        · simp [hsq] at h
        simp only [hsq] at h
        injection h with h1
        injection h1 with h2 h3
        subst h2; subst h3
        simp only [parseQuant_append t hq (Or.inr (stopHead_quantHead hstopt))]
        simp only [ih t hsq hstopt]

theorem parseAlts_det {f f' : Nat} {s : Str} {x y : RE × Str}
    (h : parseAlts f s = some x) (h' : parseAlts f' s = some y) : x = y := by
  rcases le_total f f' with hle | hle
  · rcases x with ⟨r, rest⟩
    have := (parse_mono f hle).1 h
    rw [this] at h'
    injection h'
  · rcases y with ⟨r, rest⟩
    have := (parse_mono f' hle).1 h'
    rw [this] at h
    injection h with h1
    exact h1.symm

theorem parseSeq_det {f f' : Nat} {s : Str} {x y : RE × Str}
    (h : parseSeq f s = some x) (h' : parseSeq f' s = some y) : x = y := by
  rcases le_total f f' with hle | hle
  · rcases x with ⟨r, rest⟩
    have := (parse_mono f hle).2.1 h
    rw [this] at h'
    injection h'
  · rcases y with ⟨r, rest⟩
    have := (parse_mono f' hle).2.1 h'
    rw [this] at h
    injection h with h1
    exact h1.symm

theorem mem_lang_seq {a b : RE} {w : Str} :
    w ∈ lang (.seq a b) ↔ ∃ w1 ∈ lang a, ∃ w2 ∈ lang b, w = w1 ++ w2 := by
  simp only [lang, List.mem_flatMap, List.mem_map]
  constructor
  · rintro ⟨w1, hw1, w2, hw2, rfl⟩
    exact ⟨w1, hw1, w2, hw2, rfl⟩
  · rintro ⟨w1, hw1, w2, hw2, rfl⟩
    exact ⟨w1, hw1, w2, hw2, rfl⟩

theorem mem_lang_alt {a b : RE} {w : Str} :
    w ∈ lang (.alt a b) ↔ w ∈ lang a ∨ w ∈ lang b := by
  simp [lang]

theorem parseSeq_concat : ∀ (f : Nat) {g : Nat} {s u : Str} {r1 r2 : RE} {rest : Str},
    parseSeq f s = some (r1, []) → parseSeq g u = some (r2, rest) →
    quantHead u = false →
    ∃ R, parseSeq (f + g) (s ++ u) = some (R, rest) ∧
      (REok r1 = true → REok r2 = true → REok R = true) ∧
      ∀ w, w ∈ lang R ↔ ∃ w1 ∈ lang r1, ∃ w2 ∈ lang r2, w = w1 ++ w2 := by
  intro f
  induction f with
  | zero =>
    intro g s u r1 r2 rest h hg hu
    exact Option.noConfusion h
  | succ f ih =>
    intro g s u r1 r2 rest h hg hu
    rcases s with _ | ⟨c, s'⟩
    · obtain ⟨h1, h2⟩ := parseSeq_nil h
      subst h1
      refine ⟨r2, ?_, fun _ h2 => h2, ?_⟩
      · rw [show ([] : Str) ++ u = u from rfl]
        exact (parse_mono g (by omega)).2.1 hg
      · intro w
        simp [lang]
    · simp only [parseSeq_succ] at h
      by_cases hstop : c = '|' ∨ c = ')'
      · rw [if_pos hstop] at h
        injection h with h1
        injection h1 with h2 h3
        exact absurd h3 (List.cons_ne_nil c s')
      · rw [if_neg hstop] at h
        rcases hat : parseAtom f (c :: s') with _ | ⟨a, rest1⟩
        · simp [hat] at h
        simp only [hat] at h
        rcases hq : parseQuant rest1 a with _ | ⟨aq, rest2⟩
        · simp [hq] at h
        simp only [hq] at h
        rcases hsq : parseSeq f rest2 with _ | ⟨r2', rest3⟩
        · simp [hsq] at h
        simp only [hsq] at h
        injection h with h1
        injection h1 with h2 h3
        subst h2; subst h3
        obtain ⟨R', hR'eq, hR'ok, hR'⟩ := ih hsq hg hu
        have hat' := (parse_append f u).2.2 hat
        rw [List.cons_append] at hat'
        have hat2 := (@parse_mono f (f + g) (by omega)).2.2 hat'
        have hq2 := parseQuant_append u hq (Or.inr hu)
        refine ⟨.seq aq R', ?_, ?_, ?_⟩
        · rw [show f + 1 + g = (f + g) + 1 from by omega, List.cons_append, parseSeq_succ]
          simp only [if_neg hstop, hat2, hq2, hR'eq]
        · intro h1ok h2ok
          simp only [REok, Bool.and_eq_true] at h1ok ⊢
          exact ⟨h1ok.1, hR'ok h1ok.2 h2ok⟩
        · intro w
          rw [mem_lang_seq]
          constructor
          · rintro ⟨wa, hwa, w', hw', rfl⟩
            rw [hR' w'] at hw'
            obtain ⟨w2', hw2', w2, hw2, rfl⟩ := hw'
            exact ⟨wa ++ w2', mem_lang_seq.mpr ⟨wa, hwa, w2', hw2', rfl⟩, w2, hw2,
              by rw [List.append_assoc]⟩
          · rintro ⟨w1, hw1, w2, hw2, rfl⟩
            rw [mem_lang_seq] at hw1
            obtain ⟨wa, hwa, w2', hw2', rfl⟩ := hw1
            exact ⟨wa, hwa, w2' ++ w2, (hR' _).mpr ⟨w2', hw2', w2, hw2, rfl⟩,
              by rw [List.append_assoc]⟩

theorem rparenHead_stopHead {t : Str} (h : rparenHead t = true) : stopHead t = true := by
  rcases t with _ | ⟨c, t'⟩
  · rfl
  · by_cases hc : c = ')'
    · subst hc; rfl
    · exfalso
      simp [rparenHead, hc] at h

theorem rparenHead_cases {t : Str} (h : rparenHead t = true) :
    t = [] ∨ ∃ t', t = ')' :: t' := by
  rcases t with _ | ⟨c, t'⟩
  · exact Or.inl rfl
  · by_cases hc : c = ')'
    · subst hc; exact Or.inr ⟨t', rfl⟩
    · exfalso
      simp [rparenHead, hc] at h

theorem parseAlts_chain : ∀ (prs : List (Str × RE)), prs ≠ [] →
    (∀ pr ∈ prs, ∃ f, parseSeq f pr.1 = some (pr.2, [])) →
    ∀ (t : Str), rparenHead t = true →
    ∃ F R, parseAlts F (intercalateStr ['|'] (prs.map Prod.fst) ++ t) = some (R, t) ∧
      ((∀ pr ∈ prs, REok pr.2 = true) → REok R = true) ∧
      ∀ w, w ∈ lang R ↔ ∃ pr ∈ prs, w ∈ lang pr.2 := by
  intro prs
  induction prs with
  | nil => intro h; exact absurd rfl h
  | cons pr prs' ih =>
    intro _ hall t hrp
    obtain ⟨p, r⟩ := pr
    obtain ⟨f, hf⟩ := hall (p, r) (List.mem_cons_self _ _)
    rcases prs' with _ | ⟨q, prs''⟩
    · refine ⟨f + 1, r, ?_, fun hok => hok (p, r) (List.mem_singleton.mpr rfl), ?_⟩
      · rw [show ([(p, r)].map Prod.fst) = [p] from rfl,
          show intercalateStr ['|'] [p] = p from rfl]
        have hs := parseSeq_complete_append f t hf (rparenHead_stopHead hrp)
        rw [parseAlts_succ]
        simp only [hs]
        rcases rparenHead_cases hrp with rfl | ⟨t', rfl⟩
        · rfl
        · split
          next rest2 heq =>
            injection heq with hc
            exact absurd hc (by decide)
          next => rfl
      · intro w
        constructor
        · intro hw
          exact ⟨(p, r), List.mem_singleton.mpr rfl, hw⟩
        · rintro ⟨pr2, hpr2, hw⟩
          obtain rfl := List.mem_singleton.mp hpr2
          exact hw
    · have hall' : ∀ pr ∈ q :: prs'', ∃ f, parseSeq f pr.1 = some (pr.2, []) :=
        fun pr hpr => hall pr (List.mem_cons_of_mem _ hpr)
      obtain ⟨F', R', hR'eq, hR'ok, hR'⟩ := ih (List.cons_ne_nil _ _) hall' t hrp
      refine ⟨max f F' + 1, .alt r R', ?_, ?_, ?_⟩
      · have hshape : intercalateStr ['|'] (((p, r) :: q :: prs'').map Prod.fst) ++ t =
            p ++ ('|' :: (intercalateStr ['|'] ((q :: prs'').map Prod.fst) ++ t)) := by
          simp only [List.map_cons, intercalateStr, List.append_assoc, List.cons_append,
            List.nil_append]
        rw [hshape]
        have hs := parseSeq_complete_append f
          ('|' :: (intercalateStr ['|'] ((q :: prs'').map Prod.fst) ++ t)) hf rfl
        have hs2 := (@parse_mono f (max f F') (le_max_left _ _)).2.1 hs
        rw [parseAlts_succ]
        simp only [hs2]
        have hR2 := (@parse_mono F' (max f F') (le_max_right _ _)).1 hR'eq
        simp only [hR2]
      · intro hok
        simp only [REok, Bool.and_eq_true]
        refine ⟨hok (p, r) (List.mem_cons_self _ _), hR'ok ?_⟩
        intro pr hpr
        exact hok pr (List.mem_cons_of_mem _ hpr)
      · intro w
        rw [mem_lang_alt]
        constructor
        · rintro (hw | hw)
          · exact ⟨(p, r), List.mem_cons_self _ _, hw⟩
          · obtain ⟨pr2, hpr2, hw2⟩ := (hR' w).mp hw
            exact ⟨pr2, List.mem_cons_of_mem _ hpr2, hw2⟩
        · rintro ⟨pr2, hpr2, hw2⟩
          rcases List.mem_cons.mp hpr2 with rfl | hpr2'
          · exact Or.inl hw2
          · exact Or.inr ((hR' w).mpr ⟨pr2, hpr2', hw2⟩)

theorem dedupFirstAux_mem {α : Type} [DecidableEq α] :
    ∀ (l seen : List α) (x : α), x ∈ dedupFirstAux l seen ↔ x ∈ l ∧ x ∉ seen := by
  intro l
  induction l with
  | nil => simp [dedupFirstAux]
  | cons p rest ih =>
    intro seen x
    simp only [dedupFirstAux]
    by_cases hp : p ∈ seen
    · rw [if_pos hp, ih]
      simp only [List.mem_cons]
      constructor
      · rintro ⟨h1, h2⟩
        exact ⟨Or.inr h1, h2⟩
      · rintro ⟨h1 | h1, h2⟩
        · subst h1; exact absurd hp h2
        · exact ⟨h1, h2⟩
    · rw [if_neg hp]
      simp only [List.mem_cons, ih, List.mem_cons]
      constructor
      · rintro (rfl | ⟨h1, h2⟩)
        · exact ⟨Or.inl rfl, hp⟩
        · refine ⟨Or.inr h1, fun hx => h2 (Or.inr hx)⟩
      · rintro ⟨rfl | h1, h2⟩
        · exact Or.inl rfl
        · by_cases hxp : x = p
          · exact Or.inl hxp
          · exact Or.inr ⟨h1, fun hx => hx.elim hxp h2⟩

theorem uniquePatterns_mem (ps : List Str) (x : Str) :
    x ∈ uniquePatterns ps ↔ x ∈ ps := by
  unfold uniquePatterns dedupFirst
  rw [dedupFirstAux_mem]
  simp

theorem parseFull_of_seq {p : Str} {r : RE} {f : Nat} (h : parseSeq f p = some (r, [])) :
    parseFull p = some r := by
  have hA : parseAlts (f + 1) p = some (r, []) := by
    rw [parseAlts_succ]
    simp only [h]
  have hA2 := (parse_fuel (f + 1)).1 hA
  simp only [List.length_nil, Nat.sub_zero] at hA2
  unfold parseFull
  simp only [hA2]

theorem parseFull_of_alts {p : Str} {r : RE} {F : Nat} (h : parseAlts F p = some (r, [])) :
    parseFull p = some r := by
  have hA2 := (parse_fuel F).1 h
  simp only [List.length_nil, Nat.sub_zero] at hA2
  unfold parseFull
  simp only [hA2]

theorem mem_lang_seq_eps {a : RE} {w : Str} : w ∈ lang (.seq a .eps) ↔ w ∈ lang a := by
  rw [mem_lang_seq]
  constructor
  · rintro ⟨w1, hw1, w2, hw2, rfl⟩
    simp only [lang, List.mem_singleton] at hw2
    subst hw2
    rw [List.append_nil]
    exact hw1
  · intro hw
    exact ⟨w, hw, [], List.mem_singleton.mpr rfl, (List.append_nil w).symm⟩

theorem exists_prs (ps : List Str) (hall : ∀ p ∈ ps, SegOk p) :
    ∃ prs : List (Str × RE), prs.map Prod.fst = ps ∧
      ∀ pr ∈ prs, (∃ f, parseSeq f pr.1 = some (pr.2, [])) ∧ REok pr.2 = true := by
  induction ps with
  | nil => exact ⟨[], rfl, by simp⟩
  | cons p rest ih =>
    obtain ⟨f, r, hf, hok⟩ := hall p (List.mem_cons_self _ _)
    obtain ⟨prs', hmap, hprs'⟩ := ih (fun q hq => hall q (List.mem_cons_of_mem _ hq))
    refine ⟨(p, r) :: prs', by simp [hmap], ?_⟩
    intro pr hpr
    rcases List.mem_cons.mp hpr with rfl | hpr'
    · exact ⟨⟨f, hf⟩, hok⟩
    · exact hprs' pr hpr'

theorem group_seq_full {X : Str} {F : Nat} {R : RE}
    (h : parseAlts F (X ++ [')']) = some (R, [')'])) :
    parseSeq (F + 2) ('(' :: '?' :: ':' :: (X ++ [')'])) = some (.seq R .eps, []) := by
  have hg : ∀ u, parseAtom (F + 1) ('(' :: '?' :: ':' :: u) =
      (match parseAlts F u with
       | none => none
       | some (r1, rest2) =>
         match rest2 with
         | ')' :: rest3 => some (r1, rest3)
         | _ => none) := fun u => rfl
  have hatom : parseAtom (F + 1) ('(' :: '?' :: ':' :: (X ++ [')'])) = some (R, []) := by
    rw [hg]
    simp only [h]
  rw [show F + 2 = (F + 1) + 1 from rfl, parseSeq_succ]
  simp only [if_neg (show ¬('(' = '|' ∨ '(' = ')') by decide)]
  simp only [hatom]
  simp only [show parseQuant [] R = some (R, []) from rfl]
  simp only [show parseSeq (F + 1) [] = some (.eps, []) from by rw [parseSeq_succ]]

theorem orPattern_full (ps : List Str) (hall : ∀ p ∈ ps, SegOk p) :
    ∃ fF R, parseSeq fF (orPattern ps) = some (R, []) ∧ REok R = true ∧
      ∀ w, w ∈ lang R ↔
        ∃ p ∈ ps, ∃ f r, parseSeq f p = some (r, []) ∧ REok r = true ∧ w ∈ lang r := by
  by_cases hemp : (uniquePatterns ps).isEmpty
  · have hps : ps = [] := by
      rcases hps : ps with _ | ⟨p, rest⟩
      · rfl
      · exfalso
        have : p ∈ uniquePatterns ps := (uniquePatterns_mem ps p).mpr (by rw [hps]; simp)
        rw [List.isEmpty_iff] at hemp
        rw [hemp] at this
        exact List.not_mem_nil p this
    subst hps
    refine ⟨20, .seq .fail .eps, ?_, by decide, ?_⟩
    · rw [show orPattern [] = "(?!)".toList from rfl]
      decide
    · intro w
      simp [lang]
  · by_cases hone : (uniquePatterns ps).length = 1
    · obtain ⟨q, hq⟩ := List.length_eq_one.mp hone
      have hqmem : q ∈ ps := (uniquePatterns_mem ps q).mp (by rw [hq]; simp)
      obtain ⟨f, r, hf, hok⟩ := hall q hqmem
      have hor : orPattern ps = q := by
        unfold orPattern
        rw [if_neg (by rw [hq]; simp), if_pos (by rw [hq]; rfl), hq]
        rfl
      refine ⟨f, r, ?_, hok, ?_⟩
      · rw [hor]
        exact hf
      · intro w
        constructor
        · intro hw
          exact ⟨q, hqmem, f, r, hf, hok, hw⟩
        · rintro ⟨p, hp, f', r', hf', hok', hw'⟩
          have hpq : p = q := by
            have := (uniquePatterns_mem ps p).mpr hp
            rw [hq] at this
            exact List.mem_singleton.mp this
          subst hpq
          have := parseSeq_det hf' hf
          injection this with h1 h2
          subst h1
          exact hw'
    · have hune : uniquePatterns ps ≠ [] := by
        intro he
        rw [he] at hemp
        exact hemp rfl
      obtain ⟨prs, hmap, hprs⟩ := exists_prs (uniquePatterns ps)
        (fun p hp => hall p ((uniquePatterns_mem ps p).mp hp))
      have hprsne : prs ≠ [] := by
        intro he
        rw [he] at hmap
        exact hune hmap.symm
      obtain ⟨F, R0, hchain, hchok, hchlang⟩ := parseAlts_chain prs hprsne
        (fun pr hpr => (hprs pr hpr).1) [')'] rfl
      rw [hmap] at hchain
      have hseq := group_seq_full hchain
      have hor : orPattern ps =
          '(' :: '?' :: ':' :: (intercalateStr ['|'] (uniquePatterns ps) ++ [')']) := by
        unfold orPattern
        rw [if_neg hemp, if_neg hone]
        simp
      refine ⟨F + 2, .seq R0 .eps, ?_, ?_, ?_⟩
      · rw [hor]
        exact hseq
      · simp only [REok, Bool.and_eq_true]
        exact ⟨hchok (fun pr hpr => (hprs pr hpr).2), trivial⟩
      · intro w
        rw [mem_lang_seq_eps, hchlang]
        constructor
        · rintro ⟨pr, hpr, hw⟩
          obtain ⟨⟨f, hf⟩, hok⟩ := hprs pr hpr
          refine ⟨pr.1, ?_, f, pr.2, hf, hok, hw⟩
          have : pr.1 ∈ uniquePatterns ps := by
            rw [← hmap]
            exact List.mem_map_of_mem Prod.fst hpr
          exact (uniquePatterns_mem ps pr.1).mp this
        · rintro ⟨p, hp, f', r', hf', hok', hw'⟩
          have hpu : p ∈ uniquePatterns ps := (uniquePatterns_mem ps p).mpr hp
          rw [← hmap] at hpu
          obtain ⟨pr, hpr, hpr1⟩ := List.mem_map.mp hpu
          obtain ⟨⟨f, hf⟩, hok⟩ := hprs pr hpr
          refine ⟨pr, hpr, ?_⟩
          rw [hpr1] at hf
          have := parseSeq_det hf' hf
          injection this with h1 h2
          subst h1
          exact hw'

theorem quantHead_cons (c : Char) (x y : Str) : quantHead (c :: x) = quantHead (c :: y) := by
  by_cases h1 : c = '?'
  · subst h1; rfl
  · by_cases h2 : c = '{'
    · subst h2; rfl
    · simp [quantHead, h1, h2]

theorem quantHead_append_left {a : Str} (b : Str) (ha : a ≠ []) :
    quantHead (a ++ b) = quantHead a := by
  rcases a with _ | ⟨c, a'⟩
  · exact absurd rfl ha
  · exact quantHead_cons c (a' ++ b) a'

theorem quantHead_intercalate {sep : Str} (hsepq : quantHead sep = false) :
    ∀ (row : List Str), (∀ g ∈ row, quantHead g = false ∧ g ≠ []) →
    quantHead (intercalateStr sep row) = false := by
  intro row
  induction row with
  | nil => intro _; rfl
  | cons g rest ih =>
    intro hall
    obtain ⟨hg, hgne⟩ := hall g (List.mem_cons_self _ _)
    rcases rest with _ | ⟨g2, rest'⟩
    · exact hg
    · rw [show intercalateStr sep (g :: g2 :: rest') =
        g ++ (sep ++ intercalateStr sep (g2 :: rest')) from by
          simp [intercalateStr]]
      rw [quantHead_append_left _ hgne]
      exact hg

theorem row_full (sep : Str) (hsq : SegOk sep) (hsepq : quantHead sep = false)
    (hsepne : sep ≠ []) :
    ∀ (row : List Str), row ≠ [] →
    (∀ g ∈ row, SegOk g ∧ quantHead g = false ∧ g ≠ []) →
    ∃ f R, parseSeq f (intercalateStr sep row) = some (R, []) ∧ REok R = true ∧
      ∀ w, w ∈ lang R ↔ rowMatch sep row w := by
  intro row
  induction row with
  | nil => intro h; exact absurd rfl h
  | cons g rest ih =>
    intro _ hall
    obtain ⟨⟨f, r, hf, hok⟩, hgq, hgne⟩ := hall g (List.mem_cons_self _ _)
    rcases rest with _ | ⟨g2, rest'⟩
    · refine ⟨f, r, hf, hok, ?_⟩
      intro w
      constructor
      · intro hw
        exact ⟨f, r, hf, hw⟩
      · rintro ⟨f', r', hf', hw'⟩
        have := parseSeq_det hf' hf
        injection this with h1 h2
        subst h1
        exact hw'
    · obtain ⟨f2, R2, h2, h2ok, h2lang⟩ := ih (List.cons_ne_nil _ _)
        (fun q hq => hall q (List.mem_cons_of_mem _ hq))
      obtain ⟨fs, rs, hfs, hsok⟩ := hsq
      have hjq : quantHead (intercalateStr sep (g2 :: rest')) = false :=
        quantHead_intercalate hsepq (g2 :: rest')
          (fun q hq => ⟨(hall q (List.mem_cons_of_mem _ hq)).2.1,
            (hall q (List.mem_cons_of_mem _ hq)).2.2⟩)
      obtain ⟨Rm, hm, hmok, hmlang⟩ := parseSeq_concat fs hfs h2 hjq
      obtain ⟨R, hR, hRok, hRlang⟩ := parseSeq_concat f hf hm
        (by rw [quantHead_append_left _ hsepne]; exact hsepq)
      refine ⟨f + (fs + f2), R, ?_, ?_, ?_⟩
      · rw [show intercalateStr sep (g :: g2 :: rest') =
          g ++ (sep ++ intercalateStr sep (g2 :: rest')) from by
            simp [intercalateStr]]
        exact hR
      · exact hRok hok (hmok hsok h2ok)
      · intro w
        rw [hRlang]
        constructor
        · rintro ⟨w1, hw1, wm, hwm, rfl⟩
          rw [hmlang] at hwm
          obtain ⟨ws, hws, w2, hw2, rfl⟩ := hwm
          refine ⟨w1, ws, w2, by rw [List.append_assoc], ⟨f, r, hf, hw1⟩,
            ⟨fs, rs, hfs, hws⟩, (h2lang w2).mp hw2⟩
        · rintro ⟨w1, ws, w2, rfl, ⟨f', r', hf', hw1⟩, ⟨fs', rs', hfs', hws⟩, hrm⟩
          have e1 := parseSeq_det hf' hf
          injection e1 with e1a e1b
          subst e1a
          have e2 := parseSeq_det hfs' hfs
          injection e2 with e2a e2b
          subst e2a
          exact ⟨w1, hw1, ws ++ w2, (hmlang _).mpr ⟨ws, hws, w2, (h2lang w2).mpr hrm, rfl⟩,
            by rw [List.append_assoc]⟩

theorem row_eq_template {r t : Row} {i : Nat} (hi : i < r.length)
    (h : r.set i nulStr = t.set i nulStr) : t.set i (r.getD i []) = r := by
  have hlen : r.length = t.length := by
    have := congrArg List.length h
    simpa using this
  apply List.ext_getElem
  · simp [hlen]
  · intro j hj hj'
    by_cases hji : j = i
    · subst hji
      rw [List.getElem_set_self]
      rw [List.getD_eq_getElem r [] hj']
    · rw [List.getElem_set_ne (fun he => hji he.symm)]
      have hjr : j < (r.set i nulStr).length := by rw [List.length_set]; exact hj'
      have hsame := List.getElem_of_eq h hjr
      rw [List.getElem_set_ne (fun he => hji he.symm),
        List.getElem_set_ne (fun he => hji he.symm)] at hsame
      exact hsame.symm

theorem insertGroup_sub (key row : Row) (i : Nat) : ∀ (gs : List GroupEntry),
    ∀ g' ∈ insertGroup key row i gs,
    (g' ∈ gs) ∨
    (g'.key = key ∧ g'.template = row ∧ g'.variants = [row.getD i []]) ∨
    (∃ g ∈ gs, g'.key = g.key ∧ g'.template = g.template ∧
      g'.variants = g.variants ++ [row.getD i []] ∧ g.key = key) := by
  intro gs
  induction gs with
  | nil =>
    intro g' hg'
    simp only [insertGroup, List.mem_singleton] at hg'
    subst hg'
    exact Or.inr (Or.inl ⟨rfl, rfl, rfl⟩)
  | cons g gs ih =>
    intro g' hg'
    simp only [insertGroup] at hg'
    by_cases hk : g.key = key
    · rw [if_pos hk] at hg'
      rcases List.mem_cons.mp hg' with rfl | hg'2
      · exact Or.inr (Or.inr ⟨g, List.mem_cons_self _ _, rfl, rfl, rfl, hk⟩)
      · exact Or.inl (List.mem_cons_of_mem _ hg'2)
    · rw [if_neg hk] at hg'
      rcases List.mem_cons.mp hg' with rfl | hg'2
      · exact Or.inl (List.mem_cons_self _ _)
      · rcases ih g' hg'2 with h | h | ⟨g2, hg2, h⟩
        · exact Or.inl (List.mem_cons_of_mem _ h)
        · exact Or.inr (Or.inl h)
        · exact Or.inr (Or.inr ⟨g2, List.mem_cons_of_mem _ hg2, h⟩)

theorem insertGroup_super (key row : Row) (i : Nat) : ∀ (gs : List GroupEntry),
    ∀ g ∈ gs, ∃ g' ∈ insertGroup key row i gs,
    g'.key = g.key ∧ g'.template = g.template ∧ ∀ v ∈ g.variants, v ∈ g'.variants := by
  intro gs
  induction gs with
  | nil =>
    intro g hg
    exact absurd hg (List.not_mem_nil g)
  | cons g0 gs ih =>
    intro g hg
    simp only [insertGroup]
    by_cases hk : g0.key = key
    · rw [if_pos hk]
      rcases List.mem_cons.mp hg with rfl | hg2
      · refine ⟨⟨g.key, g.template, g.variants ++ [row.getD i []]⟩,
          List.mem_cons_self _ _, rfl, rfl, ?_⟩
        intro v hv
        exact List.mem_append_left _ hv
      · exact ⟨g, List.mem_cons_of_mem _ hg2, rfl, rfl, fun v hv => hv⟩
    · rw [if_neg hk]
      rcases List.mem_cons.mp hg with rfl | hg2
      · exact ⟨g, List.mem_cons_self _ _, rfl, rfl, fun v hv => hv⟩
      · obtain ⟨g', hg', h1, h2, h3⟩ := ih g hg2
        exact ⟨g', List.mem_cons_of_mem _ hg', h1, h2, h3⟩

theorem insertGroup_new (key row : Row) (i : Nat) : ∀ (gs : List GroupEntry),
    ∃ g' ∈ insertGroup key row i gs, g'.key = key ∧ row.getD i [] ∈ g'.variants := by
  intro gs
  induction gs with
  | nil =>
    exact ⟨⟨key, row, [row.getD i []]⟩, List.mem_singleton.mpr rfl, rfl,
      List.mem_singleton.mpr rfl⟩
  | cons g0 gs ih =>
    simp only [insertGroup]
    by_cases hk : g0.key = key
    · rw [if_pos hk]
      exact ⟨⟨g0.key, g0.template, g0.variants ++ [row.getD i []]⟩,
        List.mem_cons_self _ _, hk, List.mem_append_right _ (List.mem_singleton.mpr rfl)⟩
    · rw [if_neg hk]
      obtain ⟨g', hg', h1, h2⟩ := ih
      exact ⟨g', List.mem_cons_of_mem _ hg', h1, h2⟩

theorem groupRows_inv (i : Nat) : ∀ (pending processed : List Row) (gs : List GroupEntry),
    (∀ g ∈ gs, (g.key = g.template.set i nulStr ∧ g.template ∈ processed) ∧
      ∀ v ∈ g.variants, ∃ r ∈ processed, r.set i nulStr = g.key ∧ r.getD i [] = v) →
    (∀ r ∈ processed, ∃ g ∈ gs, r.set i nulStr = g.key ∧ r.getD i [] ∈ g.variants) →
    (∀ g ∈ List.foldl (fun gs row => insertGroup (row.set i nulStr) row i gs) gs pending,
        (g.key = g.template.set i nulStr ∧ g.template ∈ processed ++ pending) ∧
        ∀ v ∈ g.variants, ∃ r ∈ processed ++ pending,
          r.set i nulStr = g.key ∧ r.getD i [] = v) ∧
    (∀ r ∈ processed ++ pending,
        ∃ g ∈ List.foldl (fun gs row => insertGroup (row.set i nulStr) row i gs) gs pending,
        r.set i nulStr = g.key ∧ r.getD i [] ∈ g.variants) := by
  intro pending
  induction pending with
  | nil =>
    intro processed gs h1 h2
    simp only [List.foldl_nil, List.append_nil]
    exact ⟨h1, h2⟩
  | cons row pending ih =>
    intro processed gs h1 h2
    simp only [List.foldl_cons]
    have h1' : ∀ g ∈ insertGroup (row.set i nulStr) row i gs,
        (g.key = g.template.set i nulStr ∧ g.template ∈ processed ++ [row]) ∧
        ∀ v ∈ g.variants, ∃ r ∈ processed ++ [row],
          r.set i nulStr = g.key ∧ r.getD i [] = v := by
      intro g hg
      rcases insertGroup_sub _ _ _ gs g hg with hmem | ⟨hk, ht, hv⟩ | ⟨g2, hg2, hk, ht, hv, hk2⟩
      · obtain ⟨⟨ha, ha2⟩, hb⟩ := h1 g hmem
        refine ⟨⟨ha, List.mem_append_left _ ha2⟩, ?_⟩
        intro v hv
        obtain ⟨r, hr, hr1, hr2⟩ := hb v hv
        exact ⟨r, List.mem_append_left _ hr, hr1, hr2⟩
      · refine ⟨⟨by rw [hk, ht], by
          rw [ht]; exact List.mem_append_right _ (List.mem_singleton.mpr rfl)⟩, ?_⟩
        intro v hvv
        rw [hv] at hvv
        obtain rfl := List.mem_singleton.mp hvv
        exact ⟨row, List.mem_append_right _ (List.mem_singleton.mpr rfl), hk.symm, rfl⟩
      · obtain ⟨⟨ha, ha2⟩, hb⟩ := h1 g2 hg2
        refine ⟨⟨by rw [hk, ht, ← ha], by rw [ht]; exact List.mem_append_left _ ha2⟩, ?_⟩
        intro v hvv
        rw [hv] at hvv
        rcases List.mem_append.mp hvv with hvv2 | hvv2
        · obtain ⟨r, hr, hr1, hr2⟩ := hb v hvv2
          exact ⟨r, List.mem_append_left _ hr, by rw [hk]; exact hr1, hr2⟩
        · obtain rfl := List.mem_singleton.mp hvv2
          exact ⟨row, List.mem_append_right _ (List.mem_singleton.mpr rfl),
            by rw [hk, hk2], rfl⟩
    have h2' : ∀ r ∈ processed ++ [row],
        ∃ g ∈ insertGroup (row.set i nulStr) row i gs,
        r.set i nulStr = g.key ∧ r.getD i [] ∈ g.variants := by
      intro r hr
      rcases List.mem_append.mp hr with hr2 | hr2
      · obtain ⟨g, hg, hg1, hg2⟩ := h2 r hr2
        obtain ⟨g', hg', he1, he2, he3⟩ := insertGroup_super (row.set i nulStr) row i gs g hg
        exact ⟨g', hg', by rw [he1]; exact hg1, he3 _ hg2⟩
      · obtain rfl := List.mem_singleton.mp hr2
        obtain ⟨g', hg', he1, he2⟩ := insertGroup_new (r.set i nulStr) r i gs
        exact ⟨g', hg', he1.symm, he2⟩
    obtain ⟨c1, c2⟩ := ih (processed ++ [row]) _ h1' h2'
    constructor
    · intro g hg
      obtain ⟨⟨ha, ha2⟩, hb⟩ := c1 g hg
      refine ⟨⟨ha, by
        simp only [List.append_assoc, List.singleton_append] at ha2 ⊢
        exact ha2⟩, ?_⟩
      intro v hv
      obtain ⟨r, hr, hr1, hr2⟩ := hb v hv
      refine ⟨r, ?_, hr1, hr2⟩
      simp only [List.append_assoc, List.singleton_append] at hr ⊢
      exact hr
    · intro r hr
      apply c2
      simp only [List.append_assoc, List.singleton_append] at hr ⊢
      exact hr

theorem groupRows_spec (rows : List Row) (i : Nat) (hlen : ∀ r ∈ rows, i < r.length) :
    (∀ g ∈ groupRows rows i, ∀ v ∈ g.variants,
        ∃ r ∈ rows, g.template.set i v = r) ∧
    (∀ r ∈ rows, ∃ g ∈ groupRows rows i,
        g.template.set i (r.getD i []) = r ∧ r.getD i [] ∈ g.variants) ∧
    (∀ g ∈ groupRows rows i, g.template ∈ rows) := by
  obtain ⟨c1, c2⟩ := groupRows_inv i rows [] [] (by simp) (by simp)
  simp only [List.nil_append] at c1 c2
  refine ⟨?_, ?_, ?_⟩
  · intro g hg v hv
    obtain ⟨⟨ha, _⟩, hb⟩ := c1 g hg
    obtain ⟨r, hr, hr1, hr2⟩ := hb v hv
    refine ⟨r, hr, ?_⟩
    subst hr2
    exact row_eq_template (hlen r hr) (by rw [hr1, ha])
  · intro r hr
    obtain ⟨g, hg, hg1, hg2⟩ := c2 r hr
    obtain ⟨⟨ha, _⟩, _⟩ := c1 g hg
    refine ⟨g, hg, ?_, hg2⟩
    exact row_eq_template (hlen r hr) (by rw [hg1, ha])
  · intro g hg
    exact ((c1 g hg).1).2

theorem segL_or (vs : List Str) (hall : ∀ v ∈ vs, SegOk v) (w : Str) :
    segL (orPattern vs) w ↔ ∃ v ∈ vs, segL v w := by
  obtain ⟨fF, R, hF, hRok, hlang⟩ := orPattern_full vs hall
  constructor
  · rintro ⟨f', r', h', hw⟩
    have hd := parseSeq_det h' hF
    injection hd with hd1 hd2
    subst hd1
    obtain ⟨p, hp, f, r, hparse, hok, hwl⟩ := (hlang w).mp hw
    exact ⟨p, hp, f, r, hparse, hwl⟩
  · rintro ⟨v, hv, f', r', h', hw⟩
    refine ⟨fF, R, hF, ?_⟩
    rw [hlang]
    obtain ⟨f2, r2, h2, hok2⟩ := hall v hv
    have hd := parseSeq_det h' h2
    injection hd with hd1 hd2
    subst hd1
    exact ⟨v, hv, f', r', h', hok2, hw⟩

theorem rowMatch_set_or (sep : Str) (vs : List Str) (hall : ∀ v ∈ vs, SegOk v) :
    ∀ (t : List Str) (i : Nat), i < t.length → ∀ (w : Str),
    (rowMatch sep (t.set i (orPattern vs)) w ↔ ∃ v ∈ vs, rowMatch sep (t.set i v) w) := by
  intro t
  induction t with
  | nil =>
    intro i hi
    simp at hi
  | cons g t' ih =>
    intro i hi w
    rcases i with _ | j
    · rcases t' with _ | ⟨g2, rest⟩
      · simp only [List.set]
        exact segL_or vs hall w
      · simp only [List.set]
        constructor
        · rintro ⟨w1, ws, w2, rfl, hw1, hws, hrm⟩
          obtain ⟨v, hv, hw1'⟩ := (segL_or vs hall w1).mp hw1
          exact ⟨v, hv, w1, ws, w2, rfl, hw1', hws, hrm⟩
        · rintro ⟨v, hv, w1, ws, w2, rfl, hw1, hws, hrm⟩
          exact ⟨w1, ws, w2, rfl, (segL_or vs hall w1).mpr ⟨v, hv, hw1⟩, hws, hrm⟩
    · rcases t' with _ | ⟨g2, rest⟩
      · simp at hi
      · have hj : j < (g2 :: rest).length := by simp at hi ⊢; omega
        have hx : ∀ (x : Str), (g :: g2 :: rest).set (j + 1) x =
            g :: ((g2 :: rest).set j x) := fun x => rfl
        have hcons : ∀ (x : Str), ∃ h2 t2, (g2 :: rest).set j x = h2 :: t2 := by
          intro x
          rcases j with _ | k
          · exact ⟨x, rest, rfl⟩
          · exact ⟨g2, rest.set k x, rfl⟩
        constructor
        · intro hrm
          rw [hx] at hrm
          obtain ⟨h2, t2, hset⟩ := hcons (orPattern vs)
          rw [hset] at hrm
          obtain ⟨w1, ws, w2, rfl, hw1, hws, hrm2⟩ := hrm
          rw [← hset] at hrm2
          obtain ⟨v, hv, hrm3⟩ := (ih j hj w2).mp hrm2
          obtain ⟨h3, t3, hset3⟩ := hcons v
          refine ⟨v, hv, ?_⟩
          rw [hx, hset3]
          rw [hset3] at hrm3
          exact ⟨w1, ws, w2, rfl, hw1, hws, hrm3⟩
        · rintro ⟨v, hv, hrm⟩
          rw [hx] at hrm
          obtain ⟨h3, t3, hset3⟩ := hcons v
          rw [hset3] at hrm
          obtain ⟨w1, ws, w2, rfl, hw1, hws, hrm2⟩ := hrm
          rw [← hset3] at hrm2
          have hrm3 := (ih j hj w2).mpr ⟨v, hv, hrm2⟩
          obtain ⟨h2, t2, hset⟩ := hcons (orPattern vs)
          rw [hx, hset]
          rw [hset] at hrm3
          exact ⟨w1, ws, w2, rfl, hw1, hws, hrm3⟩

theorem orPattern_SegOk (vs : List Str) (hall : ∀ v ∈ vs, SegOk v) :
    SegOk (orPattern vs) := by
  obtain ⟨f, R, h, hok, _⟩ := orPattern_full vs hall
  exact ⟨f, R, h, hok⟩

theorem orPattern_headOk (vs : List Str)
    (hall : ∀ v ∈ vs, quantHead v = false ∧ v ≠ []) :
    quantHead (orPattern vs) = false ∧ orPattern vs ≠ [] := by
  by_cases hemp : (uniquePatterns vs).isEmpty
  · have hor : orPattern vs = "(?!)".toList := by
      unfold orPattern
      rw [if_pos hemp]
    rw [hor]
    exact ⟨rfl, by simp⟩
  · by_cases hone : (uniquePatterns vs).length = 1
    · obtain ⟨q, hq⟩ := List.length_eq_one.mp hone
      have hqmem : q ∈ vs := (uniquePatterns_mem vs q).mp (by rw [hq]; simp)
      have hor : orPattern vs = q := by
        unfold orPattern
        rw [if_neg (by rw [hq]; simp), if_pos (by rw [hq]; rfl), hq]
        rfl
      rw [hor]
      exact hall q hqmem
    · have hor : orPattern vs =
          '(' :: '?' :: ':' :: (intercalateStr ['|'] (uniquePatterns vs) ++ [')']) := by
        unfold orPattern
        rw [if_neg hemp, if_neg hone]
        simp
      rw [hor]
      exact ⟨rfl, by simp⟩

theorem uniquePatternRows_mem (rows : List Row) (r : Row) :
    r ∈ uniquePatternRows rows ↔ r ∈ rows := by
  unfold uniquePatternRows dedupFirst
  rw [dedupFirstAux_mem]
  simp

theorem mergeAtIndex_spec (sep : Str) {n : Nat} (rows : List Row) (i : Nat) (hi : i < n)
    (hall : ∀ r ∈ rows, RowOk n r) :
    (∀ r' ∈ (mergeAtIndex rows i).1, RowOk n r') ∧
    (∀ w, (∃ r' ∈ (mergeAtIndex rows i).1, rowMatch sep r' w) ↔
          (∃ r ∈ rows, rowMatch sep r w)) := by
  have heq : (mergeAtIndex rows i).1 =
      uniquePatternRows ((groupRows rows i).map (fun g =>
        g.template.set i
          (if (uniquePatterns g.variants).length = 1 then (uniquePatterns g.variants).headD []
           else orPattern (uniquePatterns g.variants)))) := rfl
  have hlen : ∀ r ∈ rows, i < r.length := fun r hr => by
    rw [(hall r hr).1]; exact hi
  obtain ⟨g1, g2, g3⟩ := groupRows_spec rows i hlen
  have hne := groupRows_nonempty rows i
  -- segment facts for variants
  have hvarOk : ∀ g ∈ groupRows rows i, ∀ v ∈ g.variants,
      SegOk v ∧ quantHead v = false ∧ v ≠ [] := by
    intro g hg v hv
    obtain ⟨r, hr, hset⟩ := g1 g hg v hv
    have hvr : v ∈ r := by
      rw [← hset]
      have hti : i < g.template.length := by
        have hc := congrArg List.length hset
        rw [List.length_set] at hc
        rw [hc, (hall r hr).1]
        exact hi
      exact List.mem_set g.template i hti v
    exact (hall r hr).2 v hvr
  -- the merged fragment of each group is a good segment
  have hmergedOk : ∀ g ∈ groupRows rows i,
      SegOk (if (uniquePatterns g.variants).length = 1 then (uniquePatterns g.variants).headD []
        else orPattern (uniquePatterns g.variants)) ∧
      quantHead (if (uniquePatterns g.variants).length = 1 then
          (uniquePatterns g.variants).headD []
        else orPattern (uniquePatterns g.variants)) = false ∧
      (if (uniquePatterns g.variants).length = 1 then (uniquePatterns g.variants).headD []
        else orPattern (uniquePatterns g.variants)) ≠ [] := by
    intro g hg
    by_cases hone : (uniquePatterns g.variants).length = 1
    · rw [if_pos hone]
      obtain ⟨v, hv⟩ := List.length_eq_one.mp hone
      rw [hv]
      have hvv : v ∈ g.variants := by
        apply (uniquePatterns_mem _ _).mp
        rw [hv]
        simp
      exact hvarOk g hg v hvv
    · rw [if_neg hone]
      have hallu : ∀ v ∈ uniquePatterns g.variants, SegOk v :=
        fun v hv => (hvarOk g hg v ((uniquePatterns_mem _ _).mp hv)).1
      refine ⟨orPattern_SegOk _ hallu, ?_⟩
      exact orPattern_headOk _ (fun v hv =>
        ⟨(hvarOk g hg v ((uniquePatterns_mem _ _).mp hv)).2.1,
         (hvarOk g hg v ((uniquePatterns_mem _ _).mp hv)).2.2⟩)
  constructor
  · intro r' hr'
    rw [heq, uniquePatternRows_mem] at hr'
    obtain ⟨g, hg, hgr⟩ := List.mem_map.mp hr'
    obtain ⟨hmOk, hmq, hmne⟩ := hmergedOk g hg
    have htmem := g3 g hg
    have htOk := hall _ htmem
    subst hgr
    constructor
    · rw [List.length_set]
      exact htOk.1
    · intro x hx
      rcases List.mem_or_eq_of_mem_set hx with hx2 | rfl
      · exact htOk.2 x hx2
      · exact ⟨hmOk, hmq, hmne⟩
  · intro w
    constructor
    · rintro ⟨r', hr', hrm⟩
      rw [heq, uniquePatternRows_mem] at hr'
      obtain ⟨g, hg, hgr⟩ := List.mem_map.mp hr'
      have hti : i < g.template.length := by
        rw [(hall _ (g3 g hg)).1]
        exact hi
      have hgr2 : g.template.set i
          (if (uniquePatterns g.variants).length = 1 then (uniquePatterns g.variants).headD []
           else orPattern (uniquePatterns g.variants)) = r' := hgr
      by_cases hone : (uniquePatterns g.variants).length = 1
      · rw [if_pos hone] at hgr2
        obtain ⟨v, hv⟩ := List.length_eq_one.mp hone
        rw [hv, show ([v].headD []) = v from rfl] at hgr2
        have hvv : v ∈ g.variants := by
          apply (uniquePatterns_mem _ _).mp
          rw [hv]; simp
        obtain ⟨r, hr, hset⟩ := g1 g hg v hvv
        refine ⟨r, hr, ?_⟩
        rw [← hset, hgr2]
        exact hrm
      · rw [if_neg hone] at hgr2
        rw [← hgr2] at hrm
        have hallu : ∀ v ∈ uniquePatterns g.variants, SegOk v :=
          fun v hv => (hvarOk g hg v ((uniquePatterns_mem _ _).mp hv)).1
        obtain ⟨v, hv, hrm2⟩ := (rowMatch_set_or sep _ hallu g.template i hti w).mp hrm
        obtain ⟨r, hr, hset⟩ := g1 g hg v ((uniquePatterns_mem _ _).mp hv)
        refine ⟨r, hr, ?_⟩
        rw [← hset]
        exact hrm2
    · rintro ⟨r, hr, hrm⟩
      obtain ⟨g, hg, hset, hvmem⟩ := g2 r hr
      have hti : i < g.template.length := by
        rw [(hall _ (g3 g hg)).1]
        exact hi
      refine ⟨g.template.set i
        (if (uniquePatterns g.variants).length = 1 then (uniquePatterns g.variants).headD []
         else orPattern (uniquePatterns g.variants)), ?_, ?_⟩
      · rw [heq, uniquePatternRows_mem]
        exact List.mem_map.mpr ⟨g, hg, rfl⟩
      · by_cases hone : (uniquePatterns g.variants).length = 1
        · rw [if_pos hone]
          obtain ⟨v, hv⟩ := List.length_eq_one.mp hone
          rw [hv]
          have hmem2 : r.getD i [] ∈ uniquePatterns g.variants :=
            (uniquePatterns_mem _ _).mpr hvmem
          rw [hv] at hmem2
          have hveq : r.getD i [] = v := List.mem_singleton.mp hmem2
          rw [show ([v].headD []) = v from rfl, ← hveq, hset]
          exact hrm
        · rw [if_neg hone]
          have hallu : ∀ v ∈ uniquePatterns g.variants, SegOk v :=
            fun v hv => (hvarOk g hg v ((uniquePatterns_mem _ _).mp hv)).1
          apply (rowMatch_set_or sep _ hallu g.template i hti w).mpr
          refine ⟨r.getD i [], (uniquePatterns_mem _ _).mpr hvmem, ?_⟩
          rw [hset]
          exact hrm

theorem minimizePass_foldl_lang (sep : Str) {n : Nat} :
    ∀ (l : List Nat), (∀ i ∈ l, i < n) →
    ∀ (rows : List Row) (b : Bool), (∀ r ∈ rows, RowOk n r) →
    (∀ r' ∈ (l.foldl (fun acc index =>
        ((mergeAtIndex acc.1 index).1, acc.2 || (mergeAtIndex acc.1 index).2))
        (rows, b)).1, RowOk n r') ∧
    (∀ w, (∃ r' ∈ (l.foldl (fun acc index =>
        ((mergeAtIndex acc.1 index).1, acc.2 || (mergeAtIndex acc.1 index).2))
        (rows, b)).1, rowMatch sep r' w) ↔ (∃ r ∈ rows, rowMatch sep r w)) := by
  intro l
  induction l with
  | nil =>
    intro _ rows b hall
    exact ⟨hall, fun w => Iff.rfl⟩
  | cons i l ih =>
    intro hl rows b hall
    simp only [List.foldl_cons]
    obtain ⟨hOk, hLang⟩ := mergeAtIndex_spec sep rows i (hl i (List.mem_cons_self _ _)) hall
    obtain ⟨c1, c2⟩ := ih (fun j hj => hl j (List.mem_cons_of_mem _ hj))
      (mergeAtIndex rows i).1 (b || (mergeAtIndex rows i).2) hOk
    refine ⟨c1, ?_⟩
    intro w
    rw [c2 w, hLang w]

theorem minimizePass_spec (sep : Str) {n : Nat} (rows : List Row)
    (hall : ∀ r ∈ rows, RowOk n r) :
    (∀ r' ∈ (minimizePass rows n).1, RowOk n r') ∧
    (∀ w, (∃ r' ∈ (minimizePass rows n).1, rowMatch sep r' w) ↔
          (∃ r ∈ rows, rowMatch sep r w)) :=
  minimizePass_foldl_lang sep (List.range n) (fun i hi => List.mem_range.mp hi) rows false hall

theorem minimizeLoopF_spec (sep : Str) {n : Nat} :
    ∀ (fuel : Nat) (rows : List Row), (∀ r ∈ rows, RowOk n r) →
    (∀ r' ∈ minimizeLoopF fuel rows n, RowOk n r') ∧
    (∀ w, (∃ r' ∈ minimizeLoopF fuel rows n, rowMatch sep r' w) ↔
          (∃ r ∈ rows, rowMatch sep r w)) := by
  intro fuel
  induction fuel with
  | zero =>
    intro rows hall
    exact ⟨hall, fun w => Iff.rfl⟩
  | succ fuel ih =>
    intro rows hall
    obtain ⟨pOk, pLang⟩ := minimizePass_spec sep rows hall
    simp only [minimizeLoopF]
    split
    · obtain ⟨c1, c2⟩ := ih (minimizePass rows n).1 pOk
      refine ⟨c1, ?_⟩
      intro w
      rw [c2 w, pLang w]
    · exact ⟨pOk, pLang⟩

theorem minimizeLoopF_length_le {n : Nat} :
    ∀ (fuel : Nat) (rows : List Row),
    (minimizeLoopF fuel rows n).length ≤ rows.length := by
  intro fuel
  induction fuel with
  | zero => intro rows; exact le_refl _
  | succ fuel ih =>
    intro rows
    have hp := (minimizePass_foldl_spec (List.range n) rows false).1
    simp only [minimizeLoopF]
    split
    · exact Nat.le_trans (ih (minimizePass rows n).1) hp
    · exact hp

theorem splitPatternAux_ne (sep : Str) :
    ∀ (fuel : Nat) (s acc : Str) (d : Nat) (ic esc : Bool),
    splitPatternAux sep fuel s acc d ic esc ≠ [] := by
  intro fuel
  induction fuel with
  | zero =>
    intro s acc d ic esc
    rcases s with _ | ⟨c, rest⟩ <;> simp [splitPatternAux]
  | succ fuel ih =>
    intro s acc d ic esc
    rcases s with _ | ⟨c, rest⟩
    · simp [splitPatternAux]
    · simp only [splitPatternAux]
      split
      · simp
      · split
        · exact ih rest (c :: acc) d ic false
        · split
          · exact ih rest (c :: acc) d ic true
          · split
            · exact ih rest (c :: acc) d (c != ']') false
            · split
              · exact ih rest (c :: acc) d true false
              · split
                · exact ih rest (c :: acc) (d + 1) ic false
                · split
                  · exact ih rest (c :: acc) (d - 1) ic false
                  · exact ih rest (c :: acc) d ic false

theorem splitPatternAux_join (sep : Str) (hsep : sep ≠ []) :
    ∀ (fuel : Nat) (s acc : Str) (d : Nat) (ic esc : Bool), s.length ≤ fuel →
    intercalateStr sep (splitPatternAux sep fuel s acc d ic esc) = acc.reverse ++ s := by
  intro fuel
  induction fuel with
  | zero =>
    intro s acc d ic esc hlen
    rcases s with _ | ⟨c, rest⟩
    · simp [splitPatternAux, intercalateStr]
    · simp at hlen
  | succ fuel ih =>
    intro s acc d ic esc hlen
    rcases s with _ | ⟨c, rest⟩
    · simp [splitPatternAux, intercalateStr]
    · have hlen' : rest.length ≤ fuel := by simp at hlen; omega
      simp only [splitPatternAux]
      split
      · rename_i hcond
        obtain ⟨he, hic, hd, hpre⟩ := hcond
        obtain ⟨t, ht⟩ := List.isPrefixOf_iff_prefix.mp hpre
        have htdrop : t = rest.drop (sep.length - 1) := by
          have := congrArg (List.drop sep.length) ht
          rw [List.drop_left] at this
          rw [this]
          rcases sep with _ | ⟨c0, sep'⟩
          · exact absurd rfl hsep
          · simp
        have hne2 := splitPatternAux_ne sep fuel (rest.drop (sep.length - 1)) [] 0 false false
        rcases hsplit : splitPatternAux sep fuel (rest.drop (sep.length - 1)) [] 0 false false
          with _ | ⟨q, parts'⟩
        · exact absurd hsplit hne2
        have hrec := ih (rest.drop (sep.length - 1)) [] 0 false false
          (by rw [List.length_drop]; omega)
        rw [hsplit] at hrec
        rw [show intercalateStr sep (acc.reverse :: q :: parts') =
            acc.reverse ++ sep ++ intercalateStr sep (q :: parts') from rfl]
        rw [hrec]
        simp only [List.reverse_nil, List.nil_append]
        rw [← htdrop, List.append_assoc, ht]
      · split
        · rw [ih rest (c :: acc) d ic false hlen']
          simp
        · split
          · rw [ih rest (c :: acc) d ic true hlen']
            simp
          · split
            · rw [ih rest (c :: acc) d (c != ']') false hlen']
              simp
            · split
              · rw [ih rest (c :: acc) d true false hlen']
                simp
              · split
                · rw [ih rest (c :: acc) (d + 1) ic false hlen']
                  simp
                · split
                  · rw [ih rest (c :: acc) (d - 1) ic false hlen']
                    simp
                  · rw [ih rest (c :: acc) d ic false hlen']
                    simp

theorem splitPattern_join {p sep : Str} {n : Nat} {row : List Str} (hsep : sep ≠ [])
    (h : splitPattern p sep n = some row) : intercalateStr sep row = p := by
  simp only [splitPattern] at h
  split at h
  · exact Option.noConfusion h
  · injection h with h1
    rw [← h1]
    have := splitPatternAux_join sep hsep (p.length + 1) p [] 0 false false (by omega)
    simpa using this

theorem mapM_option_mem {α β : Type} (f : α → Option β) :
    ∀ (l : List α) (l' : List β), l.mapM f = some l' →
    l'.length = l.length ∧
    (∀ b ∈ l', ∃ a ∈ l, f a = some b) ∧
    (∀ a ∈ l, ∃ b ∈ l', f a = some b) := by
  intro l
  induction l with
  | nil =>
    intro l' h
    simp only [List.mapM_nil] at h
    injection h with h1
    subst h1
    simp
  | cons a l ih =>
    intro l' h
    rw [List.mapM_cons] at h
    rcases hfa : f a with _ | b
    · rw [hfa] at h
      simp at h
    · rw [hfa] at h
      rcases hm : l.mapM f with _ | bs
      · rw [hm] at h
        simp at h
      · rw [hm] at h
        simp at h
        subst h
        obtain ⟨c1, c2, c3⟩ := ih bs hm
        refine ⟨by simp [c1], ?_, ?_⟩
        · intro b' hb'
          rcases List.mem_cons.mp hb' with rfl | hb'2
          · exact ⟨a, List.mem_cons_self _ _, hfa⟩
          · obtain ⟨a', ha', hfa'⟩ := c2 b' hb'2
            exact ⟨a', List.mem_cons_of_mem _ ha', hfa'⟩
        · intro a' ha'
          rcases List.mem_cons.mp ha' with rfl | ha'2
          · exact ⟨b, List.mem_cons_self _ _, hfa⟩
          · obtain ⟨b', hb', hfb'⟩ := c3 a' ha'2
            exact ⟨b', List.mem_cons_of_mem _ hb', hfb'⟩

theorem segL_join (sep : Str) (hsOk : SegOk sep) (hsq : quantHead sep = false)
    (hsne : sep ≠ []) {n : Nat} {row : List Str} (hrow : RowOk n row) (hn : 0 < n)
    (w : Str) : segL (intercalateStr sep row) w ↔ rowMatch sep row w := by
  have hrne : row ≠ [] := by
    intro he
    rw [he] at hrow
    have h1 := hrow.1
    simp at h1
    omega
  obtain ⟨f, R, hf, hok, hlang⟩ := row_full sep hsOk hsq hsne row hrne hrow.2
  constructor
  · rintro ⟨f', r', hf', hw⟩
    have hd := parseSeq_det hf' hf
    injection hd with hd1 hd2
    subst hd1
    exact (hlang w).mp hw
  · intro hrm
    exact ⟨f, R, hf, (hlang w).mpr hrm⟩

theorem SegOk_join (sep : Str) (hsOk : SegOk sep) (hsq : quantHead sep = false)
    (hsne : sep ≠ []) {n : Nat} {row : List Str} (hrow : RowOk n row) (hn : 0 < n) :
    SegOk (intercalateStr sep row) := by
  have hrne : row ≠ [] := by
    intro he
    rw [he] at hrow
    have h1 := hrow.1
    simp at h1
    omega
  obtain ⟨f, R, hf, hok, _⟩ := row_full sep hsOk hsq hsne row hrne hrow.2
  exact ⟨f, R, hf, hok⟩

theorem splitPattern_ne_nil {p sep : Str} {n : Nat} {row : List Str}
    (h : splitPattern p sep n = some row) : row ≠ [] := by
  simp only [splitPattern] at h
  split at h
  · exact Option.noConfusion h
  · injection h with h1
    rw [← h1]
    exact splitPatternAux_ne sep (p.length + 1) p [] 0 false false

theorem minimizePatternSet_spec (patterns : List Str) (sep : Str) (n : Nat)
    (hsOk : SegOk sep) (hsq : quantHead sep = false) (hsne : sep ≠ [])
    (hsplit : ∀ p ∈ patterns, ∀ row, splitPattern p sep n = some row → RowOk n row)
    (out : List Str) (hout : minimizePatternSet patterns sep n = some out) :
    out.length ≤ patterns.length ∧
    (∀ w, (∃ q ∈ out, segL q w) ↔ (∃ p ∈ patterns, segL p w)) ∧
    (out = patterns ∨ ((∀ q ∈ out, SegOk q) ∧ (∀ p ∈ patterns, SegOk p))) := by
  unfold minimizePatternSet at hout
  by_cases hle : patterns.length ≤ 1
  · rw [if_pos hle] at hout
    injection hout with h1
    subst h1
    exact ⟨le_refl _, fun w => Iff.rfl, Or.inl rfl⟩
  · rw [if_neg hle] at hout
    rcases hm : patterns.mapM (fun p => splitPattern p sep n) with _ | rows0
    · rw [hm] at hout
      exact Option.noConfusion hout
    · rw [hm] at hout
      simp only [Option.bind_eq_bind, Option.some_bind] at hout
      injection hout with h1
      obtain ⟨hlen0, hmem1, hmem2⟩ := mapM_option_mem _ patterns rows0 hm
      have hrows0Ok : ∀ r ∈ rows0, RowOk n r := by
        intro r hr
        obtain ⟨p, hp, hsp⟩ := hmem1 r hr
        exact hsplit p hp r hsp
      have hn : 0 < n := by
        rcases hr0 : rows0 with _ | ⟨r0, rest0⟩
        · rw [hr0] at hlen0
          simp at hlen0
          omega
        · obtain ⟨p, hp, hsp⟩ := hmem1 r0 (by rw [hr0]; exact List.mem_cons_self _ _)
          have h1 := (hsplit p hp r0 hsp).1
          have h2 := splitPattern_ne_nil hsp
          rcases r0 with _ | ⟨g0, r0'⟩
          · exact absurd rfl h2
          · simp at h1
            omega
      have hrowsOk : ∀ r ∈ uniquePatternRows rows0, RowOk n r := by
        intro r hr
        exact hrows0Ok r ((uniquePatternRows_mem _ _).mp hr)
      have hloopEq : minimizeLoop (uniquePatternRows rows0) n =
          minimizeLoopF ((uniquePatternRows rows0).length + 1) (uniquePatternRows rows0) n :=
        rfl
      obtain ⟨hfinOk, hfinLang⟩ := minimizeLoopF_spec sep
        ((uniquePatternRows rows0).length + 1) (uniquePatternRows rows0) hrowsOk
      refine ⟨?_, ?_, Or.inr ⟨?_, ?_⟩⟩
      · rw [← h1]
        have e1 : (minimizeLoop (uniquePatternRows rows0) n).length ≤
            (uniquePatternRows rows0).length := by
          rw [hloopEq]
          exact minimizeLoopF_length_le _ _
        have e2 : (uniquePatternRows rows0).length ≤ rows0.length :=
          dedupFirst_length_le _
        simp only [List.length_map]
        omega
      · intro w
        rw [← h1]
        constructor
        · rintro ⟨q, hq, hsq2⟩
          obtain ⟨row', hrow', hjoin⟩ := List.mem_map.mp hq
          have hrowOk' := hfinOk row' (by rw [hloopEq] at hrow'; exact hrow')
          rw [← hjoin] at hsq2
          have hrm := (segL_join sep hsOk hsq hsne hrowOk' hn w).mp hsq2
          have := (hfinLang w).mp ⟨row', by rw [hloopEq] at hrow'; exact hrow', hrm⟩
          obtain ⟨r, hr, hrm2⟩ := this
          obtain ⟨p, hp, hsp⟩ := hmem1 r ((uniquePatternRows_mem _ _).mp hr)
          refine ⟨p, hp, ?_⟩
          rw [← splitPattern_join hsne hsp]
          exact (segL_join sep hsOk hsq hsne (hsplit p hp r hsp) hn w).mpr hrm2
        · rintro ⟨p, hp, hsp2⟩
          obtain ⟨r, hr, hsp⟩ := hmem2 p hp
          have hrOk := hsplit p hp r hsp
          rw [← splitPattern_join hsne hsp] at hsp2
          have hrm := (segL_join sep hsOk hsq hsne hrOk hn w).mp hsp2
          have := (hfinLang w).mpr ⟨r, (uniquePatternRows_mem _ _).mpr hr, hrm⟩
          obtain ⟨row', hrow', hrm2⟩ := this
          refine ⟨intercalateStr sep row', ?_, ?_⟩
          · apply List.mem_map.mpr
            exact ⟨row', by rw [hloopEq]; exact hrow', rfl⟩
          · exact (segL_join sep hsOk hsq hsne (hfinOk row' hrow') hn w).mpr hrm2
      · intro q hq
        rw [← h1] at hq
        obtain ⟨row', hrow', hjoin⟩ := List.mem_map.mp hq
        rw [← hjoin]
        exact SegOk_join sep hsOk hsq hsne
          (hfinOk row' (by rw [hloopEq] at hrow'; exact hrow')) hn
      · intro p hp
        obtain ⟨r, hr, hsp⟩ := hmem2 p hp
        rw [← splitPattern_join hsne hsp]
        exact SegOk_join sep hsOk hsq hsne (hsplit p hp r hsp) hn

theorem SegOk_of_check {p : Str} (h : segOkCheck p = true) : SegOk p := by
  unfold segOkCheck at h
  split at h
  next r heq => exact ⟨4 * p.length + 3, r, heq, h⟩
  next => exact Bool.noConfusion h

theorem RowOk_of_check {n : Nat} {row : Row} (h : rowOkCheck n row = true) : RowOk n row := by
  unfold rowOkCheck at h
  rw [Bool.and_eq_true, List.all_eq_true] at h
  obtain ⟨h1, h2⟩ := h
  refine ⟨by simpa using h1, ?_⟩
  intro g hg
  have h3 := h2 g hg
  rw [Bool.and_eq_true, Bool.and_eq_true] at h3
  obtain ⟨⟨hs, hq2⟩, hne⟩ := h3
  refine ⟨SegOk_of_check hs, by simpa using hq2, ?_⟩
  intro he
  rw [he] at hne
  exact Bool.noConfusion hne

theorem RowOk_of_split_check {p sep : Str} {n : Nat} {row : Row}
    (h : splitPattern p sep n = some row)
    (hch : (match splitPattern p sep n with
            | some r => rowOkCheck n r
            | none => true) = true) : RowOk n row := by
  rw [h] at hch
  exact RowOk_of_check hch

theorem patAccepts_iff_segL {p : Str} (hp : SegOk p) (w : Str) :
    patAccepts p w = true ↔ segL p w := by
  obtain ⟨f, r, hf, hok⟩ := hp
  rw [patAccepts_iff_lang (parseFull_of_seq hf) hok w]
  constructor
  · intro hw
    exact ⟨f, r, hf, hw⟩
  · rintro ⟨f', r', hf', hw⟩
    have hd := parseSeq_det hf' hf
    injection hd with hd1 hd2
    subst hd1
    exact hw

theorem isPrefixOf_head {sep : Str} {c : Char} {rest : Str} (hne : sep ≠ [])
    (h : sep.isPrefixOf (c :: rest) = true) : sep.headD ' ' = c := by
  rcases sep with _ | ⟨h0, sep'⟩
  · exact absurd rfl hne
  · have := List.isPrefixOf_iff_prefix.mp h
    obtain ⟨t, ht⟩ := this
    have h1 := congrArg (fun l => l.headD ' ') ht
    simpa using h1

theorem splitPatternAux_step (sep : Str) (fuel : Nat) (c : Char) (rest acc : Str)
    (d : Nat) (ic esc : Bool)
    (hcond : ¬(esc = false ∧ ic = false ∧ d = 0 ∧ sep.isPrefixOf (c :: rest) = true)) :
    splitPatternAux sep (fuel + 1) (c :: rest) acc d ic esc =
    splitPatternAux sep fuel rest (c :: acc)
      (scanStep (d, ic, esc) c).1 (scanStep (d, ic, esc) c).2.1
      (scanStep (d, ic, esc) c).2.2 := by
  simp only [splitPatternAux]
  rw [if_neg (by
    rintro ⟨h1, h2, h3, h4⟩
    exact hcond ⟨h1, h2, h3, h4⟩)]
  rcases esc with _ | _
  · simp only [scanStep]
    simp only [Bool.false_eq_true, if_false]
    by_cases hc1 : c = '\\'
    · rw [if_pos hc1, if_pos hc1]
    · rw [if_neg hc1, if_neg hc1]
      rcases ic with _ | _
      · simp only [Bool.false_eq_true, if_false]
        by_cases hc2 : c = '['
        · rw [if_pos hc2, if_pos hc2]
        · rw [if_neg hc2, if_neg hc2]
          by_cases hc3 : c = '('
          · rw [if_pos hc3, if_pos hc3]
          · rw [if_neg hc3, if_neg hc3]
            by_cases hc4 : c = ')' ∧ 0 < d
            · rw [if_pos hc4, if_pos hc4]
            · rw [if_neg hc4, if_neg hc4]
      · simp only [if_true]
  · simp only [scanStep, if_true]

theorem splitPatternAux_skip (sep : Str) (hne : sep ≠ []) :
    ∀ (g : Str) (st : Nat × Bool × Bool), noSplitIn (sep.headD ' ') g st = true →
    ∀ (fuel : Nat) (s acc : Str), g.length ≤ fuel →
    splitPatternAux sep fuel (g ++ s) acc st.1 st.2.1 st.2.2 =
    splitPatternAux sep (fuel - g.length) s (g.reverse ++ acc)
      (scanFold g st).1 (scanFold g st).2.1 (scanFold g st).2.2 := by
  intro g
  induction g with
  | nil =>
    intro st _ fuel s acc _
    simp [scanFold]
  | cons c g' ih =>
    intro st hns fuel s acc hlen
    obtain ⟨d, ic, esc⟩ := st
    simp only [noSplitIn, Bool.and_eq_true] at hns
    obtain ⟨hguard, hrest⟩ := hns
    rcases fuel with _ | fuel'
    · simp at hlen
    have hlen' : g'.length ≤ fuel' := by simp at hlen; omega
    have hcond : ¬(esc = false ∧ ic = false ∧ d = 0 ∧
        sep.isPrefixOf (c :: (g' ++ s)) = true) := by
      rintro ⟨he, hi, hd, hp⟩
      have hcne := isPrefixOf_head hne hp
      rw [he, hi, hd, hcne] at hguard
      simp at hguard
    rw [List.cons_append, splitPatternAux_step sep fuel' c (g' ++ s) acc d ic esc hcond,
      ih (scanStep (d, ic, esc) c) hrest fuel' s (c :: acc) hlen']
    have hf : scanFold (c :: g') (d, ic, esc) = scanFold g' (scanStep (d, ic, esc) c) := by
      simp [scanFold]
    have hr : (c :: g').reverse ++ acc = g'.reverse ++ (c :: acc) := by
      simp
    have hfl : fuel' + 1 - (c :: g').length = fuel' - g'.length := by
      simp
    rw [hf, hr, hfl]

theorem splitPatternAux_sep (sep : Str) (hne : sep ≠ []) (fuel : Nat) (s acc : Str) :
    splitPatternAux sep (fuel + 1) (sep ++ s) acc 0 false false =
    acc.reverse :: splitPatternAux sep fuel s [] 0 false false := by
  rcases sep with _ | ⟨c0, sep'⟩
  · exact absurd rfl hne
  rw [List.cons_append]
  simp only [splitPatternAux]
  rw [if_pos ⟨trivial, trivial, trivial,
    List.isPrefixOf_iff_prefix.mpr ⟨s, by rw [List.cons_append]⟩⟩]
  have hdrop : (sep' ++ s).drop ((c0 :: sep').length - 1) = s := by
    simp only [List.length_cons, Nat.add_sub_cancel]
    exact List.drop_left sep' s
  rw [hdrop]

theorem splitPatternAux_row (sep : Str) (hne : sep ≠ []) :
    ∀ (row : List Str), row ≠ [] →
    (∀ g ∈ row, noSplitIn (sep.headD ' ') g (0, false, false) = true ∧
      scanFold g (0, false, false) = (0, false, false)) →
    ∀ (fuel : Nat), (intercalateStr sep row).length ≤ fuel →
    splitPatternAux sep fuel (intercalateStr sep row) [] 0 false false = row := by
  intro row
  induction row with
  | nil =>
    intro h
    exact absurd rfl h
  | cons g rest ih =>
    intro _ hall fuel hlen
    obtain ⟨hg1, hg2⟩ := hall g (List.mem_cons_self _ _)
    rcases rest with _ | ⟨g2, rest'⟩
    · rw [show intercalateStr sep [g] = g from rfl] at hlen ⊢
      have h2 := splitPatternAux_skip sep hne g (0, false, false) hg1 fuel [] [] hlen
      rw [List.append_nil] at h2
      rw [h2]
      simp [splitPatternAux]
    · have hshape : intercalateStr sep (g :: g2 :: rest') =
          g ++ (sep ++ intercalateStr sep (g2 :: rest')) := by
        simp [intercalateStr, List.append_assoc]
      rw [hshape] at hlen ⊢
      have hglen : g.length ≤ fuel := by
        simp only [List.length_append] at hlen
        omega
      have h2 := splitPatternAux_skip sep hne g (0, false, false) hg1 fuel
        (sep ++ intercalateStr sep (g2 :: rest')) [] hglen
      rw [hg2] at h2
      rw [h2]
      have hslen : 1 ≤ sep.length := by
        rcases sep with _ | ⟨c0, sep'⟩
        · exact absurd rfl hne
        · simp
      obtain ⟨k, hk⟩ : ∃ k, fuel - g.length = k + 1 := by
        refine ⟨fuel - g.length - 1, ?_⟩
        simp only [List.length_append] at hlen
        omega
      rw [hk, splitPatternAux_sep sep hne k _ _]
      have hrec := ih (List.cons_ne_nil _ _)
        (fun q hq => hall q (List.mem_cons_of_mem _ hq)) k
        (by
          simp only [List.length_append] at hlen
          omega)
      rw [hrec]
      simp

theorem splitPattern_of_safe (sep : Str) (hne : sep ≠ []) (row : List Str)
    (hrow : row ≠ [])
    (hall : ∀ g ∈ row, noSplitIn (sep.headD ' ') g (0, false, false) = true ∧
      scanFold g (0, false, false) = (0, false, false)) :
    splitPattern (intercalateStr sep row) sep row.length = some row := by
  simp only [splitPattern]
  rw [splitPatternAux_row sep hne row hrow hall _ (by omega)]
  simp

theorem scanStep_inert {c : Char} (h1 : c ≠ '\\') (h2 : c ≠ '[') (h3 : c ≠ '(')
    (h4 : c ≠ ')') (d : Nat) : scanStep (d, false, false) c = (d, false, false) := by
  simp [scanStep, h1, h2, h3, h4]

theorem scanFold_inert : ∀ {g : Str},
    (∀ c ∈ g, c ≠ '\\' ∧ c ≠ '[' ∧ c ≠ '(' ∧ c ≠ ')') →
    ∀ (d : Nat), scanFold g (d, false, false) = (d, false, false) := by
  intro g
  induction g with
  | nil => intro _ d; rfl
  | cons c g' ih =>
    intro h d
    obtain ⟨h1, h2, h3, h4⟩ := h c (List.mem_cons_self _ _)
    show scanFold g' (scanStep (d, false, false) c) = (d, false, false)
    rw [scanStep_inert h1 h2 h3 h4]
    exact ih (fun x hx => h x (List.mem_cons_of_mem _ hx)) d

theorem noSplitIn_of_ne {sepH : Char} : ∀ {g : Str}, (∀ c ∈ g, c ≠ sepH) →
    ∀ (st : Nat × Bool × Bool), noSplitIn sepH g st = true := by
  intro g
  induction g with
  | nil => intro _ st; rfl
  | cons c g' ih =>
    intro h st
    simp only [noSplitIn, Bool.and_eq_true]
    constructor
    · have := h c (List.mem_cons_self _ _)
      simp [this]
    · exact ih (fun x hx => h x (List.mem_cons_of_mem _ hx)) _

theorem scanFold_inclass : ∀ {content : Str},
    (∀ c ∈ content, c ≠ ']' ∧ c ≠ '\\') →
    ∀ (d : Nat), scanFold content (d, true, false) = (d, true, false) := by
  intro content
  induction content with
  | nil => intro _ d; rfl
  | cons c g' ih =>
    intro h d
    obtain ⟨h1, h2⟩ := h c (List.mem_cons_self _ _)
    show scanFold g' (scanStep (d, true, false) c) = (d, true, false)
    have hstep : scanStep (d, true, false) c = (d, true, false) := by
      simp [scanStep, h1, h2]
    rw [hstep]
    exact ih (fun x hx => h x (List.mem_cons_of_mem _ hx)) d

theorem scanFold_class {content : Str} (h : ∀ c ∈ content, c ≠ ']' ∧ c ≠ '\\')
    (d : Nat) : scanFold ('[' :: content ++ [']']) (d, false, false) = (d, false, false) := by
  show scanFold (content ++ [']']) (scanStep (d, false, false) '[') = (d, false, false)
  have h1 : scanStep (d, false, false) '[' = (d, true, false) := by
    simp [scanStep]
  rw [h1]
  have h2 : scanFold (content ++ [']']) (d, true, false) =
      scanFold [']'] (scanFold content (d, true, false)) := by
    simp [scanFold, List.foldl_append]
  rw [h2, scanFold_inclass h d]
  show scanStep (d, true, false) ']' = (d, false, false)
  simp [scanStep]

theorem scanFold_append (a b : Str) (st : Nat × Bool × Bool) :
    scanFold (a ++ b) st = scanFold b (scanFold a st) := by
  simp [scanFold, List.foldl_append]

theorem noSplitIn_append {sepH : Char} : ∀ {a : Str} (b : Str) (st : Nat × Bool × Bool),
    noSplitIn sepH a st = true → noSplitIn sepH b (scanFold a st) = true →
    noSplitIn sepH (a ++ b) st = true := by
  intro a
  induction a with
  | nil =>
    intro b st _ h2
    exact h2
  | cons c a' ih =>
    intro b st h1 h2
    simp only [noSplitIn, Bool.and_eq_true] at h1 ⊢
    refine ⟨h1.1, ?_⟩
    exact ih b (scanStep st c) h1.2 h2

theorem scanStep_parenfree {c : Char} (h1 : c ≠ '(') (h2 : c ≠ ')') (h3 : c ≠ '\\')
    (d : Nat) (ic : Bool) :
    scanStep (d, ic, false) c = (d, (scanStep (0, ic, false) c).2.1, false) := by
  rcases ic with _ | _
  · by_cases hc : c = '['
    · simp [scanStep, h3, hc]
    · simp [scanStep, h1, h2, h3, hc]
  · simp [scanStep, h3]

theorem scanFold_parenfree : ∀ {g : Str},
    (∀ c ∈ g, c ≠ '(' ∧ c ≠ ')' ∧ c ≠ '\\') →
    ∀ (d : Nat) (ic : Bool),
    scanFold g (d, ic, false) = (d, (scanFold g (0, ic, false)).2.1, false) := by
  intro g
  induction g with
  | nil => intro _ d ic; rfl
  | cons c g' ih =>
    intro h d ic
    obtain ⟨h1, h2, h3⟩ := h c (List.mem_cons_self _ _)
    have hrest := fun x hx => h x (List.mem_cons_of_mem _ hx)
    show scanFold g' (scanStep (d, ic, false) c) = _
    rw [scanStep_parenfree h1 h2 h3 d ic]
    rw [ih hrest d (scanStep (0, ic, false) c).2.1]
    have hz : scanFold (c :: g') (0, ic, false) =
        scanFold g' (scanStep (0, ic, false) c) := rfl
    rw [hz]
    have hz2 : scanStep (0, ic, false) c = (0, (scanStep (0, ic, false) c).2.1, false) := by
      rw [scanStep_parenfree h1 h2 h3 0 ic]
    rw [← hz2]

theorem noSplitIn_depth {sepH : Char} : ∀ {g : Str},
    (∀ c ∈ g, c ≠ '(' ∧ c ≠ ')' ∧ c ≠ '\\') →
    ∀ (d : Nat), 0 < d → ∀ (ic : Bool), noSplitIn sepH g (d, ic, false) = true := by
  intro g
  induction g with
  | nil => intro _ d _ ic; rfl
  | cons c g' ih =>
    intro h d hd ic
    obtain ⟨h1, h2, h3⟩ := h c (List.mem_cons_self _ _)
    simp only [noSplitIn, Bool.and_eq_true]
    constructor
    · simp [hd]
    · rw [scanStep_parenfree h1 h2 h3 d ic]
      exact ih (fun x hx => h x (List.mem_cons_of_mem _ hx)) d hd _

theorem mem_intercalateStr {c : Char} {sep : Str} : ∀ {l : List Str},
    c ∈ intercalateStr sep l → c ∈ sep ∨ ∃ p ∈ l, c ∈ p := by
  intro l
  induction l with
  | nil =>
    intro h
    simp [intercalateStr] at h
  | cons g rest ih =>
    intro h
    rcases rest with _ | ⟨g2, rest'⟩
    · exact Or.inr ⟨g, List.mem_singleton.mpr rfl, h⟩
    · rw [show intercalateStr sep (g :: g2 :: rest') =
        g ++ sep ++ intercalateStr sep (g2 :: rest') from rfl] at h
      rcases List.mem_append.mp h with h2 | h2
      · rcases List.mem_append.mp h2 with h3 | h3
        · exact Or.inr ⟨g, List.mem_cons_self _ _, h3⟩
        · exact Or.inl h3
      · rcases ih h2 with h3 | ⟨p, hp, hcp⟩
        · exact Or.inl h3
        · exact Or.inr ⟨p, List.mem_cons_of_mem _ hp, hcp⟩

theorem scanFold_intercalate_bar : ∀ {l : List Str},
    (∀ p ∈ l, (∀ c ∈ p, c ≠ '(' ∧ c ≠ ')' ∧ c ≠ '\\') ∧
      scanFold p (0, false, false) = (0, false, false)) →
    scanFold (intercalateStr ['|'] l) (0, false, false) = (0, false, false) := by
  intro l
  induction l with
  | nil => intro _; rfl
  | cons g rest ih =>
    intro h
    obtain ⟨hg1, hg2⟩ := h g (List.mem_cons_self _ _)
    rcases rest with _ | ⟨g2, rest'⟩
    · exact hg2
    · have hsh : intercalateStr ['|'] (g :: g2 :: rest') =
          g ++ (['|'] ++ intercalateStr ['|'] (g2 :: rest')) := by
        simp only [intercalateStr]
        rw [List.append_assoc]
      rw [hsh, scanFold_append, hg2, scanFold_append]
      have hbar : scanFold ['|'] (0, false, false) = (0, false, false) := by
        show scanStep (0, false, false) '|' = (0, false, false)
        simp [scanStep]
      rw [hbar]
      exact ih (fun q hq => h q (List.mem_cons_of_mem _ hq))

theorem orPattern_scan_safe {sepH : Char} (hs : sepH ≠ '(') (ps : List Str)
    (hall : ∀ p ∈ ps, (∀ c ∈ p, c ≠ sepH ∧ c ≠ '(' ∧ c ≠ ')' ∧ c ≠ '\\') ∧
      scanFold p (0, false, false) = (0, false, false)) :
    noSplitIn sepH (orPattern ps) (0, false, false) = true ∧
    scanFold (orPattern ps) (0, false, false) = (0, false, false) := by
  by_cases hemp : (uniquePatterns ps).isEmpty
  · have hor : orPattern ps = "(?!)".toList := by
      unfold orPattern
      rw [if_pos hemp]
    rw [hor]
    have hg : ('(' != sepH) = true := bne_iff_ne.mpr (Ne.symm hs)
    constructor
    · simp [noSplitIn, scanStep, hg]
    · simp [scanFold, scanStep]
  · by_cases hone : (uniquePatterns ps).length = 1
    · obtain ⟨q, hq⟩ := List.length_eq_one.mp hone
      have hqmem : q ∈ ps := (uniquePatterns_mem ps q).mp (by rw [hq]; simp)
      have hor : orPattern ps = q := by
        unfold orPattern
        rw [if_neg (by rw [hq]; simp), if_pos (by rw [hq]; rfl), hq]
        rfl
      rw [hor]
      obtain ⟨hc, hf⟩ := hall q hqmem
      exact ⟨noSplitIn_of_ne (fun c hcc => (hc c hcc).1) _, hf⟩
    · have hor : orPattern ps =
          '(' :: '?' :: ':' :: (intercalateStr ['|'] (uniquePatterns ps) ++ [')']) := by
        unfold orPattern
        rw [if_neg hemp, if_neg hone]
        simp
      have hallu : ∀ p ∈ uniquePatterns ps,
          (∀ c ∈ p, c ≠ sepH ∧ c ≠ '(' ∧ c ≠ ')' ∧ c ≠ '\\') ∧
          scanFold p (0, false, false) = (0, false, false) :=
        fun p hp => hall p ((uniquePatterns_mem ps p).mp hp)
      have hXchars : ∀ c ∈ intercalateStr ['|'] (uniquePatterns ps),
          c ≠ '(' ∧ c ≠ ')' ∧ c ≠ '\\' := by
        intro c hc
        rcases mem_intercalateStr hc with h2 | ⟨p, hp, hcp⟩
        · obtain rfl := List.mem_singleton.mp h2
          refine ⟨by decide, by decide, by decide⟩
        · exact ((hallu p hp).1 c hcp).2
      have hXfold : scanFold (intercalateStr ['|'] (uniquePatterns ps))
          (0, false, false) = (0, false, false) :=
        scanFold_intercalate_bar (fun p hp =>
          ⟨fun c hc => ((hallu p hp).1 c hc).2, (hallu p hp).2⟩)
      rw [hor]
      have hopen : scanStep (0, false, false) '(' = (1, false, false) := by
        simp [scanStep]
      have hq1 : scanStep (1, false, false) '?' = (1, false, false) := by
        simp [scanStep]
      have hq2 : scanStep (1, false, false) ':' = (1, false, false) := by
        simp [scanStep]
      have hXfold1 : scanFold (intercalateStr ['|'] (uniquePatterns ps))
          (1, false, false) = (1, false, false) := by
        rw [scanFold_parenfree hXchars 1 false, hXfold]
      have hg : ('(' != sepH) = true := bne_iff_ne.mpr (Ne.symm hs)
      constructor
      · have htail : noSplitIn sepH (intercalateStr ['|'] (uniquePatterns ps) ++ [')'])
            (1, false, false) = true := by
          refine noSplitIn_append [')'] (1, false, false)
            (noSplitIn_depth hXchars 1 (by omega) false) ?_
          rw [hXfold1]
          simp [noSplitIn]
        simp [noSplitIn, scanStep, hg, htail]
      · show scanFold (intercalateStr ['|'] (uniquePatterns ps) ++ [')'])
          (scanStep (scanStep (scanStep (0, false, false) '(') '?') ':') = (0, false, false)
        rw [hopen, hq1, hq2, scanFold_append, hXfold1]
        show scanStep (1, false, false) ')' = (0, false, false)
        simp [scanStep]

theorem hexValue_mem {c : Char} (h : c ∈ HEX_DIGITS) :
    ∃ d, hexValue c = some d ∧ d < 16 := by
  have hall : ∀ x ∈ HEX_DIGITS, (hexValue x).isSome = true ∧ (hexValue x).getD 0 < 16 := by
    decide
  obtain ⟨h1, h2⟩ := hall c h
  obtain ⟨d, hd⟩ := Option.isSome_iff_exists.mp h1
  rw [hd] at h2
  exact ⟨d, hd, by simpa using h2⟩

theorem mem_HEX_props {c : Char} (h : c ∈ HEX_DIGITS) :
    c ≠ ':' ∧ c ≠ '(' ∧ c ≠ ')' ∧ c ≠ '\\' ∧ c ≠ '[' ∧ c ≠ ']' ∧ c ≠ '.' := by
  have hall : ∀ x ∈ HEX_DIGITS,
      x ≠ ':' ∧ x ≠ '(' ∧ x ≠ ')' ∧ x ≠ '\\' ∧ x ≠ '[' ∧ x ≠ ']' ∧ x ≠ '.' := by decide
  exact hall c h

theorem digitChar_mem {m : Nat} (h : m < 10) : digitChar m ∈ "0123456789".toList := by
  interval_cases m <;> decide

theorem decStrAux_chars : ∀ (fuel n : Nat), ∀ c ∈ decStrAux fuel n,
    c ∈ "0123456789".toList := by
  intro fuel
  induction fuel with
  | zero => intro n c hc; simp [decStrAux] at hc
  | succ f ih =>
    intro n c hc
    simp only [decStrAux] at hc
    by_cases h : n < 10
    · rw [if_pos h] at hc
      rw [List.mem_singleton.mp hc]
      exact digitChar_mem h
    · rw [if_neg h] at hc
      rcases List.mem_append.mp hc with h1 | h2
      · exact ih _ c h1
      · rw [List.mem_singleton.mp h2]
        exact digitChar_mem (Nat.mod_lt _ (by omega))

theorem decStr_chars (n : Nat) : ∀ c ∈ decStr n, c ∈ "0123456789".toList :=
  decStrAux_chars _ _

theorem decStr_ne_nil (n : Nat) : decStr n ≠ [] := by
  show decStrAux (n + 1) n ≠ []
  simp only [decStrAux]
  by_cases h : n < 10
  · rw [if_pos h]; simp
  · rw [if_neg h]; simp

theorem digit_mem_hex {c : Char} (h : c ∈ "0123456789".toList) : c ∈ HEX_DIGITS := by
  have hall : ∀ x ∈ "0123456789".toList, x ∈ HEX_DIGITS := by decide
  exact hall c h

theorem digit_props {c : Char} (h : c ∈ "0123456789".toList) :
    c ≠ '\\' ∧ c ≠ '[' ∧ c ≠ ']' ∧ c ≠ '(' ∧ c ≠ ')' ∧ c ≠ ':' ∧ c ≠ '.' ∧ c ≠ '|' := by
  have hall : ∀ x ∈ "0123456789".toList,
      x ≠ '\\' ∧ x ≠ '[' ∧ x ≠ ']' ∧ x ≠ '(' ∧ x ≠ ')' ∧ x ≠ ':' ∧ x ≠ '.' ∧ x ≠ '|' := by
    decide
  exact hall c h

theorem hexGetD_mem {m : Nat} (h : m < 16) : HEX_DIGITS.getD m '?' ∈ HEX_DIGITS := by
  interval_cases m <;> decide

theorem hexStrAux_chars : ∀ (fuel n : Nat), ∀ c ∈ hexStrAux fuel n, c ∈ HEX_DIGITS := by
  intro fuel
  induction fuel with
  | zero => intro n c hc; simp [hexStrAux] at hc
  | succ f ih =>
    intro n c hc
    simp only [hexStrAux] at hc
    by_cases h : n < 16
    · rw [if_pos h] at hc
      rw [List.mem_singleton.mp hc]
      exact hexGetD_mem h
    · rw [if_neg h] at hc
      rcases List.mem_append.mp hc with h1 | h2
      · exact ih _ c h1
      · rw [List.mem_singleton.mp h2]
        exact hexGetD_mem (Nat.mod_lt _ (by omega))

theorem hexStr_chars (n : Nat) : ∀ c ∈ hexStr n, c ∈ HEX_DIGITS :=
  hexStrAux_chars _ _

theorem hexStr_ne_nil (n : Nat) : hexStr n ≠ [] := by
  show hexStrAux (n + 1) n ≠ []
  simp only [hexStrAux]
  by_cases h : n < 16
  · rw [if_pos h]; simp
  · rw [if_neg h]; simp

theorem pad4_chars {s : Str} (h : ∀ c ∈ s, c ∈ HEX_DIGITS) :
    ∀ c ∈ pad4 s, c ∈ HEX_DIGITS := by
  intro c hc
  rcases List.mem_append.mp hc with h1 | h2
  · rw [List.eq_of_mem_replicate h1]; decide
  · exact h c h2

theorem pad4_ne_nil {s : Str} (h : s ≠ []) : pad4 s ≠ [] := by
  intro hx
  exact h (List.append_eq_nil.mp hx).2

theorem fragOK_of_inert {sepH : Char} {g : Str} (hne : g ≠ [])
    (h : ∀ c ∈ g, c ≠ sepH ∧ c ≠ '\\' ∧ c ≠ '[' ∧ c ≠ '(' ∧ c ≠ ')') : fragOK sepH g :=
  ⟨hne, noSplitIn_of_ne (fun c hc => (h c hc).1) _,
    scanFold_inert (fun c hc => ⟨(h c hc).2.1, (h c hc).2.2.1, (h c hc).2.2.2.1,
      (h c hc).2.2.2.2⟩) 0⟩

theorem orPattern_ne_nil {ps : List Str} (h : ∀ p ∈ ps, p ≠ []) : orPattern ps ≠ [] := by
  unfold orPattern
  by_cases hemp : (uniquePatterns ps).isEmpty
  · rw [if_pos hemp]; decide
  · rw [if_neg hemp]
    by_cases hone : (uniquePatterns ps).length = 1
    · rw [if_pos hone]
      obtain ⟨q, hq⟩ := List.length_eq_one.mp hone
      rw [hq]
      show q ≠ []
      exact h q ((uniquePatterns_mem ps q).mp (by rw [hq]; simp))
    · rw [if_neg hone]; simp

theorem orPattern_fragOK {sepH : Char} (hs : sepH ≠ '(') (ps : List Str)
    (hne : ∀ p ∈ ps, p ≠ [])
    (hall : ∀ p ∈ ps, (∀ c ∈ p, c ≠ sepH ∧ c ≠ '(' ∧ c ≠ ')' ∧ c ≠ '\\') ∧
      scanFold p (0, false, false) = (0, false, false)) : fragOK sepH (orPattern ps) :=
  ⟨orPattern_ne_nil hne, (orPattern_scan_safe hs ps hall).1,
    (orPattern_scan_safe hs ps hall).2⟩

theorem octetRangePattern_fragOK (a b : Nat) : fragOK '\\' (octetRangePattern a b) := by
  unfold octetRangePattern
  by_cases hfull : a = 0 ∧ b = 255
  · rw [if_pos hfull]
    exact ⟨by decide, by decide, by decide⟩
  · rw [if_neg hfull]
    refine orPattern_fragOK (by decide) _ ?_ ?_
    · intro p hp
      obtain ⟨i, _, rfl⟩ := List.mem_map.mp hp
      exact decStr_ne_nil _
    · intro p hp
      obtain ⟨i, _, rfl⟩ := List.mem_map.mp hp
      constructor
      · intro c hc
        obtain ⟨h1, h2, h3, h4, h5, h6, h7, h8⟩ := digit_props (decStr_chars _ c hc)
        exact ⟨h1, h4, h5, h1⟩
      · refine scanFold_inert ?_ 0
        intro c hc
        obtain ⟨h1, h2, h3, h4, h5, h6, h7, h8⟩ := digit_props (decStr_chars _ c hc)
        exact ⟨h1, h2, h4, h5⟩

theorem intercalateStr_cons_cons (sep g g2 : Str) (rest : List Str) :
    intercalateStr sep (g :: g2 :: rest) = g ++ sep ++ intercalateStr sep (g2 :: rest) := by
  simp only [intercalateStr]

theorem intercalateStr_ne_nil {sep : Str} (hsep : sep ≠ []) :
    ∀ {row : List Str}, row ≠ [] → (∀ g ∈ row, g ≠ []) →
    intercalateStr sep row ≠ [] := by
  intro row hrow hall
  match row, hrow with
  | [g], _ => exact hall g (by simp)
  | g :: g2 :: rest, _ =>
    rw [intercalateStr_cons_cons]
    intro h
    rw [List.append_assoc] at h
    obtain ⟨-, h2⟩ := List.append_eq_nil.mp h
    exact hsep (List.append_eq_nil.mp h2).1

theorem combineWithSuffix_shape (sep : Str) (hsep : sep ≠ []) (head : Str)
    (hhead : fragOK (sep.headD ' ') head) (suffixes : List Str) (m : Nat)
    (hsuf : ∀ s ∈ suffixes, ∃ row, s = intercalateStr sep row ∧ row.length = m ∧
      ∀ g ∈ row, fragOK (sep.headD ' ') g) :
    ∀ p ∈ combineWithSuffix head suffixes sep, ∃ row, p = intercalateStr sep row ∧
      row.length = m + 1 ∧ ∀ g ∈ row, fragOK (sep.headD ' ') g := by
  intro p hp
  simp only [combineWithSuffix, List.mem_map] at hp
  obtain ⟨s, hs, rfl⟩ := hp
  obtain ⟨row, rfl, hlen, hrow⟩ := hsuf s hs
  by_cases hemp : (intercalateStr sep row).isEmpty
  · have hrownil : row = [] := by
      by_contra hne
      exact intercalateStr_ne_nil hsep hne (fun g hg => (hrow g hg).1)
        (List.isEmpty_iff.mp hemp)
    subst hrownil
    rw [if_pos hemp]
    refine ⟨[head], rfl, by simpa using hlen.symm ▸ rfl, ?_⟩
    intro g hg
    rw [List.mem_singleton.mp hg]
    exact hhead
  · rw [if_neg hemp]
    have hrowne : row ≠ [] := by
      rintro rfl
      simp [intercalateStr] at hemp
    match row, hrowne with
    | g2 :: rest, _ =>
      refine ⟨head :: g2 :: rest, ?_, by simpa using hlen, ?_⟩
      · rw [intercalateStr_cons_cons]
      · intro g hg
        rcases List.mem_cons.mp hg with rfl | hg2
        · exact hhead
        · exact hrow g hg2

theorem ipv4AnySuffix_shape {count : Nat} (hc : 0 < count) :
    ipv4AnySuffix count =
      intercalateStr "\\.".toList (List.replicate count IPV4_ANY_OCTET) := by
  unfold ipv4AnySuffix
  rw [if_neg (by omega)]

theorem anyOctet_fragOK : fragOK '\\' IPV4_ANY_OCTET :=
  ⟨by decide, by decide, by decide⟩

theorem buildIPv4_shape : ∀ (fuel : Nat) (start e : List Nat) (index : Nat),
    index ≤ 4 → ∀ p ∈ buildIPv4PatternsF fuel start e index,
    ∃ row, p = intercalateStr "\\.".toList row ∧ row.length = 4 - index ∧
      ∀ g ∈ row, fragOK '\\' g := by
  intro fuel
  induction fuel with
  | zero =>
    intro start e index _ p hp
    simp [buildIPv4PatternsF] at hp
  | succ f ih =>
    intro start e index hidx p hp
    have hH : ("\\.".toList).headD ' ' = '\\' := rfl
    simp only [buildIPv4PatternsF] at hp
    by_cases h4 : index = 4
    · rw [if_pos h4] at hp
      rw [List.mem_singleton.mp hp]
      exact ⟨[], rfl, by simp [h4], by simp⟩
    · rw [if_neg h4] at hp
      by_cases hfull : isFullRange start e index 0 255 = true
      · rw [if_pos hfull] at hp
        rw [List.mem_singleton.mp hp]
        refine ⟨List.replicate (4 - index) IPV4_ANY_OCTET,
          ipv4AnySuffix_shape (by omega), by simp, ?_⟩
        intro g hg
        rw [List.eq_of_mem_replicate hg]
        exact anyOctet_fragOK
      · rw [if_neg hfull] at hp
        by_cases heq : start.getD index 0 = e.getD index 0
        · rw [if_pos heq] at hp
          have := combineWithSuffix_shape "\\.".toList (by decide) _
            (hH ▸ octetRangePattern_fragOK _ _) _ (4 - (index + 1))
            (fun s hs => by
              obtain ⟨row, h1, h2, h3⟩ := ih start e (index + 1) (by omega) s hs
              exact ⟨row, h1, h2, fun g hg => hH ▸ h3 g hg⟩) p hp
          obtain ⟨row, h1, h2, h3⟩ := this
          exact ⟨row, h1, by omega, fun g hg => hH ▸ h3 g hg⟩
        · rw [if_neg heq] at hp
          have hp3 := (uniquePatterns_mem _ p).mp hp
          rw [List.append_assoc, List.mem_append, List.mem_append] at hp3
          rcases hp3 with hp1 | hp2 | hp3
          · have := combineWithSuffix_shape "\\.".toList (by decide) _
              (hH ▸ octetRangePattern_fragOK _ _) _ (4 - (index + 1))
              (fun s hs => by
                obtain ⟨row, h1, h2, h3⟩ := ih start _ (index + 1) (by omega) s hs
                exact ⟨row, h1, h2, fun g hg => hH ▸ h3 g hg⟩) p hp1
            obtain ⟨row, h1, h2, h3⟩ := this
            exact ⟨row, h1, by omega, fun g hg => hH ▸ h3 g hg⟩
          · by_cases hmid : start.getD index 0 + 1 ≤ e.getD index 0 - 1
            · rw [if_pos hmid] at hp2
              rw [List.mem_singleton.mp hp2]
              by_cases hemp : (ipv4AnySuffix (4 - index - 1)).isEmpty
              · rw [if_pos hemp]
                refine ⟨[octetRangePattern (start.getD index 0 + 1) (e.getD index 0 - 1)],
                  rfl, ?_, ?_⟩
                · have h3 : index = 3 := by
                    by_contra hne
                    have hcnt : 0 < 4 - index - 1 := by omega
                    rw [ipv4AnySuffix_shape hcnt] at hemp
                    exact intercalateStr_ne_nil (by decide)
                      (by simp; omega)
                      (fun g hg => by
                        rw [List.eq_of_mem_replicate hg]; exact anyOctet_fragOK.1)
                      (List.isEmpty_iff.mp hemp)
                  simp [h3]
                · intro g hg
                  rw [List.mem_singleton.mp hg]
                  exact octetRangePattern_fragOK _ _
              · rw [if_neg hemp]
                have hcnt : 0 < 4 - index - 1 := by
                  by_contra hc
                  have : 4 - index - 1 = 0 := by omega
                  rw [this] at hemp
                  exact hemp (by decide)
                refine ⟨octetRangePattern (start.getD index 0 + 1) (e.getD index 0 - 1) ::
                  List.replicate (4 - index - 1) IPV4_ANY_OCTET, ?_, ?_, ?_⟩
                · rw [ipv4AnySuffix_shape hcnt]
                  have hrep : List.replicate (4 - index - 1) IPV4_ANY_OCTET ≠ [] := by
                    intro hnil
                    have := congrArg List.length hnil
                    simp at this
                    omega
                  match h : List.replicate (4 - index - 1) IPV4_ANY_OCTET, hrep with
                  | g2 :: rest, _ => rw [intercalateStr_cons_cons]
                · simp
                  omega
                · intro g hg
                  rcases List.mem_cons.mp hg with rfl | hg2
                  · exact octetRangePattern_fragOK _ _
                  · rw [List.eq_of_mem_replicate hg2]
                    exact anyOctet_fragOK
            · rw [if_neg hmid] at hp2
              simp at hp2
          · have := combineWithSuffix_shape "\\.".toList (by decide) _
              (hH ▸ octetRangePattern_fragOK _ _) _ (4 - (index + 1))
              (fun s hs => by
                obtain ⟨row, h1, h2, h3⟩ := ih _ e (index + 1) (by omega) s hs
                exact ⟨row, h1, h2, fun g hg => hH ▸ h3 g hg⟩) p hp3
            obtain ⟨row, h1, h2, h3⟩ := this
            exact ⟨row, h1, by omega, fun g hg => hH ▸ h3 g hg⟩

theorem mapM_option_all {α β : Type} (f : α → Option β) :
    ∀ (l : List α), (∀ a ∈ l, ∃ b, f a = some b) → ∃ bs, l.mapM f = some bs := by
  intro l
  induction l with
  | nil => exact fun _ => ⟨[], rfl⟩
  | cons a t ih =>
    intro h
    obtain ⟨b, hb⟩ := h a (List.mem_cons_self _ _)
    obtain ⟨bs, hbs⟩ := ih (fun x hx => h x (List.mem_cons_of_mem _ hx))
    refine ⟨b :: bs, ?_⟩
    rw [List.mapM_cons, hb, hbs]
    rfl

theorem minimizePatternSet_total (patterns : List Str) (sep : Str) (n : Nat)
    (hsep : sep ≠ []) (hn : 0 < n)
    (hall : ∀ p ∈ patterns, ∃ row, p = intercalateStr sep row ∧ row.length = n ∧
      ∀ g ∈ row, fragOK (sep.headD ' ') g) :
    ∃ out, minimizePatternSet patterns sep n = some out := by
  unfold minimizePatternSet
  by_cases hle : patterns.length ≤ 1
  · rw [if_pos hle]
    exact ⟨patterns, rfl⟩
  · rw [if_neg hle]
    have hsplit : ∀ p ∈ patterns, ∃ row, splitPattern p sep n = some row := by
      intro p hp
      obtain ⟨row, rfl, hlen, hrow⟩ := hall p hp
      refine ⟨row, ?_⟩
      rw [← hlen]
      refine splitPattern_of_safe sep hsep row ?_ ?_
      · intro hnil
        rw [hnil] at hlen
        simp at hlen
        omega
      · exact fun g hg => ⟨(hrow g hg).2.1, (hrow g hg).2.2⟩
    obtain ⟨rows0, hrows0⟩ := mapM_option_all _ patterns hsplit
    refine ⟨(minimizeLoop (uniquePatternRows rows0) n).map (intercalateStr sep), ?_⟩
    rw [hrows0]
    rfl

theorem hexWildcard_ne_nil {n : Nat} (hn : 0 < n) : hexWildcard n ≠ [] := by
  unfold hexWildcard
  rw [if_neg (by omega)]
  by_cases h1 : n = 1
  · rw [if_pos h1]; decide
  · rw [if_neg h1]; simp

theorem partOK_append {a b : Str} (ha : partOK a) (hb : partOK b) : partOK (a ++ b) := by
  constructor
  · intro c hc
    rcases List.mem_append.mp hc with h | h
    · exact ha.1 c h
    · exact hb.1 c h
  · rw [scanFold_append, ha.2, hb.2]

theorem partOK_of_hex {p : Str} (h : ∀ c ∈ p, c ∈ HEX_DIGITS) : partOK p := by
  constructor
  · intro c hc
    obtain ⟨h1, h2, h3, h4, _, _, _⟩ := mem_HEX_props (h c hc)
    exact ⟨h1, h2, h3, h4⟩
  · refine scanFold_inert ?_ 0
    intro c hc
    obtain ⟨_, h2, h3, h4, h5, _, _⟩ := mem_HEX_props (h c hc)
    exact ⟨h4, h5, h2, h3⟩

theorem partOK_hexWildcard (n : Nat) : partOK (hexWildcard n) := by
  unfold hexWildcard
  by_cases h0 : n = 0
  · rw [if_pos h0]
    exact ⟨by simp, rfl⟩
  · rw [if_neg h0]
    by_cases h1 : n = 1
    · rw [if_pos h1]
      exact ⟨by decide, by decide⟩
    · rw [if_neg h1]
      refine partOK_append ⟨by decide, by decide⟩ ?_
      constructor
      · intro c hc
        rcases List.mem_cons.mp hc with rfl | hc2
        · exact ⟨by decide, by decide, by decide, by decide⟩
        · rcases List.mem_append.mp hc2 with h | h
          · obtain ⟨h1, h2, h3, h4, h5, h6, h7, h8⟩ := digit_props (decStr_chars _ c h)
            exact ⟨h6, h4, h5, h1⟩
          · rw [List.mem_singleton.mp h]
            exact ⟨by decide, by decide, by decide, by decide⟩
      · refine scanFold_inert ?_ 0
        intro c hc
        rcases List.mem_cons.mp hc with rfl | hc2
        · exact ⟨by decide, by decide, by decide, by decide⟩
        · rcases List.mem_append.mp hc2 with h | h
          · obtain ⟨h1, h2, h3, h4, h5, h6, h7, h8⟩ := digit_props (decStr_chars _ c h)
            exact ⟨h1, h2, h4, h5⟩
          · rw [List.mem_singleton.mp h]
            exact ⟨by decide, by decide, by decide, by decide⟩

theorem hexDigitRange_check (a b : Nat) (ha : a < 16) (hb : b < 16) :
    hexFragCheck (hexDigitRange a b) = true := by
  interval_cases a <;> interval_cases b <;> decide

theorem partOK_of_check {p : Str} (h : hexFragCheck p = true) : partOK p ∧ p ≠ [] := by
  simp only [hexFragCheck, Bool.and_eq_true, List.all_eq_true] at h
  obtain ⟨⟨hne, hch⟩, hsf⟩ := h
  refine ⟨⟨?_, of_decide_eq_true hsf⟩, ?_⟩
  · intro c hc
    have := hch c hc
    simp only [Bool.and_eq_true, bne_iff_ne] at this
    exact ⟨this.1.1.1, this.1.1.2, this.1.2, this.2⟩
  · simpa using hne

theorem hexDigitRange_ne_nil (a b : Nat) : hexDigitRange a b ≠ [] := by
  unfold hexDigitRange
  by_cases h : a = b
  · rw [if_pos h]; simp
  · rw [if_neg h]; simp

theorem hexRangePartsF_ok : ∀ (fuel : Nat) (low high : Str),
    (∀ c ∈ low, c ∈ HEX_DIGITS) → (∀ c ∈ high, c ∈ HEX_DIGITS) →
    ∃ parts, hexRangePartsF fuel low high = some parts ∧ ∀ p ∈ parts, partOK p := by
  intro fuel
  induction fuel with
  | zero =>
    intro low high _ _
    exact ⟨[], rfl, by simp⟩
  | succ f ih =>
    intro low high hlow hhigh
    by_cases hlen : low.length ≠ high.length
    · refine ⟨[], ?_, by simp⟩
      simp only [hexRangePartsF]
      rw [if_pos hlen]
    · by_cases heq : low = high
      · refine ⟨[low], ?_, ?_⟩
        · simp only [hexRangePartsF]
          rw [if_neg hlen, if_pos heq]
        · intro p hp
          rw [List.mem_singleton.mp hp]
          exact partOK_of_hex hlow
      · by_cases hwild : low = List.replicate low.length '0' ∧
            high = List.replicate low.length 'f'
        · refine ⟨[hexWildcard low.length], ?_, ?_⟩
          · simp only [hexRangePartsF]
            rw [if_neg hlen, if_neg heq, if_pos hwild]
          · intro p hp
            rw [List.mem_singleton.mp hp]
            exact partOK_hexWildcard _
        · by_cases hsi : commonPrefixLen low high = low.length
          · refine ⟨[low], ?_, ?_⟩
            · simp only [hexRangePartsF]
              rw [if_neg hlen, if_neg heq, if_neg hwild, if_pos hsi]
            · intro p hp
              rw [List.mem_singleton.mp hp]
              exact partOK_of_hex hlow
          · have hlen' : low.length = high.length := not_ne_iff.mp hlen
            have hsil : commonPrefixLen low high < low.length :=
              lt_of_le_of_ne (commonPrefixLen_le_left _ _) hsi
            have hsih : commonPrefixLen low high < high.length := by omega
            have hmeml : low.getD (commonPrefixLen low high) '?' ∈ low := by
              rw [List.getD_eq_getElem low '?' hsil]
              exact List.getElem_mem _
            have hmemh : high.getD (commonPrefixLen low high) '?' ∈ high := by
              rw [List.getD_eq_getElem high '?' hsih]
              exact List.getElem_mem _
            obtain ⟨ld, hld, hld16⟩ := hexValue_mem (hlow _ hmeml)
            obtain ⟨hd, hhd, hhd16⟩ := hexValue_mem (hhigh _ hmemh)
            obtain ⟨lowParts, hlp, hlpok⟩ := ih (low.drop (commonPrefixLen low high + 1))
              (List.replicate (low.length - commonPrefixLen low high - 1) 'f')
              (fun c hc => hlow c (List.mem_of_mem_drop hc))
              (fun c hc => by rw [List.eq_of_mem_replicate hc]; decide)
            obtain ⟨upParts, hup, hupok⟩ := ih
              (List.replicate (low.length - commonPrefixLen low high - 1) '0')
              (high.drop (commonPrefixLen low high + 1))
              (fun c hc => by rw [List.eq_of_mem_replicate hc]; decide)
              (fun c hc => hhigh c (List.mem_of_mem_drop hc))
            refine ⟨uniquePatterns
              ((lowParts.map fun suffix =>
                  low.take (commonPrefixLen low high) ++ hexDigitRange ld ld ++ suffix) ++
                (if ld + 1 ≤ hd - 1 then
                  [low.take (commonPrefixLen low high) ++ hexDigitRange (ld + 1) (hd - 1) ++
                    hexWildcard (low.length - commonPrefixLen low high - 1)]
                else []) ++
                (upParts.map fun suffix =>
                  low.take (commonPrefixLen low high) ++ hexDigitRange hd hd ++ suffix)),
              ?_, ?_⟩
            · simp only [hexRangePartsF]
              rw [if_neg hlen, if_neg heq, if_neg hwild, if_neg hsi]
              simp only [hld, hhd, hlp, hup]
              rfl
            · intro p hp
              have hp2 := (uniquePatterns_mem _ p).mp hp
              rw [List.append_assoc, List.mem_append, List.mem_append] at hp2
              have hpfx : partOK (low.take (commonPrefixLen low high)) :=
                partOK_of_hex (fun c hc => hlow c (List.mem_of_mem_take hc))
              rcases hp2 with h1 | h2 | h3
              · obtain ⟨suffix, hs, rfl⟩ := List.mem_map.mp h1
                exact partOK_append (partOK_append hpfx
                  (partOK_of_check (hexDigitRange_check ld ld hld16 hld16)).1)
                  (hlpok suffix hs)
              · by_cases hmid : ld + 1 ≤ hd - 1
                · rw [if_pos hmid] at h2
                  rw [List.mem_singleton.mp h2]
                  exact partOK_append (partOK_append hpfx
                    (partOK_of_check
                      (hexDigitRange_check (ld + 1) (hd - 1) (by omega) (by omega))).1)
                    (partOK_hexWildcard _)
                · rw [if_neg hmid] at h2
                  simp at h2
              · obtain ⟨suffix, hs, rfl⟩ := List.mem_map.mp h3
                exact partOK_append (partOK_append hpfx
                  (partOK_of_check (hexDigitRange_check hd hd hhd16 hhd16)).1)
                  (hupok suffix hs)

theorem hexRangePartsF_ne_nil : ∀ (f : Nat) (low high : Str), low ≠ [] →
    ∀ {parts : List Str}, hexRangePartsF (f + 1) low high = some parts →
    ∀ p ∈ parts, p ≠ [] := by
  intro f low high hlow parts h p hp
  simp only [hexRangePartsF] at h
  by_cases hlen : low.length ≠ high.length
  · rw [if_pos hlen] at h
    injection h with h
    subst h
    simp at hp
  · rw [if_neg hlen] at h
    by_cases heq : low = high
    · rw [if_pos heq] at h
      injection h with h
      subst h
      rw [List.mem_singleton.mp hp]
      exact hlow
    · rw [if_neg heq] at h
      by_cases hwild : low = List.replicate low.length '0' ∧
          high = List.replicate low.length 'f'
      · rw [if_pos hwild] at h
        injection h with h
        subst h
        rw [List.mem_singleton.mp hp]
        exact hexWildcard_ne_nil (List.length_pos.mpr hlow)
      · rw [if_neg hwild] at h
        by_cases hsi : commonPrefixLen low high = low.length
        · rw [if_pos hsi] at h
          injection h with h
          subst h
          rw [List.mem_singleton.mp hp]
          exact hlow
        · rw [if_neg hsi] at h
          rcases hld : hexValue (low.getD (commonPrefixLen low high) '?') with _ | ld
          · simp only [hld] at h
            simp at h
          · simp only [hld] at h
            rcases hhd : hexValue (high.getD (commonPrefixLen low high) '?') with _ | hd
            · simp only [hhd] at h
              simp at h
            · simp only [hhd] at h
              rcases hlp : hexRangePartsF f (low.drop (commonPrefixLen low high + 1))
                  (List.replicate (low.length - commonPrefixLen low high - 1) 'f')
                  with _ | lowParts
              · simp only [hlp] at h
                simp at h
              · simp only [hlp] at h
                rcases hup : hexRangePartsF f
                    (List.replicate (low.length - commonPrefixLen low high - 1) '0')
                    (high.drop (commonPrefixLen low high + 1)) with _ | upParts
                · simp only [hup] at h
                  simp at h
                · simp only [hup] at h
                  have h2 : parts = uniquePatterns
                      ((lowParts.map fun suffix => low.take (commonPrefixLen low high) ++
                          hexDigitRange ld ld ++ suffix) ++
                        (if ld + 1 ≤ hd - 1 then
                          [low.take (commonPrefixLen low high) ++
                            hexDigitRange (ld + 1) (hd - 1) ++
                            hexWildcard (low.length - commonPrefixLen low high - 1)]
                        else []) ++
                        (upParts.map fun suffix => low.take (commonPrefixLen low high) ++
                          hexDigitRange hd hd ++ suffix)) := by
                    injection h with h
                    exact h.symm
                  subst h2
                  have hp2 := (uniquePatterns_mem _ p).mp hp
                  rw [List.append_assoc, List.mem_append, List.mem_append] at hp2
                  rcases hp2 with h1 | h2 | h3
                  · obtain ⟨suffix, _, rfl⟩ := List.mem_map.mp h1
                    intro hnil
                    obtain ⟨hnil2, -⟩ := List.append_eq_nil.mp hnil
                    exact hexDigitRange_ne_nil _ _ (List.append_eq_nil.mp hnil2).2
                  · by_cases hmid : ld + 1 ≤ hd - 1
                    · rw [if_pos hmid] at h2
                      rw [List.mem_singleton.mp h2]
                      intro hnil
                      obtain ⟨hnil2, -⟩ := List.append_eq_nil.mp hnil
                      exact hexDigitRange_ne_nil _ _ (List.append_eq_nil.mp hnil2).2
                    · rw [if_neg hmid] at h2
                      simp at h2
                  · obtain ⟨suffix, _, rfl⟩ := List.mem_map.mp h3
                    intro hnil
                    obtain ⟨hnil2, -⟩ := List.append_eq_nil.mp hnil
                    exact hexDigitRange_ne_nil _ _ (List.append_eq_nil.mp hnil2).2

theorem hextetRangePattern_ok (a b : Nat) :
    ∃ s, hextetRangePattern a b = some s ∧ fragOK ':' s := by
  unfold hextetRangePattern
  by_cases hfull : a = 0 ∧ b = 0xffff
  · rw [if_pos hfull]
    exact ⟨_, rfl, by decide, by decide, by decide⟩
  · rw [if_neg hfull]
    by_cases heq : a = b
    · rw [if_pos heq]
      refine ⟨_, rfl, pad4_ne_nil (hexStr_ne_nil _), ?_, ?_⟩
      · refine noSplitIn_of_ne ?_ _
        intro c hc
        exact (mem_HEX_props (pad4_chars (hexStr_chars _) c hc)).1
      · refine scanFold_inert ?_ 0
        intro c hc
        obtain ⟨_, h2, h3, h4, h5, _, _⟩ := mem_HEX_props (pad4_chars (hexStr_chars _) c hc)
        exact ⟨h4, h5, h2, h3⟩
    · rw [if_neg heq]
      obtain ⟨parts, hparts, hpok⟩ := hexRangePartsF_ok ((pad4 (hexStr a)).length + 1)
        (pad4 (hexStr a)) (pad4 (hexStr b))
        (pad4_chars (hexStr_chars a)) (pad4_chars (hexStr_chars b))
      have hw : hexRangeParts (pad4 (hexStr a)) (pad4 (hexStr b)) = some parts := hparts
      rw [hw]
      refine ⟨orPattern parts, rfl, ?_⟩
      have hne := hexRangePartsF_ne_nil _ _ _ (pad4_ne_nil (hexStr_ne_nil a)) hparts
      exact orPattern_fragOK (by decide) parts hne
        (fun p hp => ⟨(hpok p hp).1, (hpok p hp).2⟩)

theorem ipv6AnySuffix_shape {count : Nat} (hc : 0 < count) :
    ipv6AnySuffix count = intercalateStr [':'] (List.replicate count IPV6_ANY_HEXTET) := by
  unfold ipv6AnySuffix
  rw [if_neg (by omega)]

theorem anyHextet_fragOK : fragOK ':' IPV6_ANY_HEXTET :=
  ⟨by decide, by decide, by decide⟩

theorem buildIPv6_shape : ∀ (fuel : Nat) (start e : List Nat) (index : Nat),
    index ≤ 8 → ∃ pats, buildIPv6PatternsF fuel start e index = some pats ∧
    ∀ p ∈ pats, ∃ row, p = intercalateStr [':'] row ∧ row.length = 8 - index ∧
      ∀ g ∈ row, fragOK ':' g := by
  intro fuel
  induction fuel with
  | zero =>
    intro start e index _
    exact ⟨[], rfl, by simp⟩
  | succ f ih =>
    intro start e index hidx
    have hH : ([':'] : Str).headD ' ' = ':' := rfl
    by_cases h8 : index = 8
    · refine ⟨[[]], ?_, ?_⟩
      · simp only [buildIPv6PatternsF]
        rw [if_pos h8]
      · intro p hp
        rw [List.mem_singleton.mp hp]
        exact ⟨[], rfl, by simp [h8], by simp⟩
    · by_cases hfull : isFullRange start e index 0 0xffff = true
      · refine ⟨[ipv6AnySuffix (8 - index)], ?_, ?_⟩
        · simp only [buildIPv6PatternsF]
          rw [if_neg h8, if_pos hfull]
        · intro p hp
          rw [List.mem_singleton.mp hp]
          refine ⟨List.replicate (8 - index) IPV6_ANY_HEXTET,
            ipv6AnySuffix_shape (by omega), by simp, ?_⟩
          intro g hg
          rw [List.eq_of_mem_replicate hg]
          exact anyHextet_fragOK
      · by_cases heq : start.getD index 0 = e.getD index 0
        · obtain ⟨frag, hfrag, hfragOK⟩ :=
            hextetRangePattern_ok (start.getD index 0) (e.getD index 0)
          obtain ⟨rest, hrest, hrestOK⟩ := ih start e (index + 1) (by omega)
          refine ⟨combineWithSuffix frag rest [':'], ?_, ?_⟩
          · simp only [buildIPv6PatternsF]
            rw [if_neg h8, if_neg hfull, if_pos heq]
            simp only [hfrag, hrest]
            rfl
          · intro p hp
            have := combineWithSuffix_shape [':'] (by decide) frag (hH ▸ hfragOK)
              rest (8 - (index + 1))
              (fun s hs => by
                obtain ⟨row, h1, h2, h3⟩ := hrestOK s hs
                exact ⟨row, h1, h2, fun g hg => hH ▸ h3 g hg⟩) p hp
            obtain ⟨row, h1, h2, h3⟩ := this
            exact ⟨row, h1, by omega, fun g hg => hH ▸ h3 g hg⟩
        · obtain ⟨fragLow, hfragLow, hfragLowOK⟩ :=
            hextetRangePattern_ok (start.getD index 0) (start.getD index 0)
          obtain ⟨restLow, hrestLow, hrestLowOK⟩ :=
            ih start (overwriteAfter (start.set index (start.getD index 0)) index 0xffff)
              (index + 1) (by omega)
          obtain ⟨fragHigh, hfragHigh, hfragHighOK⟩ :=
            hextetRangePattern_ok (e.getD index 0) (e.getD index 0)
          obtain ⟨restHigh, hrestHigh, hrestHighOK⟩ :=
            ih (overwriteAfter (e.set index (e.getD index 0)) index 0) e
              (index + 1) (by omega)
          by_cases hmid : start.getD index 0 + 1 ≤ e.getD index 0 - 1
          · obtain ⟨mid, hmidv, hmidOK⟩ :=
              hextetRangePattern_ok (start.getD index 0 + 1) (e.getD index 0 - 1)
            refine ⟨uniquePatterns (combineWithSuffix fragLow restLow [':'] ++
              [if (ipv6AnySuffix (8 - index - 1)).isEmpty then mid
                else mid ++ ':' :: ipv6AnySuffix (8 - index - 1)] ++
              combineWithSuffix fragHigh restHigh [':']), ?_, ?_⟩
            · simp only [buildIPv6PatternsF]
              rw [if_neg h8, if_neg hfull, if_neg heq]
              simp only [hfragLow, hrestLow, Option.bind_eq_bind', Option.some_bind]
              rw [if_pos hmid]
              simp only [hmidv, hfragHigh, hrestHigh, Option.bind_eq_bind', Option.some_bind]
            · intro p hp
              have hp2 := (uniquePatterns_mem _ p).mp hp
              rw [List.append_assoc, List.mem_append, List.mem_append] at hp2
              rcases hp2 with h1 | h2 | h3
              · have := combineWithSuffix_shape [':'] (by decide) fragLow (hH ▸ hfragLowOK)
                  restLow (8 - (index + 1))
                  (fun s hs => by
                    obtain ⟨row, ha, hb, hc2⟩ := hrestLowOK s hs
                    exact ⟨row, ha, hb, fun g hg => hH ▸ hc2 g hg⟩) p h1
                obtain ⟨row, ha, hb, hc2⟩ := this
                exact ⟨row, ha, by omega, fun g hg => hH ▸ hc2 g hg⟩
              · rw [List.mem_singleton.mp h2]
                by_cases hemp : (ipv6AnySuffix (8 - index - 1)).isEmpty
                · rw [if_pos hemp]
                  refine ⟨[mid], rfl, ?_, ?_⟩
                  · have h7 : index = 7 := by
                      by_contra hne
                      have hcnt : 0 < 8 - index - 1 := by omega
                      rw [ipv6AnySuffix_shape hcnt] at hemp
                      refine intercalateStr_ne_nil (by decide) ?_ ?_
                        (List.isEmpty_iff.mp hemp)
                      · intro hnil
                        have := congrArg List.length hnil
                        simp at this
                        omega
                      · intro g hg
                        rw [List.eq_of_mem_replicate hg]
                        exact anyHextet_fragOK.1
                    simp [h7]
                  · intro g hg
                    rw [List.mem_singleton.mp hg]
                    exact hmidOK
                · rw [if_neg hemp]
                  have hcnt : 0 < 8 - index - 1 := by
                    by_contra hc2
                    have hz : 8 - index - 1 = 0 := by omega
                    rw [hz] at hemp
                    exact hemp (by decide)
                  refine ⟨mid :: List.replicate (8 - index - 1) IPV6_ANY_HEXTET, ?_, ?_, ?_⟩
                  · rw [ipv6AnySuffix_shape hcnt]
                    have hrep : List.replicate (8 - index - 1) IPV6_ANY_HEXTET ≠ [] := by
                      intro hnil
                      have := congrArg List.length hnil
                      simp at this
                      omega
                    match h : List.replicate (8 - index - 1) IPV6_ANY_HEXTET, hrep with
                    | g2 :: rest2, _ =>
                      rw [intercalateStr_cons_cons, List.append_assoc]
                      rfl
                  · simp
                    omega
                  · intro g hg
                    rcases List.mem_cons.mp hg with rfl | hg2
                    · exact hmidOK
                    · rw [List.eq_of_mem_replicate hg2]
                      exact anyHextet_fragOK
              · have := combineWithSuffix_shape [':'] (by decide) fragHigh
                  (hH ▸ hfragHighOK) restHigh (8 - (index + 1))
                  (fun s hs => by
                    obtain ⟨row, ha, hb, hc2⟩ := hrestHighOK s hs
                    exact ⟨row, ha, hb, fun g hg => hH ▸ hc2 g hg⟩) p h3
                obtain ⟨row, ha, hb, hc2⟩ := this
                exact ⟨row, ha, by omega, fun g hg => hH ▸ hc2 g hg⟩
          · refine ⟨uniquePatterns (combineWithSuffix fragLow restLow [':'] ++ [] ++
              combineWithSuffix fragHigh restHigh [':']), ?_, ?_⟩
            · simp only [buildIPv6PatternsF]
              rw [if_neg h8, if_neg hfull, if_neg heq]
              simp only [hfragLow, hrestLow, Option.bind_eq_bind', Option.some_bind]
              rw [if_neg hmid]
              simp only [hfragHigh, hrestHigh, Option.bind_eq_bind', Option.some_bind]
            · intro p hp
              have hp2 := (uniquePatterns_mem _ p).mp hp
              rw [List.append_assoc, List.mem_append, List.mem_append] at hp2
              rcases hp2 with h1 | h2 | h3
              · have := combineWithSuffix_shape [':'] (by decide) fragLow (hH ▸ hfragLowOK)
                  restLow (8 - (index + 1))
                  (fun s hs => by
                    obtain ⟨row, ha, hb, hc2⟩ := hrestLowOK s hs
                    exact ⟨row, ha, hb, fun g hg => hH ▸ hc2 g hg⟩) p h1
                obtain ⟨row, ha, hb, hc2⟩ := this
                exact ⟨row, ha, by omega, fun g hg => hH ▸ hc2 g hg⟩
              · simp at h2
              · have := combineWithSuffix_shape [':'] (by decide) fragHigh
                  (hH ▸ hfragHighOK) restHigh (8 - (index + 1))
                  (fun s hs => by
                    obtain ⟨row, ha, hb, hc2⟩ := hrestHighOK s hs
                    exact ⟨row, ha, hb, fun g hg => hH ▸ hc2 g hg⟩) p h3
                obtain ⟨row, ha, hb, hc2⟩ := this
                exact ⟨row, ha, by omega, fun g hg => hH ▸ hc2 g hg⟩

/-- C2: for any candidate pattern set given to the minimizer — a list of
patterns each of which splits into a row of well-formed per-segment fragments,
as the builders produce — the minimized pattern set matches exactly the same
set of strings as the pre-minimization candidate set, and the number of rows
after minimization is at most the number before. -/
theorem C2_minimizer_preserves_language (patterns : List Str) (separator : Str)
    (n : Nat) (hsOk : SegOk separator) (hsq : quantHead separator = false)
    (hsne : separator ≠ [])
    (hsplit : ∀ p ∈ patterns, ∀ row,
      splitPattern p separator n = some row → RowOk n row)
    (out : List Str) (hout : minimizePatternSet patterns separator n = some out) :
    out.length ≤ patterns.length ∧
    (∀ w, (∃ q ∈ out, patAccepts q w = true) ↔
          (∃ p ∈ patterns, patAccepts p w = true)) := by
  obtain ⟨hlen, hlang, hseg⟩ :=
    minimizePatternSet_spec patterns separator n hsOk hsq hsne hsplit out hout
  refine ⟨hlen, ?_⟩
  rcases hseg with rfl | ⟨hq, hp⟩
  · intro w
    exact Iff.rfl
  · intro w
    constructor
    · rintro ⟨q, hqm, hacc⟩
      obtain ⟨p, hpm, hps⟩ := (hlang w).mp
        ⟨q, hqm, (patAccepts_iff_segL (hq q hqm) w).mp hacc⟩
      exact ⟨p, hpm, (patAccepts_iff_segL (hp p hpm) w).mpr hps⟩
    · rintro ⟨p, hpm, hacc⟩
      obtain ⟨q, hqm, hqs⟩ := (hlang w).mpr
        ⟨p, hpm, (patAccepts_iff_segL (hp p hpm) w).mp hacc⟩
      exact ⟨q, hqm, (patAccepts_iff_segL (hq q hqm) w).mpr hqs⟩

theorem C2_minimizer_preserves_language_witness :
    minimizePatternSet ["10\\.0".toList, "10\\.1".toList] "\\.".toList 2 =
      some ["10\\.(?:0|1)".toList] ∧
    ["10\\.(?:0|1)".toList].length ≤ ["10\\.0".toList, "10\\.1".toList].length ∧
    (∀ w, (∃ q ∈ ["10\\.(?:0|1)".toList], patAccepts q w = true) ↔
          (∃ p ∈ ["10\\.0".toList, "10\\.1".toList], patAccepts p w = true)) := by
  have h := C2_minimizer_preserves_language
    ["10\\.0".toList, "10\\.1".toList] "\\.".toList 2
    (SegOk_of_check (by decide)) (by decide) (by decide)
    (by
      intro p hp row hrow
      refine RowOk_of_split_check hrow ?_
      fin_cases hp <;> decide)
    ["10\\.(?:0|1)".toList] (by decide)
  exact ⟨by decide, h.1, h.2⟩

/-- C9: the compiled IPv4 regexes match octets only in minimal decimal form:
the wildcard octet fragment `IPV4_ANY_OCTET` matches exactly the 256 unpadded
strings `"0"`–`"255"`, a fixed octet is emitted as its plain decimal literal
(`octetValuePattern` is literally `decStr`), and the regex compiled from
`10.0.0.0/24` rejects the zero-padded `"010.000.000.001"` while accepting the
minimal `"10.0.0.1"` of the same in-interval address. -/
theorem C9_minimal_decimal_octets :
    (∀ s, patAccepts IPV4_ANY_OCTET s = true ↔ s ∈ (List.range 256).map decStr) ∧
    (∀ v, octetValuePattern v = decStr v) ∧
    (cidrToRegex (.str "10.0.0.0/24".toList)).map
      (fun re => (regexAccepts re "010.000.000.001".toList,
                  regexAccepts re "10.0.0.1".toList)) = .ok (false, true) :=
  ⟨fun s => (anyOctet_accepts_iff s).trans
    ⟨fun h => by
      obtain ⟨n, hn, rfl⟩ := h
      exact List.mem_map.mpr ⟨n, List.mem_range.mpr (by omega), rfl⟩,
     fun h => by
      obtain ⟨n, hn, rfl⟩ := List.mem_map.mp h
      exact ⟨n, by have := List.mem_range.mp hn; omega, rfl⟩⟩,
   fun _ => rfl, by decide⟩


/-- C7: the parser is the sole failure point.  Errors of `parseCidr` propagate
unchanged through `cidrToRegex`, and once parsing succeeds every downstream
stage is total: the builders, `splitPattern` (whose segment-count throw is
modeled by `none`) and `hexValue` (whose invalid-hex-digit throw is modeled by
`none`) all succeed, so `cidrToRegex` returns a regex. -/
theorem C7_parser_sole_failure (input : JSValue) :
    (∀ msg, parseCidr input = .error msg → cidrToRegex input = .error msg) ∧
    (∀ pc, parseCidr input = .ok pc → ∃ re, cidrToRegex input = .ok re) := by
  constructor
  · intro msg h
    unfold cidrToRegex
    rw [h]
  · intro pc h
    obtain ⟨fam, addr, plen⟩ := pc
    have hH4 : ("\\.".toList).headD ' ' = '\\' := rfl
    cases fam
    · have hsh4 : ∀ p ∈ uniquePatterns (buildIPv4Patterns
          (ipv4ToOctets (normalizeRange addr IPV4_BITS plen).1)
          (ipv4ToOctets (normalizeRange addr IPV4_BITS plen).2) 0),
          ∃ row, p = intercalateStr "\\.".toList row ∧ row.length = 4 ∧
            ∀ g ∈ row, fragOK (("\\.".toList).headD ' ') g := by
        intro p hp
        have hp2 := (uniquePatterns_mem _ p).mp hp
        obtain ⟨row, h1, h2, h3⟩ := buildIPv4_shape 5 _ _ 0 (by omega) p hp2
        exact ⟨row, h1, h2, fun g hg => hH4 ▸ h3 g hg⟩
      obtain ⟨out, hout⟩ := minimizePatternSet_total _ _ 4 (by decide) (by decide) hsh4
      refine ⟨buildRegex out false, ?_⟩
      simp only [cidrToRegex, h]
      rw [hout]
    · have hH6 : ([':'] : Str).headD ' ' = ':' := rfl
      obtain ⟨pats, hpats, hshape⟩ := buildIPv6_shape 9
        (ipv6ToHextets (normalizeRange addr IPV6_BITS plen).1)
        (ipv6ToHextets (normalizeRange addr IPV6_BITS plen).2) 0 (by omega)
      have hsh6 : ∀ p ∈ uniquePatterns pats,
          ∃ row, p = intercalateStr [':'] row ∧ row.length = 8 ∧
            ∀ g ∈ row, fragOK (([':'] : Str).headD ' ') g := by
        intro p hp
        have hp2 := (uniquePatterns_mem _ p).mp hp
        obtain ⟨row, h1, h2, h3⟩ := hshape p hp2
        exact ⟨row, h1, h2, fun g hg => hH6 ▸ h3 g hg⟩
      obtain ⟨out, hout⟩ := minimizePatternSet_total _ _ 8 (by decide) (by decide) hsh6
      refine ⟨buildRegex out true, ?_⟩
      simp only [cidrToRegex, h]
      have hpats' : buildIPv6Patterns (ipv6ToHextets (normalizeRange addr IPV6_BITS plen).1)
          (ipv6ToHextets (normalizeRange addr IPV6_BITS plen).2) 0 = some pats := hpats
      rw [hpats']
      simp only [hout]

theorem C7_parser_sole_failure_witness :
    ∃ re, cidrToRegex (.str "10.0.0.0/24".toList) = .ok re :=
  (C7_parser_sole_failure _).2 ⟨.ipv4, 167772160, 24⟩ (by decide)

end Cidr
